import Mathlib

/-!
# CPU scheduling simulator (`sched.c`): FCFS and non-preemptive SJF

A shallow embedding of `src/sched.c`.

* C `int` is a 32-bit two's-complement integer.  Fields are carried as `Int`; every
  addition and subtraction of the source goes through `wrapInt`, which reduces the exact
  result into `[INT_MIN, INT_MAX]`.
* A `Process *p` array of `n` records is a `List Process` with `n = p.length`.
* `qsort` is a library routine; it is modelled by insertion sort driven by the sign of the
  comparator, exactly as a comparison sort consults it.
* The `while` loop of `simulate_sjf` carries fuel; running out of fuel is `none`, and the
  development proves that the fuel handed over by `simulate_sjf` is always enough.
* Memory allocation is assumed to succeed; printing is not modelled, the simulators return
  what they hand to the printers (the segment buffer `seg[0..m)` and the process table).
-/

namespace Sched

/-! ## Machine integers -/

def INT_MAX : Int := 2147483647

def INT_MIN : Int := -2147483648

/-- Reduction of an exact integer into the range of a 32-bit `int`. -/
def wrapInt (x : Int) : Int := (x + 2147483648) % 4294967296 - 2147483648

/-! ## Data model -/

/-- The `Process` struct. -/
structure Process where
  pid : Int
  arrival_time : Int
  burst_time : Int
  start_time : Int
  completion_time : Int
  turnaround_time : Int
  waiting_time : Int
  response_time : Int
  done : Int
deriving DecidableEq, Repr, Inhabited

/-- The text written into `Segment.label`: `"P%d"` of a pid, or `"IDLE"`. -/
inductive Label where
  | proc (pid : Int)
  | idle
deriving DecidableEq, Repr

/-- The `Segment` struct (`stop` is the field `end`). -/
structure Segment where
  label : Label
  start : Int
  stop : Int
deriving DecidableEq, Repr

/-! ## Ordering utilities and the metric finalizer -/

def cmp_arrival_pid (x y : Process) : Int :=
  if x.arrival_time ≠ y.arrival_time then wrapInt (x.arrival_time - y.arrival_time)
  else wrapInt (x.pid - y.pid)

def cmp_pid (x y : Process) : Int := wrapInt (x.pid - y.pid)

/-- Library `qsort` with comparator `cmp`: `x` is placed before `y` when `cmp x y ≤ 0`. -/
def qsort (cmp : Process → Process → Int) (l : List Process) : List Process :=
  l.insertionSort (fun x y => cmp x y ≤ 0)

def finalize (p : Process) : Process :=
  let p1 := { p with turnaround_time := wrapInt (p.completion_time - p.arrival_time) }
  let p2 := { p1 with waiting_time := wrapInt (p1.start_time - p1.arrival_time) }
  { p2 with response_time := p2.waiting_time }

/-- The loop `for (i = 0; i < n; i++) p[i].done = 0;` run on the private copy. -/
def clear_done (l : List Process) : List Process :=
  l.map (fun q => { q with done := 0 })

/-! ## FCFS -/

/-- Loop state of `simulate_fcfs`: the clock, the segments written so far (`m` is their
number) and the records `p[0..i)` already dispatched. -/
structure FcfsState where
  time : Int
  seg : List Segment
  p : List Process
deriving DecidableEq, Repr

/-- One iteration of the `for` loop of `simulate_fcfs` on the record `q = p[i]`. -/
def fcfs_step (s : FcfsState) (q : Process) : FcfsState :=
  let s1 : FcfsState :=
    if s.time < q.arrival_time then
      { s with seg := s.seg ++ [⟨Label.idle, s.time, q.arrival_time⟩], time := q.arrival_time }
    else s
  let q1 := { q with start_time := s1.time }
  let time2 := wrapInt (s1.time + q1.burst_time)
  let q2 := finalize { q1 with completion_time := time2 }
  { time := time2
    seg := s1.seg ++ [⟨Label.proc q2.pid, q2.start_time, q2.completion_time⟩]
    p := s.p ++ [q2] }

def fcfs_loop (s : FcfsState) (l : List Process) : FcfsState :=
  l.foldl fcfs_step s

/-- The function `simulate_fcfs`: returns the segments handed to `print_gantt` and the process
table handed to `print_table_and_avgs`. -/
def simulate_fcfs (input : List Process) : List Segment × List Process :=
  let p := qsort cmp_arrival_pid (clear_done input)
  let s := fcfs_loop ⟨0, [], []⟩ p
  (s.seg, s.p)

/-! ## SJF -/

/-- Body of the `for` loop of `pick_sjf` at index `i`; `none` stands for `idx == -1`. -/
def pick_sjf_step (p : List Process) (t : Int) (idx : Option Nat) (i : Nat) : Option Nat :=
  let pi := p.getD i default
  if pi.done ≠ 0 ∨ pi.arrival_time > t then idx
  else
    match idx with
    | none => some i
    | some j =>
      let pj := p.getD j default
      if pi.burst_time < pj.burst_time then some i
      else if pi.burst_time = pj.burst_time ∧ pi.arrival_time < pj.arrival_time then some i
      else some j

/-- The function `pick_sjf`; `none` stands for the return value `-1`. -/
def pick_sjf (p : List Process) (t : Int) : Option Nat :=
  (List.range p.length).foldl (pick_sjf_step p t) none

def earliest_arrival_not_done (p : List Process) : Int :=
  p.foldl (fun t q => if q.done = 0 ∧ q.arrival_time < t then q.arrival_time else t) INT_MAX

/-- Lines 147-150: the clock starts at the smallest arrival time.  (`p[0]` of an empty array is
not defined by the source; `main` never passes `n = 0`.) -/
def initial_time (p : List Process) : Int :=
  match p with
  | [] => 0
  | p0 :: rest =>
    rest.foldl (fun t q => if q.arrival_time < t then q.arrival_time else t) p0.arrival_time

/-- Loop state of `simulate_sjf` (`m` is `seg.length`). -/
structure SjfState where
  p : List Process
  time : Int
  finished : Nat
  seg : List Segment
deriving DecidableEq, Repr

/-- Lines 159-163: the IDLE branch. -/
def sjf_idle (s : SjfState) (next_t : Int) : SjfState :=
  { s with seg := s.seg ++ [⟨Label.idle, s.time, next_t⟩], time := next_t }

/-- Lines 167-177: dispatch of `p[idx]`. -/
def sjf_dispatch (s : SjfState) (idx : Nat) : SjfState :=
  let q := s.p.getD idx default
  let q1 := { q with start_time := s.time }
  let time2 := wrapInt (s.time + q1.burst_time)
  let q2 := { q1 with completion_time := time2 }
  let q3 := finalize { q2 with done := 1 }
  { p := s.p.set idx q3
    time := time2
    finished := s.finished + 1
    seg := s.seg ++ [⟨Label.proc q3.pid, q3.start_time, q3.completion_time⟩] }

/-- The `while (finished < n)` loop of `simulate_sjf`.  `none`: out of fuel.  The loop is left
either because `finished < n` fails or through the `break` of line 158. -/
def sjf_loop : Nat → SjfState → Option SjfState
  | 0, _ => none
  | fuel + 1, s =>
    if s.finished < s.p.length then
      match pick_sjf s.p s.time with
      | none =>
        let next_t := earliest_arrival_not_done s.p
        if next_t = INT_MAX then some s
        else sjf_loop fuel (sjf_idle s next_t)
      | some idx => sjf_loop fuel (sjf_dispatch s idx)
    else some s

def sjf_init (input : List Process) : SjfState :=
  let p := clear_done input
  { p := p, time := initial_time p, finished := 0, seg := [] }

/-- The loop of `simulate_sjf` run from its initial state, with fuel for `2n` iterations and
the final test. -/
def sjf_run (input : List Process) : Option SjfState :=
  sjf_loop (2 * input.length + 1) (sjf_init input)

/-- The function `simulate_sjf`: the segments handed to `print_gantt` and the process table
handed to `print_table_and_avgs`. -/
def simulate_sjf (input : List Process) : Option (List Segment × List Process) :=
  (sjf_run input).map (fun s => (s.seg, s.p))

/-- A record as `main` builds it: only `pid`, `arrival_time`, `burst_time` are written. -/
def mkProc (pid at_ bt : Int) : Process :=
  { pid := pid, arrival_time := at_, burst_time := bt, start_time := 0, completion_time := 0,
    turnaround_time := 0, waiting_time := 0, response_time := 0, done := 0 }

/-! ## Input conditions -/

/-- What `main` checks of a record, the values being C ints: `arrival_time >= 0`,
`burst_time > 0`. -/
def ValidProc (q : Process) : Prop :=
  0 ≤ q.arrival_time ∧ q.arrival_time ≤ INT_MAX ∧ 0 < q.burst_time ∧ q.burst_time ≤ INT_MAX

instance (q : Process) : Decidable (ValidProc q) := by
  unfold ValidProc; infer_instance

/-- A valid input: `n >= 1` and every record passes the checks of `main`. -/
def ValidInput (l : List Process) : Prop :=
  1 ≤ l.length ∧ ∀ q ∈ l, ValidProc q

instance (l : List Process) : Decidable (ValidInput l) := by
  unfold ValidInput; infer_instance

def sum_burst (l : List Process) : Int := (l.map (fun q => q.burst_time)).sum

def max_arrival (l : List Process) : Int := l.foldr (fun q m => max q.arrival_time m) 0

/-- The whole timeline fits into an `int`: the latest arrival plus the total burst time does
not exceed `INT_MAX`, so the clock never overflows. -/
def Fits (l : List Process) : Prop := max_arrival l + sum_burst l ≤ INT_MAX

instance (l : List Process) : Decidable (Fits l) := by
  unfold Fits; infer_instance

/-- The value `a` is the smallest arrival time of `l`. -/
def IsMinArrival (l : List Process) (a : Int) : Prop :=
  (∃ q ∈ l, q.arrival_time = a) ∧ ∀ q ∈ l, a ≤ q.arrival_time

instance (l : List Process) (a : Int) : Decidable (IsMinArrival l a) := by
  unfold IsMinArrival; infer_instance

/-- The fields a simulator reads: `pid`, `arrival_time`, `burst_time`. -/
def core (q : Process) : Int × Int × Int := (q.pid, q.arrival_time, q.burst_time)

/-! ## Closed forms of one loop iteration -/

/-- The record `p[i]` as one iteration of the FCFS loop leaves it, the clock being `time` when
the iteration starts. -/
def fcfs_record (time : Int) (q : Process) : Process :=
  let st := if time < q.arrival_time then q.arrival_time else time
  let ct := wrapInt (st + q.burst_time)
  { pid := q.pid, arrival_time := q.arrival_time, burst_time := q.burst_time,
    start_time := st, completion_time := ct,
    turnaround_time := wrapInt (ct - q.arrival_time),
    waiting_time := wrapInt (st - q.arrival_time),
    response_time := wrapInt (st - q.arrival_time),
    done := q.done }

/-- The segments one iteration of the FCFS loop appends. -/
def fcfs_segs (time : Int) (q : Process) : List Segment :=
  (if time < q.arrival_time then [⟨Label.idle, time, q.arrival_time⟩] else []) ++
    [⟨Label.proc q.pid, (fcfs_record time q).start_time, (fcfs_record time q).completion_time⟩]

/-! ## Segment sequences -/

/-- Each segment's end is the next segment's start. -/
def Contiguous (seg : List Segment) : Prop :=
  List.Chain' (fun a b => a.stop = b.start) seg

/-- A well-formed timeline that has reached the clock value `time`: contiguous, every segment
non-empty, and the last segment (if any) ends at `time`. -/
structure SegOK (seg : List Segment) (time : Int) : Prop where
  contiguous : Contiguous seg
  nonempty : ∀ x ∈ seg, x.start < x.stop
  last : ∀ x ∈ seg.getLast?, x.stop = time

/-! ## Record properties and the FCFS invariant -/

/-- The derived fields of a record are consistent, in exact integer arithmetic. -/
structure Finalized (a : Process) : Prop where
  completion : a.completion_time = a.start_time + a.burst_time
  turnaround : a.turnaround_time = a.completion_time - a.arrival_time
  waiting : a.waiting_time = a.start_time - a.arrival_time
  response : a.response_time = a.waiting_time
  started : a.arrival_time ≤ a.start_time

/-- Invariant of the FCFS loop when the timeline fits into an `int`; `A` bounds the arrival
times, `rest` are the records still to be dispatched. -/
structure FcfsInv (A : Int) (s : FcfsState) (rest : List Process) : Prop where
  time_nonneg : 0 ≤ s.time
  fits : max s.time A + sum_burst rest ≤ INT_MAX
  valid : ∀ q ∈ rest, ValidProc q ∧ q.arrival_time ≤ A
  fin : ∀ a ∈ s.p, Finalized a ∧ a.completion_time ≤ s.time ∧ 0 < a.burst_time
  order : s.p.Pairwise (fun a b => a.completion_time ≤ b.start_time)
  segs : SegOK s.seg s.time
  reached : s.p ≠ [] → s.seg ≠ [] ∧ ∃ a ∈ s.p, a.completion_time = s.time

/-! ## Orders on records -/

/-- What the non-preemptive guarantee asks of a record. -/
structure Waited (a : Process) : Prop where
  waiting_nonneg : 0 ≤ a.waiting_time
  started : a.arrival_time ≤ a.start_time
  response : a.response_time = a.waiting_time

/-- Arrival order with ties broken by pid, as a relation on the pair `(arrival_time, pid)`. -/
def ArrivalPidLE (a b : Process) : Prop :=
  a.arrival_time < b.arrival_time ∨ (a.arrival_time = b.arrival_time ∧ a.pid ≤ b.pid)

/-- Strict arrival order with ties broken by pid. -/
def ArrivalPidLT (a b : Process) : Prop :=
  a.arrival_time < b.arrival_time ∨ (a.arrival_time = b.arrival_time ∧ a.pid < b.pid)

instance (a b : Process) : Decidable (ArrivalPidLT a b) := by
  unfold ArrivalPidLT; infer_instance

/-- The pid is a non-negative `int`, as `main` assigns it. -/
def PidOK (q : Process) : Prop := 0 ≤ q.pid ∧ q.pid ≤ INT_MAX

instance (q : Process) : Decidable (PidOK q) := by
  unfold PidOK; infer_instance

/-! ## SJF: bookkeeping of the loop -/

/-- A record `pick_sjf` may select at clock value `t`: not done and already arrived. -/
def Eligible (t : Int) (q : Process) : Prop := q.done = 0 ∧ q.arrival_time ≤ t

instance (t : Int) (q : Process) : Decidable (Eligible t q) := by
  unfold Eligible; infer_instance

/-- How the loop was left: the test `finished < n` failed, or the `break` was taken. -/
def SjfExit (r : SjfState) : Prop :=
  r.p.length ≤ r.finished ∨
    (r.finished < r.p.length ∧ pick_sjf r.p r.time = none ∧
      earliest_arrival_not_done r.p = INT_MAX)

/-- The record `p[idx]` as a dispatch at clock value `time` leaves it. -/
def sjf_record (time : Int) (q : Process) : Process :=
  let ct := wrapInt (time + q.burst_time)
  { pid := q.pid, arrival_time := q.arrival_time, burst_time := q.burst_time,
    start_time := time, completion_time := ct,
    turnaround_time := wrapInt (ct - q.arrival_time),
    waiting_time := wrapInt (time - q.arrival_time),
    response_time := wrapInt (time - q.arrival_time),
    done := 1 }

/-- Number of records marked done. -/
def done_count (p : List Process) : Nat := p.countP (fun q => decide (q.done ≠ 0))

/-- The counter `finished` is the number of records marked done. -/
def Counted (s : SjfState) : Prop := s.finished = done_count s.p

/-- Total burst time of the records not yet done. -/
def remaining (p : List Process) : Int :=
  (p.map (fun q => if q.done = 0 then q.burst_time else 0)).sum

/-! ## SJF: the invariant of a timeline that fits into an `int` -/

/-- Invariant of the SJF loop when the timeline fits into an `int`; `A` bounds the arrival
times and `c` lists the `pid`, `arrival_time`, `burst_time` of the input. -/
structure SjfInv (A : Int) (c : List (Int × Int × Int)) (s : SjfState) : Prop where
  counted : Counted s
  frame : s.p.map core = c
  valid : ∀ q ∈ s.p, ValidProc q ∧ q.arrival_time ≤ A
  time_nonneg : 0 ≤ s.time
  fits : max s.time A + remaining s.p ≤ INT_MAX
  fin : ∀ q ∈ s.p, q.done ≠ 0 → Finalized q ∧ q.completion_time ≤ s.time
  shortest : ∀ q ∈ s.p, q.done ≠ 0 → ∀ r ∈ s.p, r.arrival_time ≤ q.start_time →
    r.burst_time < q.burst_time → r.done ≠ 0 ∧ r.completion_time ≤ q.start_time
  segs : SegOK s.seg s.time
  reached : 0 < s.finished → s.seg ≠ [] ∧
    (s.finished < s.p.length ∨ ∃ q ∈ s.p, q.done ≠ 0 ∧ q.completion_time = s.time)

/-! ## Tiling of the timeline -/

/-- The segment sequence tiles the timeline up to the last completion: it is non-empty, every
segment is non-empty, each segment ends where the next starts, and the last one ends at the
largest completion time of the table. -/
def Tiles (seg : List Segment) (table : List Process) : Prop :=
  seg ≠ [] ∧ (∀ x ∈ seg, x.start < x.stop) ∧ Contiguous seg ∧
    ∃ last, seg.getLast? = some last ∧ (∀ q ∈ table, q.completion_time ≤ last.stop) ∧
      ∃ q ∈ table, q.completion_time = last.stop

/-! ## SJF: facts that need no bound on the timeline -/

/-- Invariant of the SJF loop on any valid input, overflowing clock included. -/
structure SjfBase (c : List (Int × Int × Int)) (s : SjfState) : Prop where
  counted : Counted s
  frame : s.p.map core = c
  valid : ∀ q ∈ s.p, ValidProc q
  range : INT_MIN ≤ s.time ∧ s.time ≤ INT_MAX
  waited : ∀ q ∈ s.p, q.done ≠ 0 → Waited q

/-! ## FCFS reads only `pid`, `arrival_time`, `burst_time` -/

/-- The record with the given `pid`, `arrival_time`, `burst_time` and every other field 0. -/
def of_core (c : Int × Int × Int) : Process := mkProc c.1 c.2.1 c.2.2

/-! ## The function `main` -/

/-- How `main` ends: the count is refused (`return 1`), process `i` (1-based) is refused
(`return 1`), or both simulations run on the records built (`return 0`). -/
inductive MainResult where
  | invalid_count
  | invalid_process (i : Nat)
  | ran (procs : List Process) (fcfs : List Segment × List Process)
      (sjf : Option (List Segment × List Process))

/-- The exit status of `main`. -/
def MainResult.status : MainResult → Int
  | MainResult.invalid_count => 1
  | MainResult.invalid_process _ => 1
  | MainResult.ran _ _ _ => 0

/-- The read loop of `main` (lines 201-210) from index `i`, with `k` records still to read.
`pairs` are the pairs `scanf` goes on to convert (when they run out `scanf` does not return 2);
`heap i` is what the allocated memory holds at `procs[i]` before it is written.  The error
value is the process number of the message. -/
def read_procs (heap : Nat → Process) : Nat → Nat → List (Int × Int) → Except Nat (List Process)
  | 0, _, _ => Except.ok []
  | _ + 1, i, [] => Except.error (i + 1)
  | k + 1, i, (a, b) :: rest =>
    if a < 0 ∨ b ≤ 0 then Except.error (i + 1)
    else
      match read_procs heap k (i + 1) rest with
      | Except.error e => Except.error e
      | Except.ok ps =>
        Except.ok ({ heap i with pid := wrapInt (i + 1), arrival_time := a, burst_time := b } :: ps)

/-- The function `main` on the parsed input: the count `n` and the pairs that follow it. -/
def main (n : Int) (pairs : List (Int × Int)) (heap : Nat → Process) : MainResult :=
  if n ≤ 0 then MainResult.invalid_count
  else
    match read_procs heap n.toNat 0 pairs with
    | Except.error i => MainResult.invalid_process i
    | Except.ok procs => MainResult.ran procs (simulate_fcfs procs) (simulate_sjf procs)

/-- Item `j` (0-based) of the input is present and passes the checks of `main`. -/
def item_ok (pairs : List (Int × Int)) (j : Nat) : Prop :=
  match pairs[j]? with
  | some (a, b) => 0 ≤ a ∧ 0 < b
  | none => False

/-! ## Inputs used as examples -/

/-- Example 1 of the specification: `(0,5), (1,3), (2,8)`. -/
def input_example1 : List Process := [mkProc 1 0 5, mkProc 2 1 3, mkProc 3 2 8]

/-- Example 3 of the specification: `(5,2), (10,2)`. -/
def input_gap : List Process := [mkProc 1 5 2, mkProc 2 10 2]

/-- Two processes, the second arriving at `INT_MAX`; the fields `main` leaves unwritten hold
`waiting_time = -1`, `response_time = 7` in the second record. -/
def input_far : List Process :=
  [mkProc 1 0 1, { mkProc 2 2147483647 1 with waiting_time := -1, response_time := 7 }]

/-- The same two processes, all unwritten fields zero. -/
def input_far_zero : List Process := [mkProc 1 0 1, mkProc 2 2147483647 1]

/-- Two processes whose burst times add up to `INT_MAX + 1`. -/
def input_two_long : List Process := [mkProc 1 0 2147483647, mkProc 2 0 1]

/-- Three processes whose burst times add up to `INT_MAX + 2`. -/
def input_long : List Process := [mkProc 1 0 2147483647, mkProc 2 0 1, mkProc 3 0 1]

/-- Three processes, bursts 10, `INT_MAX - 1`, `INT_MAX`. -/
def input_sjf_long : List Process :=
  [mkProc 1 0 10, mkProc 2 0 2147483646, mkProc 3 0 2147483647]

/-- Two processes with pids 1 and `INT_MIN`. -/
def input_neg_pid : List Process := [mkProc 1 0 1, mkProc (-2147483648) 0 1]

/-- The states at the head of the `while` loop of `simulate_sjf` that a run on `input` goes
through. -/
inductive Visited (input : List Process) : SjfState → Prop where
  | init : Visited input (sjf_init input)
  | idle {s : SjfState} : Visited input s → s.finished < s.p.length →
      pick_sjf s.p s.time = none → earliest_arrival_not_done s.p ≠ INT_MAX →
      Visited input (sjf_idle s (earliest_arrival_not_done s.p))
  | dispatch {s : SjfState} {idx : Nat} : Visited input s → s.finished < s.p.length →
      pick_sjf s.p s.time = some idx → Visited input (sjf_dispatch s idx)

/-! ## The return value of `pick_sjf` -/

/-- The value `pick_sjf` returns as a C `int`: `-1` or the index selected. -/
def pick_sjf_ret (p : List Process) (t : Int) : Int :=
  match pick_sjf p t with
  | none => -1
  | some i => (i : Int)

/-- Lexicographic order on the pair `(burst_time, arrival_time)`. -/
def BurstArrivalLE (x y : Process) : Prop :=
  x.burst_time < y.burst_time ∨ (x.burst_time = y.burst_time ∧ x.arrival_time ≤ y.arrival_time)

/-- Strict lexicographic order on the pair `(burst_time, arrival_time)`. -/
def BurstArrivalLT (x y : Process) : Prop :=
  x.burst_time < y.burst_time ∨ (x.burst_time = y.burst_time ∧ x.arrival_time < y.arrival_time)

instance (x y : Process) : Decidable (BurstArrivalLE x y) := by
  unfold BurstArrivalLE; infer_instance

instance (x y : Process) : Decidable (BurstArrivalLT x y) := by
  unfold BurstArrivalLT; infer_instance
/-- The table of Example 1 once process 1 has run: processes 2 and 3 are not done. -/
def table_mid : List Process := [{ mkProc 1 0 5 with done := 1 }, mkProc 2 1 3, mkProc 3 2 8]

/-- The fields the comparators read are C ints with `arrival_time >= 0` and `pid >= 1`. -/
def KeyOK (q : Process) : Prop :=
  0 ≤ q.arrival_time ∧ q.arrival_time ≤ INT_MAX ∧ 1 ≤ q.pid ∧ q.pid ≤ INT_MAX

instance (q : Process) : Decidable (KeyOK q) := by
  unfold KeyOK; infer_instance

/-! ## The table -/

/-- Line 53 of `print_table_and_avgs`: the rows in the order they are printed. -/
def table_rows (p : List Process) : List Process := qsort cmp_pid p

/-- The function `print_table_and_avgs`: the rows printed and the three averages (waiting,
turnaround, response).  The sums are accumulated in `double`, which is exact on these
integers below `2^53`; the quotient is kept as an exact rational, the rounding of `%.2f` is not
modelled. -/
def print_table_and_avgs (p : List Process) : List Process × ℚ × ℚ × ℚ :=
  let rows := table_rows p
  let sw : Int := (rows.map (fun q => q.waiting_time)).sum
  let st : Int := (rows.map (fun q => q.turnaround_time)).sum
  let sr : Int := (rows.map (fun q => q.response_time)).sum
  (rows, (sw : ℚ) / (p.length : ℚ), (st : ℚ) / (p.length : ℚ), (sr : ℚ) / (p.length : ℚ))

/-- The pids are `1..n` in input order, as `main` assigns them. -/
def PidsInOrder (l : List Process) : Prop :=
  l.map (fun q => q.pid) = (List.range l.length).map (fun i : Nat => (i : Int) + 1)

instance (l : List Process) : Decidable (PidsInOrder l) := by
  unfold PidsInOrder; infer_instance

/-! ## The segment buffer -/

/-- Lines 72 and 137: the number of `Segment`s requested from `malloc`, the product `3 * n`
being computed in `int`.  (A negative value is a request that cannot be satisfied.) -/
def seg_capacity (n : Int) : Int := wrapInt (3 * n)

/-- No two consecutive segments are IDLE. -/
def NoIdlePair (seg : List Segment) : Prop :=
  List.Chain' (fun a b : Segment => ¬ (a.label = Label.idle ∧ b.label = Label.idle)) seg

/-- What the SJF loop keeps true of its segment buffer: no two IDLE segments in a row, an IDLE
segment at the end is followed by a dispatch, and at most two segments per dispatch, the first
dispatch needing one only. -/
structure SjfSegInv (s : SjfState) : Prop where
  counted : Counted s
  chain : NoIdlePair s.seg
  last_idle : ∀ x ∈ s.seg.getLast?, x.label = Label.idle → pick_sjf s.p s.time ≠ none
  count : s.seg.length + 1 ≤ 2 * s.finished ∨
    (s.seg.length ≤ 2 * s.finished ∧ pick_sjf s.p s.time ≠ none)

/-- An input of `n` processes with pids `1..n`, all arriving at 0 with burst 1. -/
def input_many (n : Nat) : List Process :=
  (List.range n).map (fun i : Nat => mkProc ((i : Int) + 1) 0 1)

/-! ## IDLE segments -/

/-- The IDLE segment `x = [s, e)` is justified by the schedule `table`: it is non-empty, every
process has completed by `s` or arrives at `e` or later, and `e` is the smallest arrival time
among the processes dispatched after the segment (those with `start_time >= e`), one of which
arrives at `e`. -/
def IdleJustified (x : Segment) (table : List Process) : Prop :=
  x.start < x.stop ∧
  (∀ q ∈ table, q.completion_time ≤ x.start ∨ x.stop ≤ q.arrival_time) ∧
  (∃ q ∈ table, x.stop ≤ q.start_time ∧ q.arrival_time = x.stop) ∧
  ∀ q ∈ table, x.stop ≤ q.start_time → x.stop ≤ q.arrival_time

/-- What the FCFS loop keeps true of the IDLE segments written so far; `rest` are the records
still to be dispatched, in arrival order. -/
structure FcfsIdleInv (s : FcfsState) (rest : List Process) : Prop where
  sorted : rest.Pairwise (fun a b => a.arrival_time ≤ b.arrival_time)
  idle : ∀ x ∈ s.seg, x.label = Label.idle →
    (∀ a ∈ s.p, a.completion_time ≤ x.start ∨ x.stop ≤ a.arrival_time) ∧
    (∀ b ∈ rest, x.stop ≤ b.arrival_time) ∧
    ∃ a ∈ s.p, a.arrival_time = x.stop ∧ a.start_time = x.stop

/-- What the SJF loop keeps true of the IDLE segments written so far: a record is done and
completed before the segment or arrives at its end or later, and the record the CPU waited for
has been dispatched at the end of the segment, or is about to be. -/
structure SjfIdleInv (s : SjfState) : Prop where
  idle : ∀ x ∈ s.seg, x.label = Label.idle →
    (∀ q ∈ s.p, (q.done ≠ 0 ∧ q.completion_time ≤ x.start) ∨ x.stop ≤ q.arrival_time) ∧
    ((∃ q ∈ s.p, q.done ≠ 0 ∧ q.arrival_time = x.stop ∧ q.start_time = x.stop) ∨
      (x.stop = s.time ∧ ∃ q ∈ s.p, q.done = 0 ∧ q.arrival_time = x.stop))

/-- The IDLE segment `x` is one `simulate_fcfs` writes on `input`: the loop has dispatched the
records `pre` of its sorted array and reaches `q`, the clock is `x.start`, before the arrival
of `q`, the segment ends at that arrival, and no record not yet dispatched (`q` and those after
it) arrives earlier. -/
def FcfsIdleAt (input : List Process) (x : Segment) : Prop :=
  ∃ pre q rest, qsort cmp_arrival_pid (clear_done input) = pre ++ q :: rest ∧
    x.start = (fcfs_loop ⟨0, [], []⟩ pre).time ∧ x.stop = q.arrival_time ∧
    x.start < x.stop ∧ ∀ r ∈ q :: rest, x.stop ≤ r.arrival_time

/-- The IDLE segment `x` is one `simulate_sjf` writes on `input`: the loop goes through a state
`s` in which `pick_sjf` finds nothing, the clock is `x.start`, the segment ends at the value of
`earliest_arrival_not_done`, which is later, some record not yet done arrives then and none
arrives earlier. -/
def SjfIdleAt (input : List Process) (x : Segment) : Prop :=
  ∃ s, Visited input s ∧ pick_sjf s.p s.time = none ∧
    x.start = s.time ∧ x.stop = earliest_arrival_not_done s.p ∧
    x.start < x.stop ∧ (∃ q ∈ s.p, q.done = 0 ∧ q.arrival_time = x.stop) ∧
    ∀ q ∈ s.p, q.done = 0 → x.stop ≤ q.arrival_time

/-- Three processes `(0,2147483647), (0,1), (5,1)`. -/
def input_long_gap : List Process := [mkProc 1 0 2147483647, mkProc 2 0 1, mkProc 3 5 1]

/-! ## The makespan of a scheduler that never idles needlessly -/

/-- Burst time still to run of the records not done that arrive at `a` or later. -/
def rem_from (p : List Process) (a : Int) : Int :=
  (p.map (fun r => if r.done = 0 ∧ a ≤ r.arrival_time then r.burst_time else 0)).sum

/-- The time at which the records of `p` not yet done are all completed, from clock value `t`,
by a scheduler that idles only while nothing has arrived: the largest of `t` plus the remaining
burst time and, for each arrival time `a` still to come, `a` plus the burst time of the records
arriving at `a` or later.  (Exact integers: this is a specification quantity.) -/
def horizon (t : Int) (p : List Process) : Int :=
  (p.map (fun q =>
    if q.done = 0 then q.arrival_time + rem_from p q.arrival_time
    else t + remaining p)).foldr max (t + remaining p)

/-- The value `m` is the largest completion time of the table. -/
def IsMaxCompletion (table : List Process) (m : Int) : Prop :=
  (∀ q ∈ table, q.completion_time ≤ m) ∧ ∃ q ∈ table, q.completion_time = m

instance (table : List Process) (m : Int) : Decidable (IsMaxCompletion table m) := by
  unfold IsMaxCompletion; infer_instance

/-! ## Total waiting time -/

/-- The sum over all pairs of positions `i < j` of the smaller of the two entries: the least
total waiting time a list of burst times allows from a common arrival time. -/
def pair_min : List Int → Int
  | [] => 0
  | a :: l => (l.map (fun x => min a x)).sum + pair_min l

/-- The records marked done. -/
def done_list (p : List Process) : List Process := p.filter (fun q => decide (q.done ≠ 0))

/-- The sum of the waiting times of a table. -/
def sum_waiting (table : List Process) : Int := (table.map (fun q => q.waiting_time)).sum

/-- What the SJF loop keeps true when every process arrives at `a`: the clock is `a` plus the
burst time dispatched, the records done are no longer than those not done, and their total
waiting time is the least possible. -/
structure SjfSptInv (a : Int) (s : SjfState) : Prop where
  arr : ∀ q ∈ s.p, q.arrival_time = a
  time : s.time = a + ((done_list s.p).map (fun q => q.burst_time)).sum
  order : ∀ q ∈ s.p, q.done ≠ 0 → ∀ r ∈ s.p, r.done = 0 → q.burst_time ≤ r.burst_time
  wait : sum_waiting (done_list s.p) = pair_min ((done_list s.p).map (fun q => q.burst_time))

/-- Three processes arriving at 0 with bursts `2^30`, `2^30`, 1. -/
def input_half : List Process := [mkProc 1 0 1073741824, mkProc 2 0 1073741824, mkProc 3 0 1]

/-- What the FCFS loop keeps true when every process arrives at `a`: the clock, once past `a`,
is `a` plus the burst time dispatched, and the total waiting time so far is at least the least
possible for the bursts dispatched. -/
structure FcfsSptInv (a : Int) (s : FcfsState) (rest : List Process) : Prop where
  arr : ∀ q ∈ rest, q.arrival_time = a
  time : max s.time a = a + (s.p.map (fun q => q.burst_time)).sum
  wait : pair_min (s.p.map (fun q => q.burst_time)) ≤ sum_waiting s.p

/-- What the SJF loop keeps true when every process arrives at `a`, overflowing clock included:
the records done are no longer than those not done. -/
def SjfBurstInv (a : Int) (s : SjfState) : Prop :=
  (∀ q ∈ s.p, q.arrival_time = a) ∧
    ∀ q ∈ s.p, q.done ≠ 0 → ∀ r ∈ s.p, r.done = 0 → q.burst_time ≤ r.burst_time

/-! ## SJF against FCFS on equal bursts -/

/-- The record with the flag `done` set, as a dispatch of `simulate_sjf` leaves it. -/
def set_done (q : Process) : Process := { q with done := 1 }

/-- What the SJF loop keeps true on equal bursts `b`, set against the FCFS loop started at the
first arrival: `f` is the state of that loop once it has dispatched the records `pre`, and
`rest` are the records it has still to dispatch, in its order.  The records SJF has done are
those of `pre`, with the fields FCFS gives them, and the clock and the segments agree, up to an
IDLE segment that SJF has already written and FCFS writes in its next iteration. -/
structure SjfFcfsInv (b : Int) (pre rest : List Process) (f : FcfsState) (s : SjfState) :
    Prop where
  finished : s.finished = pre.length
  len : s.p.length = pre.length + rest.length
  pids : PidsInOrder s.p
  bursts : ∀ q ∈ s.p, q.burst_time = b
  late : ∀ q ∈ s.p, q.arrival_time < INT_MAX
  sorted : rest.Pairwise ArrivalPidLT
  pending : ∀ q ∈ s.p, q.done = 0 → ∃ y ∈ rest, core y = core q
  waiting : ∀ y ∈ rest, ∃ q ∈ s.p, q.done = 0 ∧ core q = core y
  table : (done_list s.p).Perm (f.p.map set_done)
  clock : (s.time = f.time ∧ s.seg = f.seg) ∨
    ∃ x tl, rest = x :: tl ∧ f.time < x.arrival_time ∧ s.time = x.arrival_time ∧
      s.seg = f.seg ++ [⟨Label.idle, f.time, x.arrival_time⟩]

/-- The SJF state `s` follows the FCFS loop run over `sorted` from clock value `a0`. -/
def SjfFollows (b a0 : Int) (sorted : List Process) (s : SjfState) : Prop :=
  ∃ pre rest, sorted = pre ++ rest ∧ SjfFcfsInv b pre rest (fcfs_loop ⟨a0, [], []⟩ pre) s

/-! ## Machine arithmetic -/

theorem wrapInt_eq {x : Int} (h1 : INT_MIN ≤ x) (h2 : x ≤ INT_MAX) : wrapInt x = x := by
  unfold wrapInt; unfold INT_MIN at h1; unfold INT_MAX at h2; omega

theorem wrapInt_range (x : Int) : INT_MIN ≤ wrapInt x ∧ wrapInt x ≤ INT_MAX := by
  unfold wrapInt INT_MIN INT_MAX; omega

/-! ## FCFS: the loop -/

theorem fcfs_step_eq (s : FcfsState) (q : Process) :
    fcfs_step s q =
      { time := (fcfs_record s.time q).completion_time
        seg := s.seg ++ fcfs_segs s.time q
        p := s.p ++ [fcfs_record s.time q] } := by
  unfold fcfs_step fcfs_segs fcfs_record finalize
  by_cases h : s.time < q.arrival_time <;> simp [h]

theorem fcfs_loop_nil (s : FcfsState) : fcfs_loop s [] = s := rfl

theorem fcfs_loop_cons (s : FcfsState) (q : Process) (l : List Process) :
    fcfs_loop s (q :: l) = fcfs_loop (fcfs_step s q) l := rfl

theorem fcfs_loop_append (s : FcfsState) (l : List Process) (x : Process) :
    fcfs_loop s (l ++ [x]) = fcfs_step (fcfs_loop s l) x := by
  unfold fcfs_loop
  rw [List.foldl_append]
  rfl

/-- Invariant rule for the FCFS loop.  The invariant may speak of the records still to be
dispatched. -/
theorem fcfs_loop_induct (Inv : FcfsState → List Process → Prop)
    (hstep : ∀ s q rest, Inv s (q :: rest) → Inv (fcfs_step s q) rest) :
    ∀ (l : List Process) (s : FcfsState), Inv s l → Inv (fcfs_loop s l) [] := by
  intro l
  induction l with
  | nil => intro s h; exact h
  | cons q rest ih =>
    intro s h
    rw [fcfs_loop_cons]
    exact ih _ (hstep s q rest h)

/-- The loop only appends to the table: the output is the old table followed by one record per
input record, with the same `pid`, `arrival_time`, `burst_time`. -/
theorem fcfs_loop_core (l : List Process) (s : FcfsState) :
    (fcfs_loop s l).p.map core = s.p.map core ++ l.map core := by
  induction l generalizing s with
  | nil => simp [fcfs_loop_nil]
  | cons q rest ih =>
    rw [fcfs_loop_cons, ih, fcfs_step_eq]
    simp [core, fcfs_record]

theorem segOK_nil (time : Int) : SegOK [] time :=
  ⟨List.chain'_nil, by simp, by simp⟩

theorem segOK_snoc {seg : List Segment} {time t : Int} (h : SegOK seg time) (lbl : Label)
    (hlt : time < t) : SegOK (seg ++ [⟨lbl, time, t⟩]) t := by
  refine ⟨?_, ?_, ?_⟩
  · unfold Contiguous
    rw [List.chain'_append]
    refine ⟨h.contiguous, List.chain'_singleton _, ?_⟩
    intro x hx y hy
    simp at hy
    subst hy
    exact h.last x hx
  · intro x hx
    rw [List.mem_append] at hx
    rcases hx with hx | hx
    · exact h.nonempty x hx
    · simp at hx; subst hx; exact hlt
  · intro x hx
    simp at hx
    subst hx
    rfl

/-! ## Bounds on the input -/

theorem max_arrival_nonneg (l : List Process) : 0 ≤ max_arrival l := by
  cases l with
  | nil => simp [max_arrival]
  | cons q rest => exact le_max_of_le_right (by
      induction rest with
      | nil => simp
      | cons a r ih => exact le_max_of_le_right ih)

theorem le_max_arrival {l : List Process} {q : Process} (h : q ∈ l) :
    q.arrival_time ≤ max_arrival l := by
  induction l with
  | nil => cases h
  | cons a rest ih =>
    simp only [max_arrival, List.foldr_cons]
    rcases List.mem_cons.mp h with h | h
    · subst h; exact le_max_left _ _
    · exact le_trans (ih h) (le_max_right _ _)

theorem sum_burst_cons (q : Process) (l : List Process) :
    sum_burst (q :: l) = q.burst_time + sum_burst l := by
  simp [sum_burst]

theorem sum_burst_perm {l₁ l₂ : List Process} (h : l₁.Perm l₂) : sum_burst l₁ = sum_burst l₂ := by
  unfold sum_burst
  exact (h.map _).sum_eq

theorem sum_burst_clear_done (l : List Process) : sum_burst (clear_done l) = sum_burst l := by
  simp [sum_burst, clear_done, Function.comp_def]

theorem mem_clear_done {l : List Process} {q : Process} (h : q ∈ clear_done l) :
    ∃ q0 ∈ l, q = { q0 with done := 0 } := by
  simp only [clear_done, List.mem_map] at h
  obtain ⟨q0, h0, rfl⟩ := h
  exact ⟨q0, h0, rfl⟩

theorem validProc_clear_done {l : List Process} (hv : ∀ q ∈ l, ValidProc q) :
    ∀ q ∈ clear_done l, ValidProc q := by
  intro q hq
  obtain ⟨q0, h0, rfl⟩ := mem_clear_done hq
  exact hv q0 h0

theorem arrival_le_clear_done {l : List Process} {q : Process} (hq : q ∈ clear_done l) :
    q.arrival_time ≤ max_arrival l := by
  obtain ⟨q0, h0, rfl⟩ := mem_clear_done hq
  exact le_max_arrival (q := q0) h0

theorem qsort_perm (cmp : Process → Process → Int) (l : List Process) : (qsort cmp l).Perm l :=
  List.perm_insertionSort _ l

theorem mem_qsort {cmp : Process → Process → Int} {l : List Process} {q : Process} :
    q ∈ qsort cmp l ↔ q ∈ l :=
  (qsort_perm cmp l).mem_iff

theorem finalized_turnaround_eq {a : Process} (h : Finalized a) :
    a.turnaround_time = a.waiting_time + a.burst_time := by
  rw [h.turnaround, h.waiting, h.completion]; ring

theorem finalized_waiting_nonneg {a : Process} (h : Finalized a) : 0 ≤ a.waiting_time := by
  rw [h.waiting]; have := h.started; omega

/-! ## FCFS: the invariant of a timeline that fits into an `int` -/

theorem fcfs_record_fits {A time : Int} {q : Process} {rest : List Process}
    (h0 : 0 ≤ time) (hf : max time A + sum_burst (q :: rest) ≤ INT_MAX)
    (hq : ValidProc q) (hA : q.arrival_time ≤ A) (hrest : 0 ≤ sum_burst rest) :
    (fcfs_record time q).start_time = max time q.arrival_time ∧
    (fcfs_record time q).completion_time = max time q.arrival_time + q.burst_time ∧
    Finalized (fcfs_record time q) ∧
    max (max time q.arrival_time + q.burst_time) A + sum_burst rest ≤ INT_MAX := by
  obtain ⟨ha0, _, hb0, _⟩ := hq
  have hM : INT_MAX = 2147483647 := rfl
  have hm : INT_MIN = -2147483648 := rfl
  rw [sum_burst_cons] at hf
  have hst : (fcfs_record time q).start_time = max time q.arrival_time := by
    simp only [fcfs_record]
    split <;> omega
  have hmax : max time q.arrival_time ≤ max time A := max_le_max le_rfl hA
  have hct : (fcfs_record time q).completion_time = max time q.arrival_time + q.burst_time := by
    have : (fcfs_record time q).completion_time =
        wrapInt ((fcfs_record time q).start_time + q.burst_time) := rfl
    rw [this, hst]
    apply wrapInt_eq <;> omega
  refine ⟨hst, hct, ⟨?_, ?_, ?_, ?_, ?_⟩, ?_⟩
  · rw [hct, hst]; rfl
  · have : (fcfs_record time q).turnaround_time =
        wrapInt ((fcfs_record time q).completion_time - q.arrival_time) := rfl
    rw [this]
    have h2 : (fcfs_record time q).arrival_time = q.arrival_time := rfl
    rw [h2, hct]
    apply wrapInt_eq <;> omega
  · have : (fcfs_record time q).waiting_time =
        wrapInt ((fcfs_record time q).start_time - q.arrival_time) := rfl
    rw [this]
    have h2 : (fcfs_record time q).arrival_time = q.arrival_time := rfl
    rw [h2, hst]
    apply wrapInt_eq <;> omega
  · rfl
  · have h2 : (fcfs_record time q).arrival_time = q.arrival_time := rfl
    rw [h2, hst]; exact le_max_right _ _
  · omega

theorem sum_burst_nonneg {l : List Process} (h : ∀ q ∈ l, ValidProc q) : 0 ≤ sum_burst l := by
  induction l with
  | nil => simp [sum_burst]
  | cons a rest ih =>
    rw [sum_burst_cons]
    have h1 := (h a (List.mem_cons_self _ _)).2.2.1
    have h2 := ih (fun q hq => h q (List.mem_cons_of_mem _ hq))
    omega

theorem fcfs_segs_ok {seg : List Segment} {time : Int} {q : Process} (h : SegOK seg time)
    (hst : (fcfs_record time q).start_time = max time q.arrival_time)
    (hlt : (fcfs_record time q).start_time < (fcfs_record time q).completion_time) :
    SegOK (seg ++ fcfs_segs time q) (fcfs_record time q).completion_time := by
  unfold fcfs_segs
  by_cases hc : time < q.arrival_time
  · have hs : (fcfs_record time q).start_time = q.arrival_time := by rw [hst]; omega
    simp only [hc, if_true]
    rw [← List.append_assoc, hs]
    rw [hs] at hlt
    exact segOK_snoc (segOK_snoc h Label.idle hc) _ hlt
  · have hs : (fcfs_record time q).start_time = time := by rw [hst]; omega
    simp only [hc, if_false, List.nil_append]
    rw [hs]
    rw [hs] at hlt
    exact segOK_snoc h _ hlt

theorem fcfsInv_step {A : Int} {s : FcfsState} {q : Process} {rest : List Process}
    (h : FcfsInv A s (q :: rest)) : FcfsInv A (fcfs_step s q) rest := by
  have hq := h.valid q (List.mem_cons_self _ _)
  have hrest : ∀ x ∈ rest, ValidProc x := fun x hx => (h.valid x (List.mem_cons_of_mem _ hx)).1
  obtain ⟨hst, hct, hfin, hfit⟩ :=
    fcfs_record_fits h.time_nonneg h.fits hq.1 hq.2 (sum_burst_nonneg hrest)
  have hb := hq.1.2.2.1
  rw [fcfs_step_eq]
  refine ⟨?_, ?_, ?_, ?_, ?_, ?_, ?_⟩
  · show 0 ≤ (fcfs_record s.time q).completion_time
    rw [hct]; have := h.time_nonneg; omega
  · show max (fcfs_record s.time q).completion_time A + sum_burst rest ≤ INT_MAX
    rw [hct]; exact hfit
  · intro x hx; exact h.valid x (List.mem_cons_of_mem _ hx)
  · intro a ha
    show Finalized a ∧ a.completion_time ≤ (fcfs_record s.time q).completion_time ∧ _
    rw [hct]
    rcases List.mem_append.mp ha with ha | ha
    · obtain ⟨h1, h2, h3⟩ := h.fin a ha
      exact ⟨h1, by omega, h3⟩
    · simp only [List.mem_singleton] at ha
      subst ha
      exact ⟨hfin, by rw [hct], hb⟩
  · show (s.p ++ [fcfs_record s.time q]).Pairwise _
    rw [List.pairwise_append]
    refine ⟨h.order, List.pairwise_singleton _ _, ?_⟩
    intro a ha b hb'
    simp only [List.mem_singleton] at hb'
    subst hb'
    rw [hst]
    have := (h.fin a ha).2.1
    omega
  · show SegOK (s.seg ++ fcfs_segs s.time q) (fcfs_record s.time q).completion_time
    apply fcfs_segs_ok h.segs hst
    rw [hst, hct]; omega
  · intro _
    refine ⟨?_, fcfs_record s.time q, by simp, rfl⟩
    show s.seg ++ fcfs_segs s.time q ≠ []
    unfold fcfs_segs
    simp

theorem fcfsInv_init {A : Int} {l : List Process} (hA : 0 ≤ A)
    (hv : ∀ q ∈ l, ValidProc q ∧ q.arrival_time ≤ A) (hf : A + sum_burst l ≤ INT_MAX) :
    FcfsInv A ⟨0, [], []⟩ l := by
  refine ⟨le_rfl, ?_, hv, by simp, List.Pairwise.nil, segOK_nil _, by simp⟩
  show max 0 A + sum_burst l ≤ INT_MAX
  rw [max_eq_right hA]; exact hf

theorem fcfs_loop_inv {A : Int} {l : List Process} {s : FcfsState} (h : FcfsInv A s l) :
    FcfsInv A (fcfs_loop s l) [] :=
  fcfs_loop_induct (FcfsInv A) (fun _ _ _ h => fcfsInv_step h) l s h

/-- The invariant holds when `simulate_fcfs` leaves its loop, for every valid input whose
timeline fits into an `int`. -/
theorem simulate_fcfs_inv {input : List Process} (hv : ValidInput input) (hf : Fits input) :
    FcfsInv (max_arrival input)
      ⟨(fcfs_loop ⟨0, [], []⟩ (qsort cmp_arrival_pid (clear_done input))).time,
        (simulate_fcfs input).1, (simulate_fcfs input).2⟩ [] := by
  have h := fcfs_loop_inv (A := max_arrival input)
    (l := qsort cmp_arrival_pid (clear_done input)) (s := ⟨0, [], []⟩)
    (fcfsInv_init (max_arrival_nonneg _)
      (fun q hq => by
        rw [mem_qsort] at hq
        exact ⟨validProc_clear_done hv.2 q hq, arrival_le_clear_done hq⟩)
      (by rw [sum_burst_perm (qsort_perm _ _), sum_burst_clear_done]; exact hf))
  exact h

theorem simulate_fcfs_length (input : List Process) :
    (simulate_fcfs input).2.length = input.length := by
  have h := congrArg List.length
    (fcfs_loop_core (qsort cmp_arrival_pid (clear_done input)) ⟨0, [], []⟩)
  simp only [List.length_map, List.length_append, List.length_nil, zero_add] at h
  show (fcfs_loop ⟨0, [], []⟩ (qsort cmp_arrival_pid (clear_done input))).p.length = _
  rw [h, (qsort_perm _ _).length_eq]
  simp [clear_done]

/-! ## FCFS: facts that need no bound on the timeline -/

theorem fcfs_record_waited {time : Int} {q : Process} (ht : INT_MIN ≤ time ∧ time ≤ INT_MAX)
    (hq : ValidProc q) : Waited (fcfs_record time q) := by
  obtain ⟨ha0, ha1, _, _⟩ := hq
  have hM : INT_MAX = 2147483647 := rfl
  have hm : INT_MIN = -2147483648 := rfl
  have hst : (fcfs_record time q).start_time = max time q.arrival_time := by
    simp only [fcfs_record]
    split <;> omega
  have hw : (fcfs_record time q).waiting_time = max time q.arrival_time - q.arrival_time := by
    have : (fcfs_record time q).waiting_time =
        wrapInt ((fcfs_record time q).start_time - q.arrival_time) := rfl
    rw [this, hst]
    apply wrapInt_eq <;> omega
  have h2 : (fcfs_record time q).arrival_time = q.arrival_time := rfl
  refine ⟨?_, ?_, rfl⟩
  · rw [hw]; omega
  · rw [h2, hst]; omega

theorem fcfs_loop_waited (l : List Process) (s : FcfsState)
    (ht : INT_MIN ≤ s.time ∧ s.time ≤ INT_MAX) (hv : ∀ q ∈ l, ValidProc q)
    (hp : ∀ a ∈ s.p, Waited a) : ∀ a ∈ (fcfs_loop s l).p, Waited a := by
  induction l generalizing s with
  | nil => exact hp
  | cons q rest ih =>
    rw [fcfs_loop_cons]
    apply ih
    · rw [fcfs_step_eq]; exact wrapInt_range _
    · intro x hx; exact hv x (List.mem_cons_of_mem _ hx)
    · rw [fcfs_step_eq]
      intro a ha
      rcases List.mem_append.mp ha with ha | ha
      · exact hp a ha
      · simp only [List.mem_singleton] at ha
        subst ha
        exact fcfs_record_waited ht (hv q (List.mem_cons_self _ _))

/-- Under FCFS every process of a valid input waits a non-negative time and its response time is
its waiting time, whatever the burst times are. -/
theorem simulate_fcfs_waited {input : List Process} (hv : ValidInput input) :
    ∀ a ∈ (simulate_fcfs input).2, Waited a := by
  apply fcfs_loop_waited
  · exact ⟨by decide, by decide⟩
  · intro q hq
    rw [mem_qsort] at hq
    exact validProc_clear_done hv.2 q hq
  · simp

/-- The loop only appends to the segment buffer. -/
theorem fcfs_loop_seg_grows (l : List Process) (s : FcfsState) :
    ∃ ext, (fcfs_loop s l).seg = s.seg ++ ext := by
  induction l generalizing s with
  | nil => exact ⟨[], by simp [fcfs_loop_nil]⟩
  | cons q rest ih =>
    obtain ⟨ext, he⟩ := ih (fcfs_step s q)
    rw [fcfs_loop_cons, he, fcfs_step_eq]
    exact ⟨fcfs_segs s.time q ++ ext, by simp⟩

/-! ## The sort -/

theorem orderedInsert_pairwise {r : Process → Process → Prop} [DecidableRel r]
    {R : Process → Process → Prop} (htrans : ∀ a b c, R a b → R b c → R a c) (a : Process)
    (l : List Process) (h1 : ∀ b ∈ l, r a b → R a b) (h2 : ∀ b ∈ l, ¬ r a b → R b a)
    (hl : l.Pairwise R) : (l.orderedInsert r a).Pairwise R := by
  induction l with
  | nil => simp
  | cons b l ih =>
    rw [List.pairwise_cons] at hl
    by_cases hab : r a b
    · rw [List.orderedInsert, if_pos hab]
      refine List.Pairwise.cons ?_ (List.Pairwise.cons hl.1 hl.2)
      intro x hx
      have hRab := h1 b (List.mem_cons_self _ _) hab
      rcases List.mem_cons.mp hx with hx | hx
      · subst hx; exact hRab
      · exact htrans _ _ _ hRab (hl.1 x hx)
    · rw [List.orderedInsert, if_neg hab]
      refine List.Pairwise.cons ?_
        (ih (fun x hx => h1 x (List.mem_cons_of_mem _ hx))
          (fun x hx => h2 x (List.mem_cons_of_mem _ hx)) hl.2)
      intro x hx
      rcases (List.mem_orderedInsert r).mp hx with hx | hx
      · subst hx; exact h2 b (List.mem_cons_self _ _) hab
      · exact hl.1 x hx

/-- Insertion sort by `r` sorts by `R` as soon as `r` decides `R` on the members of the list. -/
theorem insertionSort_pairwise {r : Process → Process → Prop} [DecidableRel r]
    {R : Process → Process → Prop} (htrans : ∀ a b c, R a b → R b c → R a c)
    (l : List Process) (h1 : ∀ a ∈ l, ∀ b ∈ l, r a b → R a b)
    (h2 : ∀ a ∈ l, ∀ b ∈ l, ¬ r a b → R b a) : (l.insertionSort r).Pairwise R := by
  induction l with
  | nil => simp
  | cons a l ih =>
    rw [List.insertionSort]
    apply orderedInsert_pairwise htrans
    · intro b hb; exact h1 a (List.mem_cons_self _ _) b
        (List.mem_cons_of_mem _ ((List.mem_insertionSort r).mp hb))
    · intro b hb; exact h2 a (List.mem_cons_self _ _) b
        (List.mem_cons_of_mem _ ((List.mem_insertionSort r).mp hb))
    · exact ih (fun x hx y hy => h1 x (List.mem_cons_of_mem _ hx) y (List.mem_cons_of_mem _ hy))
        (fun x hx y hy => h2 x (List.mem_cons_of_mem _ hx) y (List.mem_cons_of_mem _ hy))

theorem cmp_arrival_pid_le_iff_arrival {a b : Process} (ha : ValidProc a) (hb : ValidProc b) :
    (cmp_arrival_pid a b ≤ 0 → a.arrival_time ≤ b.arrival_time) ∧
    (¬ cmp_arrival_pid a b ≤ 0 → b.arrival_time ≤ a.arrival_time) := by
  obtain ⟨ha0, ha1, _, _⟩ := ha
  obtain ⟨hb0, hb1, _, _⟩ := hb
  have hM : INT_MAX = 2147483647 := rfl
  have hm : INT_MIN = -2147483648 := rfl
  unfold cmp_arrival_pid
  by_cases h : a.arrival_time = b.arrival_time
  · simp [h]
  · have hw : wrapInt (a.arrival_time - b.arrival_time) = a.arrival_time - b.arrival_time := by
      apply wrapInt_eq <;> omega
    simp only [ne_eq, h, not_false_eq_true, if_true, hw]
    constructor <;> intro h' <;> omega

theorem cmp_arrival_pid_le_iff {a b : Process} (ha : ValidProc a) (hb : ValidProc b)
    (hpa : PidOK a) (hpb : PidOK b) : cmp_arrival_pid a b ≤ 0 ↔ ArrivalPidLE a b := by
  obtain ⟨ha0, ha1, _, _⟩ := ha
  obtain ⟨hb0, hb1, _, _⟩ := hb
  obtain ⟨hpa0, hpa1⟩ := hpa
  obtain ⟨hpb0, hpb1⟩ := hpb
  have hM : INT_MAX = 2147483647 := rfl
  have hm : INT_MIN = -2147483648 := rfl
  unfold cmp_arrival_pid ArrivalPidLE
  by_cases h : a.arrival_time = b.arrival_time
  · have hw : wrapInt (a.pid - b.pid) = a.pid - b.pid := by
      apply wrapInt_eq <;> omega
    simp only [ne_eq, h, not_true_eq_false, if_false, hw, lt_self_iff_false, false_or, true_and]
    omega
  · have hw : wrapInt (a.arrival_time - b.arrival_time) = a.arrival_time - b.arrival_time := by
      apply wrapInt_eq <;> omega
    simp only [ne_eq, h, not_false_eq_true, if_true, hw, false_and, or_false]
    omega

/-- On valid records the sort puts the arrival times in non-decreasing order, whatever the pids
are. -/
theorem qsort_arrival_sorted {l : List Process} (hv : ∀ q ∈ l, ValidProc q) :
    (qsort cmp_arrival_pid l).Pairwise (fun a b => a.arrival_time ≤ b.arrival_time) := by
  unfold qsort
  apply insertionSort_pairwise (R := fun a b => a.arrival_time ≤ b.arrival_time)
    (fun a b c h1 h2 => le_trans h1 h2)
  · intro a ha b hb; exact (cmp_arrival_pid_le_iff_arrival (hv a ha) (hv b hb)).1
  · intro a ha b hb; exact (cmp_arrival_pid_le_iff_arrival (hv a ha) (hv b hb)).2

/-- On valid records with non-negative pids the sort yields arrival order, ties by pid. -/
theorem qsort_arrival_pid_sorted {l : List Process} (hv : ∀ q ∈ l, ValidProc q)
    (hp : ∀ q ∈ l, PidOK q) : (qsort cmp_arrival_pid l).Pairwise ArrivalPidLE := by
  unfold qsort
  apply insertionSort_pairwise (R := ArrivalPidLE)
  · intro a b c h1 h2; unfold ArrivalPidLE at *; omega
  · intro a ha b hb h
    exact (cmp_arrival_pid_le_iff (hv a ha) (hv b hb) (hp a ha) (hp b hb)).1 h
  · intro a ha b hb h
    have := (cmp_arrival_pid_le_iff (hv a ha) (hv b hb) (hp a ha) (hp b hb)).not.1 h
    unfold ArrivalPidLE at *; omega

/-- Arrival order with ties by pid is a property of the fields the simulators do not touch:
it passes from one table to another with the same `core`. -/
theorem pairwise_arrivalPidLE_of_core {l₁ l₂ : List Process}
    (h : l₁.map core = l₂.map core) (hs : l₁.Pairwise ArrivalPidLE) :
    l₂.Pairwise ArrivalPidLE := by
  have key : ∀ l : List Process, l.Pairwise ArrivalPidLE ↔
      (l.map core).Pairwise
        (fun x y : Int × Int × Int => x.2.1 < y.2.1 ∨ (x.2.1 = y.2.1 ∧ x.1 ≤ y.1)) := by
    intro l
    rw [List.pairwise_map]
    exact Iff.rfl
  rw [key] at hs ⊢
  rw [← h]; exact hs

/-- The table `simulate_fcfs` leaves is in arrival order, ties by pid. -/
theorem simulate_fcfs_sorted {input : List Process} (hv : ValidInput input)
    (hp : ∀ q ∈ input, PidOK q) : (simulate_fcfs input).2.Pairwise ArrivalPidLE := by
  have hcore := fcfs_loop_core (qsort cmp_arrival_pid (clear_done input)) ⟨0, [], []⟩
  simp only [List.map_nil, List.nil_append] at hcore
  refine pairwise_arrivalPidLE_of_core hcore.symm ?_
  apply qsort_arrival_pid_sorted (validProc_clear_done hv.2)
  intro q hq
  obtain ⟨q0, h0, rfl⟩ := mem_clear_done hq
  exact hp q0 h0

/-- Any two members of a list are equal or related, one way or the other, by a relation that
holds pairwise. -/
theorem pairwise_trichotomy {α : Type} {R : α → α → Prop} {l : List α} (h : l.Pairwise R)
    {a b : α} (ha : a ∈ l) (hb : b ∈ l) : a = b ∨ R a b ∨ R b a := by
  have hsymm : Symmetric (fun x y : α => x = y ∨ R x y ∨ R y x) := by
    intro x y hxy
    rcases hxy with h1 | h1 | h1
    · exact Or.inl h1.symm
    · exact Or.inr (Or.inr h1)
    · exact Or.inr (Or.inl h1)
  exact List.Pairwise.forall_of_forall hsymm (fun x _ => Or.inl rfl)
    (h.imp (fun hxy => Or.inr (Or.inl hxy))) ha hb

/-! ## SJF: the selection functions -/

theorem mem_iff_getD {p : List Process} {q : Process} :
    q ∈ p ↔ ∃ i, i < p.length ∧ p.getD i default = q := by
  rw [List.mem_iff_getElem]
  constructor
  · rintro ⟨i, hi, h⟩
    exact ⟨i, hi, by rw [List.getD_eq_getElem _ _ hi]; exact h⟩
  · rintro ⟨i, hi, h⟩
    exact ⟨i, hi, by rw [List.getD_eq_getElem _ _ hi] at h; exact h⟩

theorem getD_mem {p : List Process} {i : Nat} (hi : i < p.length) : p.getD i default ∈ p :=
  mem_iff_getD.mpr ⟨i, hi, rfl⟩

/-- What the scan of `pick_sjf` has established after the first `k` indices. -/
theorem pick_sjf_scan (p : List Process) (t : Int) (k : Nat) :
    ((List.range k).foldl (pick_sjf_step p t) none = none →
      ∀ i, i < k → ¬ Eligible t (p.getD i default)) ∧
    (∀ j, (List.range k).foldl (pick_sjf_step p t) none = some j →
      j < k ∧ Eligible t (p.getD j default) ∧
      ∀ i, i < k → Eligible t (p.getD i default) →
        (p.getD j default).burst_time ≤ (p.getD i default).burst_time) := by
  induction k with
  | zero => simp
  | succ k ih =>
    rw [List.range_succ, List.foldl_append]
    simp only [List.foldl_cons, List.foldl_nil]
    obtain ⟨ih1, ih2⟩ := ih
    generalize (List.range k).foldl (pick_sjf_step p t) none = r at ih1 ih2
    unfold pick_sjf_step
    simp only []
    by_cases he : (p.getD k default).done ≠ 0 ∨ (p.getD k default).arrival_time > t
    · have hne : ¬ Eligible t (p.getD k default) := by
        unfold Eligible; rcases he with he | he
        · exact fun h => he h.1
        · exact fun h => by omega
      rw [if_pos he]
      constructor
      · intro hr i hi
        rcases Nat.lt_succ_iff_lt_or_eq.mp hi with hi | hi
        · exact ih1 hr i hi
        · subst hi; exact hne
      · intro j hj
        obtain ⟨h1, h2, h3⟩ := ih2 j hj
        refine ⟨Nat.lt_succ_of_lt h1, h2, ?_⟩
        intro i hi hel
        rcases Nat.lt_succ_iff_lt_or_eq.mp hi with hi | hi
        · exact h3 i hi hel
        · subst hi; exact absurd hel hne
    · have hel : Eligible t (p.getD k default) := by
        unfold Eligible
        push_neg at he
        exact ⟨he.1, he.2⟩
      rw [if_neg he]
      cases r with
      | none =>
        simp only []
        constructor
        · intro h; cases h
        · intro j hj
          cases hj
          refine ⟨Nat.lt_succ_self _, hel, ?_⟩
          intro i hi hei
          rcases Nat.lt_succ_iff_lt_or_eq.mp hi with hi | hi
          · exact absurd hei (ih1 rfl i hi)
          · subst hi; exact le_rfl
      | some j0 =>
        obtain ⟨h1, h2, h3⟩ := ih2 j0 rfl
        simp only []
        constructor
        · intro h
          split_ifs at h
        · intro j hj
          split_ifs at hj with hlt heq
          · cases hj
            refine ⟨Nat.lt_succ_self _, hel, ?_⟩
            intro i hi hei
            rcases Nat.lt_succ_iff_lt_or_eq.mp hi with hi | hi
            · have := h3 i hi hei; omega
            · subst hi; exact le_rfl
          · cases hj
            refine ⟨Nat.lt_succ_self _, hel, ?_⟩
            intro i hi hei
            rcases Nat.lt_succ_iff_lt_or_eq.mp hi with hi | hi
            · have := h3 i hi hei; omega
            · subst hi; exact le_rfl
          · cases hj
            refine ⟨Nat.lt_succ_of_lt h1, h2, ?_⟩
            intro i hi hei
            rcases Nat.lt_succ_iff_lt_or_eq.mp hi with hi | hi
            · exact h3 i hi hei
            · subst hi; omega

/-- The function `pick_sjf` returns `-1` only when no record is eligible. -/
theorem pick_sjf_none {p : List Process} {t : Int} (h : pick_sjf p t = none) :
    ∀ q ∈ p, ¬ Eligible t q := by
  intro q hq
  obtain ⟨i, hi, rfl⟩ := mem_iff_getD.mp hq
  exact (pick_sjf_scan p t p.length).1 h i hi

/-- The record `pick_sjf` selects is eligible and no eligible record has a smaller burst time. -/
theorem pick_sjf_some {p : List Process} {t : Int} {idx : Nat} (h : pick_sjf p t = some idx) :
    idx < p.length ∧ Eligible t (p.getD idx default) ∧
    ∀ q ∈ p, Eligible t q → (p.getD idx default).burst_time ≤ q.burst_time := by
  obtain ⟨h1, h2, h3⟩ := (pick_sjf_scan p t p.length).2 idx h
  refine ⟨h1, h2, ?_⟩
  intro q hq hel
  obtain ⟨i, hi, rfl⟩ := mem_iff_getD.mp hq
  exact h3 i hi hel

theorem pick_sjf_ne_none {p : List Process} {t : Int} {q : Process} (hq : q ∈ p)
    (hel : Eligible t q) : pick_sjf p t ≠ none :=
  fun h => pick_sjf_none h q hq hel

/-- The scan of `earliest_arrival_not_done`, started from any value `t0`. -/
theorem earliest_fold (l : List Process) (t0 : Int) :
    let r := l.foldl
      (fun t q => if q.done = 0 ∧ q.arrival_time < t then q.arrival_time else t) t0
    r ≤ t0 ∧ (∀ q ∈ l, q.done = 0 → r ≤ q.arrival_time) ∧
    (r = t0 ∨ ∃ q ∈ l, q.done = 0 ∧ q.arrival_time = r) := by
  induction l generalizing t0 with
  | nil => simp
  | cons a rest ih =>
    simp only [List.foldl_cons]
    by_cases hc : a.done = 0 ∧ a.arrival_time < t0
    · rw [if_pos hc]
      obtain ⟨h1, h2, h3⟩ := ih a.arrival_time
      refine ⟨by omega, ?_, ?_⟩
      · intro q hq hd
        rcases List.mem_cons.mp hq with hq | hq
        · subst hq; exact h1
        · exact h2 q hq hd
      · rcases h3 with h3 | ⟨q, hq, hd, he⟩
        · exact Or.inr ⟨a, List.mem_cons_self _ _, hc.1, h3.symm⟩
        · exact Or.inr ⟨q, List.mem_cons_of_mem _ hq, hd, he⟩
    · rw [if_neg hc]
      obtain ⟨h1, h2, h3⟩ := ih t0
      refine ⟨h1, ?_, ?_⟩
      · intro q hq hd
        rcases List.mem_cons.mp hq with hq | hq
        · subst hq
          have : ¬ q.arrival_time < t0 := fun h => hc ⟨hd, h⟩
          omega
        · exact h2 q hq hd
      · rcases h3 with h3 | ⟨q, hq, hd, he⟩
        · exact Or.inl h3
        · exact Or.inr ⟨q, List.mem_cons_of_mem _ hq, hd, he⟩

theorem earliest_le (p : List Process) : earliest_arrival_not_done p ≤ INT_MAX :=
  (earliest_fold p INT_MAX).1

theorem earliest_le_arrival {p : List Process} {q : Process} (hq : q ∈ p) (hd : q.done = 0) :
    earliest_arrival_not_done p ≤ q.arrival_time :=
  (earliest_fold p INT_MAX).2.1 q hq hd

/-- A value other than `INT_MAX` returned by `earliest_arrival_not_done` is the arrival time of
a record that is not done. -/
theorem earliest_attained {p : List Process} (h : earliest_arrival_not_done p ≠ INT_MAX) :
    ∃ q ∈ p, q.done = 0 ∧ q.arrival_time = earliest_arrival_not_done p := by
  rcases (earliest_fold p INT_MAX).2.2 with h' | h'
  · exact absurd h' h
  · exact h'

/-- The initial clock of `simulate_sjf` is the smallest arrival time. -/
theorem initial_time_isMin {p : List Process} (hp : p ≠ []) :
    IsMinArrival p (initial_time p) := by
  have key : ∀ (l : List Process) (t0 : Int),
      let r := l.foldl (fun t q => if q.arrival_time < t then q.arrival_time else t) t0
      r ≤ t0 ∧ (∀ q ∈ l, r ≤ q.arrival_time) ∧ (r = t0 ∨ ∃ q ∈ l, q.arrival_time = r) := by
    intro l
    induction l with
    | nil => simp
    | cons a rest ih =>
      intro t0
      simp only [List.foldl_cons]
      by_cases hc : a.arrival_time < t0
      · rw [if_pos hc]
        obtain ⟨h1, h2, h3⟩ := ih a.arrival_time
        refine ⟨by omega, ?_, ?_⟩
        · intro q hq
          rcases List.mem_cons.mp hq with hq | hq
          · subst hq; exact h1
          · exact h2 q hq
        · rcases h3 with h3 | ⟨q, hq, he⟩
          · exact Or.inr ⟨a, List.mem_cons_self _ _, h3.symm⟩
          · exact Or.inr ⟨q, List.mem_cons_of_mem _ hq, he⟩
      · rw [if_neg hc]
        obtain ⟨h1, h2, h3⟩ := ih t0
        refine ⟨h1, ?_, ?_⟩
        · intro q hq
          rcases List.mem_cons.mp hq with hq | hq
          · subst hq; omega
          · exact h2 q hq
        · rcases h3 with h3 | ⟨q, hq, he⟩
          · exact Or.inl h3
          · exact Or.inr ⟨q, List.mem_cons_of_mem _ hq, he⟩
  cases p with
  | nil => exact absurd rfl hp
  | cons p0 rest =>
    obtain ⟨h1, h2, h3⟩ := key rest p0.arrival_time
    unfold IsMinArrival initial_time
    constructor
    · rcases h3 with h3 | ⟨q, hq, he⟩
      · exact ⟨p0, List.mem_cons_self _ _, h3.symm⟩
      · exact ⟨q, List.mem_cons_of_mem _ hq, he⟩
    · intro q hq
      rcases List.mem_cons.mp hq with hq | hq
      · subst hq; exact h1
      · exact h2 q hq

/-! ## SJF: the loop -/

theorem sjf_loop_succ (fuel : Nat) (s : SjfState) :
    sjf_loop (fuel + 1) s =
      if s.finished < s.p.length then
        match pick_sjf s.p s.time with
        | none =>
          if earliest_arrival_not_done s.p = INT_MAX then some s
          else sjf_loop fuel (sjf_idle s (earliest_arrival_not_done s.p))
        | some idx => sjf_loop fuel (sjf_dispatch s idx)
      else some s := rfl

/-- Invariant rule for the SJF loop: a property kept by the IDLE branch and by a dispatch holds
when the loop is left. -/
theorem sjf_loop_inv (Inv : SjfState → Prop)
    (hidle : ∀ s, Inv s → s.finished < s.p.length → pick_sjf s.p s.time = none →
      earliest_arrival_not_done s.p ≠ INT_MAX →
      Inv (sjf_idle s (earliest_arrival_not_done s.p)))
    (hdisp : ∀ s idx, Inv s → s.finished < s.p.length → pick_sjf s.p s.time = some idx →
      Inv (sjf_dispatch s idx)) :
    ∀ (fuel : Nat) (s r : SjfState), Inv s → sjf_loop fuel s = some r → Inv r ∧ SjfExit r := by
  intro fuel
  induction fuel with
  | zero => intro s r _ h; cases h
  | succ fuel ih =>
    intro s r hs h
    rw [sjf_loop_succ] at h
    by_cases hlt : s.finished < s.p.length
    · rw [if_pos hlt] at h
      cases hp : pick_sjf s.p s.time with
      | none =>
        rw [hp] at h
        simp only [] at h
        by_cases he : earliest_arrival_not_done s.p = INT_MAX
        · rw [if_pos he] at h
          cases h
          exact ⟨hs, Or.inr ⟨hlt, hp, he⟩⟩
        · rw [if_neg he] at h
          exact ih _ r (hidle s hs hlt hp he) h
      | some idx =>
        rw [hp] at h
        exact ih _ r (hdisp s idx hs hlt hp) h
    · rw [if_neg hlt] at h
      cases h
      exact ⟨hs, Or.inl (by omega)⟩

theorem sjf_dispatch_length (s : SjfState) (idx : Nat) :
    (sjf_dispatch s idx).p.length = s.p.length := by
  simp [sjf_dispatch]

theorem sjf_dispatch_finished (s : SjfState) (idx : Nat) :
    (sjf_dispatch s idx).finished = s.finished + 1 := rfl

theorem sjf_dispatch_eq (s : SjfState) (idx : Nat) :
    sjf_dispatch s idx =
      { p := s.p.set idx (sjf_record s.time (s.p.getD idx default))
        time := (sjf_record s.time (s.p.getD idx default)).completion_time
        finished := s.finished + 1
        seg := s.seg ++ [⟨Label.proc (s.p.getD idx default).pid, s.time,
          (sjf_record s.time (s.p.getD idx default)).completion_time⟩] } := rfl

theorem countP_set_of_not {α : Type} (f : α → Bool) (l : List α) (i : Nat) (x d : α)
    (hi : i < l.length) (hold : f (l.getD i d) = false) (hnew : f x = true) :
    (l.set i x).countP f = l.countP f + 1 := by
  induction l generalizing i with
  | nil => simp at hi
  | cons a rest ih =>
    cases i with
    | zero =>
      simp only [List.getD_cons_zero] at hold
      simp [List.set, List.countP_cons, hold, hnew]
    | succ i =>
      simp only [List.getD_cons_succ] at hold
      simp only [List.length_cons, Nat.succ_lt_succ_iff] at hi
      simp only [List.set, List.countP_cons]
      rw [ih i hi hold]
      omega

theorem counted_dispatch {s : SjfState} {idx : Nat} (h : Counted s)
    (hp : pick_sjf s.p s.time = some idx) : Counted (sjf_dispatch s idx) := by
  obtain ⟨hi, hel, _⟩ := pick_sjf_some hp
  unfold Counted at *
  rw [sjf_dispatch_eq]
  show s.finished + 1 = done_count (s.p.set idx _)
  unfold done_count at *
  rw [countP_set_of_not _ _ _ _ default hi (by rw [hel.1]; rfl) (by simp [sjf_record]), h]

theorem counted_idle {s : SjfState} {t : Int} (h : Counted s) : Counted (sjf_idle s t) := h

/-- While `finished < n` some record is not done. -/
theorem counted_exists_not_done {s : SjfState} (h : Counted s) (hlt : s.finished < s.p.length) :
    ∃ q ∈ s.p, q.done = 0 := by
  by_contra hne
  push_neg at hne
  have : done_count s.p = s.p.length := by
    unfold done_count
    rw [List.countP_eq_length]
    intro q hq
    simpa using hne q hq
  unfold Counted at h
  omega

/-- After the IDLE branch a record is eligible, so the next iteration dispatches. -/
theorem pick_after_idle {s : SjfState} (he : earliest_arrival_not_done s.p ≠ INT_MAX) :
    pick_sjf (sjf_idle s (earliest_arrival_not_done s.p)).p
      (sjf_idle s (earliest_arrival_not_done s.p)).time ≠ none := by
  obtain ⟨q, hq, hd, ha⟩ := earliest_attained he
  exact pick_sjf_ne_none (q := q) hq ⟨hd, le_of_eq ha⟩

/-- The loop of `simulate_sjf` terminates: with `k` records left to dispatch, `2k + 1` units of
fuel are enough (at most two iterations per record, and the final test). -/
theorem sjf_loop_terminates (k : Nat) :
    ∀ (s : SjfState), Counted s → s.p.length - s.finished ≤ k →
      ∀ fuel, 2 * k + 1 ≤ fuel → ∃ r, sjf_loop fuel s = some r := by
  induction k with
  | zero =>
    intro s _ hk fuel hf
    obtain ⟨f, rfl⟩ : ∃ f, fuel = f + 1 := ⟨fuel - 1, by omega⟩
    rw [sjf_loop_succ, if_neg (by omega)]
    exact ⟨s, rfl⟩
  | succ k ih =>
    intro s hc hk fuel hf
    obtain ⟨f, rfl⟩ : ∃ f, fuel = f + 1 := ⟨fuel - 1, by omega⟩
    rw [sjf_loop_succ]
    by_cases hlt : s.finished < s.p.length
    · rw [if_pos hlt]
      cases hp : pick_sjf s.p s.time with
      | none =>
        simp only []
        by_cases he : earliest_arrival_not_done s.p = INT_MAX
        · rw [if_pos he]; exact ⟨s, rfl⟩
        · rw [if_neg he]
          obtain ⟨f', rfl⟩ : ∃ f', f = f' + 1 := ⟨f - 1, by omega⟩
          rw [sjf_loop_succ, if_pos (by exact hlt)]
          cases hp' : pick_sjf (sjf_idle s (earliest_arrival_not_done s.p)).p
              (sjf_idle s (earliest_arrival_not_done s.p)).time with
          | none => exact absurd hp' (pick_after_idle he)
          | some idx =>
            simp only []
            apply ih _ (counted_dispatch (counted_idle hc) hp')
            · rw [sjf_dispatch_length, sjf_dispatch_finished]
              show s.p.length - (s.finished + 1) ≤ k
              omega
            · omega
      | some idx =>
        simp only []
        apply ih _ (counted_dispatch hc hp)
        · rw [sjf_dispatch_length, sjf_dispatch_finished]; omega
        · omega
    · rw [if_neg hlt]; exact ⟨s, rfl⟩

theorem done_count_clear_done (l : List Process) : done_count (clear_done l) = 0 := by
  unfold done_count clear_done
  rw [List.countP_eq_zero]
  intro q hq
  simp only [List.mem_map] at hq
  obtain ⟨q0, _, rfl⟩ := hq
  simp

theorem sjf_init_counted (input : List Process) : Counted (sjf_init input) := by
  unfold Counted sjf_init
  simp [done_count_clear_done]

theorem sjf_init_length (input : List Process) : (sjf_init input).p.length = input.length := by
  simp [sjf_init, clear_done]

/-- The function `simulate_sjf` returns on every input: the loop stops within `2n` iterations. -/
theorem sjf_run_terminates (input : List Process) : ∃ r, sjf_run input = some r := by
  unfold sjf_run
  apply sjf_loop_terminates input.length _ (sjf_init_counted input)
  · rw [sjf_init_length]; omega
  · omega

/-! ## SJF: list bookkeeping -/

theorem sum_map_set {α : Type} (f : α → Int) (l : List α) (i : Nat) (x d : α)
    (hi : i < l.length) :
    ((l.set i x).map f).sum = (l.map f).sum - f (l.getD i d) + f x := by
  induction l generalizing i with
  | nil => simp at hi
  | cons a rest ih =>
    cases i with
    | zero => simp [List.set]; ring
    | succ i =>
      simp only [List.length_cons, Nat.succ_lt_succ_iff] at hi
      simp only [List.set, List.map_cons, List.sum_cons, List.getD_cons_succ]
      rw [ih i hi]; ring

theorem map_set_same {α β : Type} (f : α → β) (l : List α) (i : Nat) (x d : α)
    (hi : i < l.length) (h : f x = f (l.getD i d)) : (l.set i x).map f = l.map f := by
  induction l generalizing i with
  | nil => simp at hi
  | cons a rest ih =>
    cases i with
    | zero => simp only [List.getD_cons_zero] at h; simp [List.set, h]
    | succ i =>
      simp only [List.length_cons, Nat.succ_lt_succ_iff] at hi
      simp only [List.getD_cons_succ] at h
      simp only [List.set, List.map_cons]
      rw [ih i hi h]

theorem remaining_nonneg {p : List Process} (hv : ∀ q ∈ p, ValidProc q) : 0 ≤ remaining p := by
  unfold remaining
  apply List.sum_nonneg
  intro x hx
  simp only [List.mem_map] at hx
  obtain ⟨q, hq, rfl⟩ := hx
  have := (hv q hq).2.2.1
  split <;> omega

theorem burst_le_remaining {p : List Process} (hv : ∀ q ∈ p, ValidProc q) {q : Process}
    (hq : q ∈ p) (hd : q.done = 0) : q.burst_time ≤ remaining p := by
  induction p with
  | nil => cases hq
  | cons a rest ih =>
    have hrest : ∀ x ∈ rest, ValidProc x := fun x hx => hv x (List.mem_cons_of_mem _ hx)
    have h0 := remaining_nonneg hrest
    have ha := (hv a (List.mem_cons_self _ _)).2.2.1
    unfold remaining at *
    simp only [List.map_cons, List.sum_cons]
    rcases List.mem_cons.mp hq with hq | hq
    · subst hq; rw [if_pos hd]; omega
    · have := ih hrest hq
      split <;> omega

theorem remaining_clear_done (l : List Process) : remaining (clear_done l) = sum_burst l := by
  simp [remaining, clear_done, sum_burst, Function.comp_def]

theorem remaining_dispatch {p : List Process} {idx : Nat} {time : Int} (hi : idx < p.length)
    (hd : (p.getD idx default).done = 0) :
    remaining (p.set idx (sjf_record time (p.getD idx default))) =
      remaining p - (p.getD idx default).burst_time := by
  unfold remaining
  rw [sum_map_set _ _ _ _ default hi]
  simp only [hd, if_true]
  have h1 : (sjf_record time (p.getD idx default)).done = 1 := rfl
  rw [if_neg (by rw [h1]; decide)]
  ring

theorem core_dispatch {p : List Process} {idx : Nat} {time : Int} (hi : idx < p.length) :
    (p.set idx (sjf_record time (p.getD idx default))).map core = p.map core :=
  map_set_same core p idx _ default hi rfl

/-- A member of the table after a dispatch is the dispatched record or an old member. -/
theorem mem_dispatch {s : SjfState} {idx : Nat} {x : Process}
    (hx : x ∈ (sjf_dispatch s idx).p) :
    x ∈ s.p ∨ x = sjf_record s.time (s.p.getD idx default) := by
  rw [sjf_dispatch_eq] at hx
  exact List.mem_or_eq_of_mem_set hx

theorem record_mem_dispatch {s : SjfState} {idx : Nat} (hi : idx < s.p.length) :
    sjf_record s.time (s.p.getD idx default) ∈ (sjf_dispatch s idx).p := by
  rw [sjf_dispatch_eq]
  exact List.mem_set _ _ hi _

/-! ## SJF: what a dispatch writes -/

theorem sjf_record_fits {time : Int} {q : Process} (hq : ValidProc q)
    (ha : q.arrival_time ≤ time) (hf : time + q.burst_time ≤ INT_MAX) :
    (sjf_record time q).completion_time = time + q.burst_time ∧
      Finalized (sjf_record time q) := by
  obtain ⟨ha0, _, hb0, _⟩ := hq
  have hM : INT_MAX = 2147483647 := rfl
  have hm : INT_MIN = -2147483648 := rfl
  have hct : (sjf_record time q).completion_time = time + q.burst_time := by
    show wrapInt (time + q.burst_time) = _
    apply wrapInt_eq <;> omega
  refine ⟨hct, ⟨?_, ?_, ?_, rfl, ha⟩⟩
  · rw [hct]; rfl
  · show wrapInt ((sjf_record time q).completion_time - q.arrival_time) = _
    rw [hct]
    show wrapInt _ = time + q.burst_time - q.arrival_time
    apply wrapInt_eq <;> omega
  · show wrapInt (time - q.arrival_time) = time - q.arrival_time
    apply wrapInt_eq <;> omega

theorem sjf_record_waited {time : Int} {q : Process} (ht : INT_MIN ≤ time ∧ time ≤ INT_MAX)
    (hq : ValidProc q) (ha : q.arrival_time ≤ time) : Waited (sjf_record time q) := by
  obtain ⟨ha0, _, _, _⟩ := hq
  have hM : INT_MAX = 2147483647 := rfl
  have hm : INT_MIN = -2147483648 := rfl
  have hw : (sjf_record time q).waiting_time = time - q.arrival_time := by
    show wrapInt (time - q.arrival_time) = _
    apply wrapInt_eq <;> omega
  refine ⟨?_, ha, rfl⟩
  rw [hw]; omega

/-! ## SJF: the invariant of a timeline that fits into an `int` -/

/-- In the IDLE branch the clock moves strictly forward. -/
theorem idle_advances {s : SjfState} (hp : pick_sjf s.p s.time = none)
    (he : earliest_arrival_not_done s.p ≠ INT_MAX) :
    s.time < earliest_arrival_not_done s.p := by
  obtain ⟨q, hq, hd, ha⟩ := earliest_attained he
  have hne := pick_sjf_none hp q hq
  unfold Eligible at hne
  have : ¬ q.arrival_time ≤ s.time := fun h => hne ⟨hd, h⟩
  omega

theorem sjfInv_idle {A : Int} {c : List (Int × Int × Int)} {s : SjfState} (h : SjfInv A c s)
    (hlt : s.finished < s.p.length) (hp : pick_sjf s.p s.time = none)
    (he : earliest_arrival_not_done s.p ≠ INT_MAX) :
    SjfInv A c (sjf_idle s (earliest_arrival_not_done s.p)) := by
  have hadv := idle_advances hp he
  obtain ⟨q, hq, _, ha⟩ := earliest_attained he
  have hqv := h.valid q hq
  refine ⟨counted_idle h.counted, h.frame, h.valid, ?_, ?_, ?_, h.shortest, ?_, ?_⟩
  · show 0 ≤ earliest_arrival_not_done s.p
    have := h.time_nonneg; omega
  · show max (earliest_arrival_not_done s.p) A + remaining s.p ≤ INT_MAX
    have := h.fits
    have := hqv.2
    omega
  · intro x hx hd
    obtain ⟨h1, h2⟩ := h.fin x hx hd
    refine ⟨h1, ?_⟩
    show x.completion_time ≤ earliest_arrival_not_done s.p
    omega
  · exact segOK_snoc h.segs Label.idle hadv
  · intro _
    refine ⟨?_, Or.inl hlt⟩
    show s.seg ++ _ ≠ []
    simp

theorem sjfInv_dispatch {A : Int} {c : List (Int × Int × Int)} {s : SjfState} {idx : Nat}
    (h : SjfInv A c s) (hp : pick_sjf s.p s.time = some idx) :
    SjfInv A c (sjf_dispatch s idx) := by
  obtain ⟨hi, hel, hmin⟩ := pick_sjf_some hp
  have hq0 : s.p.getD idx default ∈ s.p := getD_mem hi
  have hv0 := h.valid _ hq0
  have hallv : ∀ q ∈ s.p, ValidProc q := fun q hq => (h.valid q hq).1
  have hbr := burst_le_remaining hallv hq0 hel.1
  have hb0 := hv0.1.2.2.1
  have hfits := h.fits
  have ht0 := h.time_nonneg
  have hbound : s.time + (s.p.getD idx default).burst_time ≤ INT_MAX := by omega
  obtain ⟨hct, hfin⟩ := sjf_record_fits hv0.1 hel.2 hbound
  have hst : (sjf_record s.time (s.p.getD idx default)).start_time = s.time := rfl
  have hbt : (sjf_record s.time (s.p.getD idx default)).burst_time =
      (s.p.getD idx default).burst_time := rfl
  have hat : (sjf_record s.time (s.p.getD idx default)).arrival_time =
      (s.p.getD idx default).arrival_time := rfl
  have htime : (sjf_dispatch s idx).time = s.time + (s.p.getD idx default).burst_time := by
    rw [sjf_dispatch_eq]; exact hct
  refine ⟨counted_dispatch h.counted hp, ?_, ?_, ?_, ?_, ?_, ?_, ?_, ?_⟩
  · rw [sjf_dispatch_eq]
    show (s.p.set idx _).map core = c
    rw [core_dispatch hi]; exact h.frame
  · intro x hx
    rcases mem_dispatch hx with hx | hx
    · exact h.valid x hx
    · subst hx; exact hv0
  · rw [htime]; omega
  · rw [htime]
    have : remaining (sjf_dispatch s idx).p =
        remaining s.p - (s.p.getD idx default).burst_time := by
      rw [sjf_dispatch_eq]; exact remaining_dispatch hi hel.1
    rw [this]; omega
  · intro x hx hd
    rw [htime]
    rcases mem_dispatch hx with hx | hx
    · obtain ⟨h1, h2⟩ := h.fin x hx hd
      exact ⟨h1, by omega⟩
    · subst hx
      exact ⟨hfin, by rw [hct]⟩
  · intro x hx hd r hr har hbr'
    rcases mem_dispatch hx with hx | hx
    · rcases mem_dispatch hr with hr | hr
      · exact h.shortest x hx hd r hr har hbr'
      · subst hr
        rw [hat] at har
        rw [hbt] at hbr'
        exact absurd hel.1 (h.shortest x hx hd _ hq0 har hbr').1
    · subst hx
      rw [hst] at har ⊢
      rw [hbt] at hbr'
      rcases mem_dispatch hr with hr | hr
      · have hrd : r.done ≠ 0 := by
          intro hrd
          have := hmin r hr ⟨hrd, har⟩
          omega
        exact ⟨hrd, (h.fin r hr hrd).2⟩
      · subst hr
        rw [hbt] at hbr'
        omega
  · rw [sjf_dispatch_eq]
    show SegOK (s.seg ++ [⟨_, s.time, _⟩]) _
    apply segOK_snoc h.segs
    rw [hct]; omega
  · intro _
    refine ⟨?_, Or.inr ⟨_, record_mem_dispatch hi, ?_, ?_⟩⟩
    · rw [sjf_dispatch_eq]
      show s.seg ++ _ ≠ []
      simp
    · show (1 : Int) ≠ 0
      decide
    · rw [sjf_dispatch_eq]

theorem clear_done_ne_nil {input : List Process} (hv : ValidInput input) :
    clear_done input ≠ [] := by
  intro h
  have := congrArg List.length h
  simp only [clear_done, List.length_map, List.length_nil] at this
  have := hv.1
  omega

theorem sjfInv_init {input : List Process} (hv : ValidInput input) (hf : Fits input) :
    SjfInv (max_arrival input) ((clear_done input).map core) (sjf_init input) := by
  obtain ⟨⟨q, hq, ha⟩, _⟩ := initial_time_isMin (clear_done_ne_nil hv)
  have hqv := validProc_clear_done hv.2 q hq
  have hqa := arrival_le_clear_done hq
  have hnd : ∀ x ∈ clear_done input, x.done = 0 := by
    intro x hx
    obtain ⟨x0, _, rfl⟩ := mem_clear_done hx
    rfl
  refine ⟨sjf_init_counted input, rfl, ?_, ?_, ?_, ?_, ?_, segOK_nil _, ?_⟩
  · intro x hx
    exact ⟨validProc_clear_done hv.2 x hx, arrival_le_clear_done hx⟩
  · show 0 ≤ initial_time (clear_done input)
    have := hqv.1; omega
  · show max (initial_time (clear_done input)) (max_arrival input) +
      remaining (clear_done input) ≤ INT_MAX
    rw [remaining_clear_done]
    unfold Fits at hf
    omega
  · intro x hx hd; exact absurd (hnd x hx) hd
  · intro x hx hd; exact absurd (hnd x hx) hd
  · intro h0
    exact absurd h0 (lt_irrefl 0)

/-- With the invariant the `break` is not taken: the loop is left with every record done. -/
theorem sjfInv_all_done {A : Int} {c : List (Int × Int × Int)} {r : SjfState}
    (h : SjfInv A c r) (hx : SjfExit r) :
    r.finished = r.p.length ∧ ∀ q ∈ r.p, q.done ≠ 0 := by
  have hcount : done_count r.p ≤ r.p.length := List.countP_le_length _
  have hfin : r.p.length ≤ r.finished := by
    rcases hx with hx | ⟨hlt, _, he⟩
    · exact hx
    · exfalso
      obtain ⟨q, hq, hd⟩ := counted_exists_not_done h.counted hlt
      have h1 := earliest_le_arrival hq hd
      have h2 := (h.valid q hq).2
      have h3 := burst_le_remaining (fun x hx => (h.valid x hx).1) hq hd
      have h4 := (h.valid q hq).1.2.2.1
      have h5 := h.fits
      omega
  have hc := h.counted
  unfold Counted at hc
  refine ⟨by omega, ?_⟩
  have heq : done_count r.p = r.p.length := by omega
  unfold done_count at heq
  rw [List.countP_eq_length] at heq
  intro q hq
  simpa using heq q hq

/-- On a valid input whose timeline fits into an `int`, `simulate_sjf` leaves its loop with the
invariant and with every record dispatched. -/
theorem sjf_run_inv {input : List Process} (hv : ValidInput input) (hf : Fits input) :
    ∃ r, sjf_run input = some r ∧
      SjfInv (max_arrival input) ((clear_done input).map core) r ∧
      r.finished = r.p.length ∧ ∀ q ∈ r.p, q.done ≠ 0 := by
  obtain ⟨r, hr⟩ := sjf_run_terminates input
  refine ⟨r, hr, ?_⟩
  obtain ⟨h1, h2⟩ := sjf_loop_inv (SjfInv (max_arrival input) ((clear_done input).map core))
    (fun s hs hlt hp he => sjfInv_idle hs hlt hp he) (fun s idx hs _ hp => sjfInv_dispatch hs hp)
    _ _ r (sjfInv_init hv hf) hr
  exact ⟨h1, sjfInv_all_done h1 h2⟩

/-! ## The first segment -/

theorem isMinArrival_unique {l : List Process} {a b : Int} (ha : IsMinArrival l a)
    (hb : IsMinArrival l b) : a = b := by
  obtain ⟨⟨q, hq, hqa⟩, ha2⟩ := ha
  obtain ⟨⟨r, hr, hrb⟩, hb2⟩ := hb
  have h1 := ha2 r hr
  have h2 := hb2 q hq
  omega

theorem isMinArrival_of_perm {l₁ l₂ : List Process} (h : l₁.Perm l₂) {a : Int}
    (ha : IsMinArrival l₁ a) : IsMinArrival l₂ a := by
  obtain ⟨⟨q, hq, hqa⟩, ha2⟩ := ha
  exact ⟨⟨q, h.mem_iff.mp hq, hqa⟩, fun r hr => ha2 r (h.mem_iff.mpr hr)⟩

theorem isMinArrival_clear_done {l : List Process} {a : Int} (ha : IsMinArrival l a) :
    IsMinArrival (clear_done l) a := by
  obtain ⟨⟨q, hq, hqa⟩, ha2⟩ := ha
  refine ⟨⟨{ q with done := 0 }, ?_, hqa⟩, ?_⟩
  · simp only [clear_done, List.mem_map]
    exact ⟨q, hq, rfl⟩
  · intro r hr
    obtain ⟨r0, hr0, rfl⟩ := mem_clear_done hr
    exact ha2 r0 hr0

/-- The first record FCFS dispatches has the smallest arrival time. -/
theorem qsort_head_min {input : List Process} {a : Int} (hv : ValidInput input)
    (ha : IsMinArrival input a) :
    ∃ q0 rest, qsort cmp_arrival_pid (clear_done input) = q0 :: rest ∧ q0.arrival_time = a := by
  have hs := qsort_arrival_sorted (validProc_clear_done hv.2)
  have hmin : IsMinArrival (qsort cmp_arrival_pid (clear_done input)) a :=
    isMinArrival_of_perm (qsort_perm _ _).symm (isMinArrival_clear_done ha)
  cases hq : qsort cmp_arrival_pid (clear_done input) with
  | nil =>
    rw [hq] at hmin
    obtain ⟨⟨q, hq', _⟩, _⟩ := hmin
    cases hq'
  | cons q0 rest =>
    rw [hq] at hs hmin
    refine ⟨q0, rest, rfl, ?_⟩
    apply isMinArrival_unique (l := q0 :: rest) _ hmin
    refine ⟨⟨q0, List.mem_cons_self _ _, rfl⟩, ?_⟩
    intro r hr
    rcases List.mem_cons.mp hr with hr | hr
    · subst hr; exact le_rfl
    · exact (List.pairwise_cons.mp hs).1 r hr

/-- The segment buffer of `simulate_fcfs` starts with the segments of the first record
dispatched, the clock being 0. -/
theorem simulate_fcfs_first {input : List Process} {a : Int} (hv : ValidInput input)
    (ha : IsMinArrival input a) :
    ∃ q0 ext, q0.arrival_time = a ∧ (simulate_fcfs input).1 = fcfs_segs 0 q0 ++ ext := by
  obtain ⟨q0, rest, hq, hqa⟩ := qsort_head_min hv ha
  obtain ⟨ext, he⟩ := fcfs_loop_seg_grows rest (fcfs_step ⟨0, [], []⟩ q0)
  refine ⟨q0, ext, hqa, ?_⟩
  show (fcfs_loop ⟨0, [], []⟩ (qsort cmp_arrival_pid (clear_done input))).seg = _
  rw [hq, fcfs_loop_cons, he, fcfs_step_eq]
  simp

/-- The segment buffer of `simulate_sjf` starts with a process segment at the smallest arrival
time. -/
theorem sjf_run_first {input : List Process} {a : Int} (hv : ValidInput input)
    (ha : IsMinArrival input a) :
    ∃ r, sjf_run input = some r ∧ ∃ pid stop ext, r.seg = ⟨Label.proc pid, a, stop⟩ :: ext := by
  obtain ⟨r, hr⟩ := sjf_run_terminates input
  refine ⟨r, hr, ?_⟩
  have hmin := initial_time_isMin (clear_done_ne_nil hv)
  have hta : initial_time (clear_done input) = a :=
    isMinArrival_unique hmin (isMinArrival_clear_done ha)
  obtain ⟨⟨q, hq, hqa⟩, _⟩ := hmin
  have hqd : q.done = 0 := by
    obtain ⟨q0, _, rfl⟩ := mem_clear_done hq
    rfl
  have hpick : pick_sjf (sjf_init input).p (sjf_init input).time ≠ none :=
    pick_sjf_ne_none (q := q) hq ⟨hqd, le_of_eq hqa⟩
  have hlen : (sjf_init input).finished < (sjf_init input).p.length := by
    rw [sjf_init_length]
    show 0 < input.length
    have := hv.1; omega
  unfold sjf_run at hr
  rw [sjf_loop_succ, if_pos hlen] at hr
  cases hp : pick_sjf (sjf_init input).p (sjf_init input).time with
  | none => exact absurd hp hpick
  | some idx =>
    rw [hp] at hr
    simp only [] at hr
    have hstart : ∃ pid stop ext,
        (sjf_dispatch (sjf_init input) idx).seg = ⟨Label.proc pid, a, stop⟩ :: ext := by
      rw [sjf_dispatch_eq]
      refine ⟨((sjf_init input).p.getD idx default).pid,
        (sjf_record (sjf_init input).time ((sjf_init input).p.getD idx default)).completion_time,
        [], ?_⟩
      rw [← hta]; rfl
    exact (sjf_loop_inv (fun s => ∃ pid stop ext, s.seg = ⟨Label.proc pid, a, stop⟩ :: ext)
      (fun s hs _ _ _ => by
        obtain ⟨pid, stop, ext, he⟩ := hs
        exact ⟨pid, stop, ext ++ [⟨Label.idle, s.time, earliest_arrival_not_done s.p⟩], by
          show s.seg ++ _ = _
          rw [he]; rfl⟩)
      (fun s idx hs _ _ => by
        obtain ⟨pid, stop, ext, he⟩ := hs
        rw [sjf_dispatch_eq]
        exact ⟨pid, stop, ext ++ [_], by
          show s.seg ++ _ = _
          rw [he]; rfl⟩)
      _ _ r hstart hr).1

/-! ## Results on the final schedules -/

theorem tiles_of_segOK {seg : List Segment} {table : List Process} {time : Int}
    (hs : SegOK seg time) (hne : seg ≠ []) (hle : ∀ q ∈ table, q.completion_time ≤ time)
    (hex : ∃ q ∈ table, q.completion_time = time) : Tiles seg table := by
  refine ⟨hne, hs.nonempty, hs.contiguous, ?_⟩
  cases hl : seg.getLast? with
  | none => exact absurd (List.getLast?_eq_none_iff.mp hl) hne
  | some last =>
    have hstop : last.stop = time := hs.last last (by rw [hl]; rfl)
    refine ⟨last, rfl, ?_, ?_⟩
    · rw [hstop]; exact hle
    · rw [hstop]; exact hex

theorem simulate_fcfs_ne_nil {input : List Process} (hv : ValidInput input) :
    (simulate_fcfs input).2 ≠ [] := by
  intro h
  have := simulate_fcfs_length input
  rw [h] at this
  have := hv.1
  simp only [List.length_nil] at *
  omega

theorem simulate_fcfs_tiles {input : List Process} (hv : ValidInput input) (hf : Fits input) :
    Tiles (simulate_fcfs input).1 (simulate_fcfs input).2 := by
  have h := simulate_fcfs_inv hv hf
  obtain ⟨hne, hex⟩ := h.reached (simulate_fcfs_ne_nil hv)
  exact tiles_of_segOK h.segs hne (fun q hq => (h.fin q hq).2.1) hex

theorem sjf_run_length {input : List Process} {A : Int} {r : SjfState}
    (h : SjfInv A ((clear_done input).map core) r) : r.p.length = input.length := by
  have := congrArg List.length h.frame
  simpa [clear_done] using this

theorem sjf_run_tiles {input : List Process} (hv : ValidInput input) (hf : Fits input) :
    ∃ r, sjf_run input = some r ∧ Tiles r.seg r.p := by
  obtain ⟨r, hr, hinv, hfin, hdone⟩ := sjf_run_inv hv hf
  refine ⟨r, hr, ?_⟩
  have hlen := sjf_run_length hinv
  have hpos : 0 < r.finished := by have := hv.1; omega
  obtain ⟨hne, hex⟩ := hinv.reached hpos
  rcases hex with hex | ⟨q, hq, _, hqc⟩
  · omega
  · exact tiles_of_segOK hinv.segs hne (fun x hx => (hinv.fin x hx (hdone x hx)).2)
      ⟨q, hq, hqc⟩

theorem simulate_sjf_eq {input : List Process} {r : SjfState} (h : sjf_run input = some r) :
    simulate_sjf input = some (r.seg, r.p) := by
  unfold simulate_sjf
  rw [h]; rfl

/-! ## SJF: facts that need no bound on the timeline -/

theorem sjfBase_idle {c : List (Int × Int × Int)} {s : SjfState} (h : SjfBase c s)
    (he : earliest_arrival_not_done s.p ≠ INT_MAX) :
    SjfBase c (sjf_idle s (earliest_arrival_not_done s.p)) := by
  obtain ⟨q, hq, _, ha⟩ := earliest_attained he
  have hqv := h.valid q hq
  refine ⟨counted_idle h.counted, h.frame, h.valid, ?_, h.waited⟩
  show INT_MIN ≤ earliest_arrival_not_done s.p ∧ earliest_arrival_not_done s.p ≤ INT_MAX
  have hm : INT_MIN = -2147483648 := rfl
  have := hqv.1
  have := hqv.2.1
  omega

theorem sjfBase_dispatch {c : List (Int × Int × Int)} {s : SjfState} {idx : Nat}
    (h : SjfBase c s) (hp : pick_sjf s.p s.time = some idx) :
    SjfBase c (sjf_dispatch s idx) := by
  obtain ⟨hi, hel, _⟩ := pick_sjf_some hp
  have hv0 := h.valid _ (getD_mem hi)
  refine ⟨counted_dispatch h.counted hp, ?_, ?_, ?_, ?_⟩
  · rw [sjf_dispatch_eq]
    show (s.p.set idx _).map core = c
    rw [core_dispatch hi]; exact h.frame
  · intro x hx
    rcases mem_dispatch hx with hx | hx
    · exact h.valid x hx
    · subst hx; exact hv0
  · rw [sjf_dispatch_eq]; exact wrapInt_range _
  · intro x hx hd
    rcases mem_dispatch hx with hx | hx
    · exact h.waited x hx hd
    · subst hx; exact sjf_record_waited h.range hv0 hel.2

theorem sjfBase_init {input : List Process} (hv : ValidInput input) :
    SjfBase ((clear_done input).map core) (sjf_init input) := by
  obtain ⟨⟨q, hq, ha⟩, _⟩ := initial_time_isMin (clear_done_ne_nil hv)
  have hqv := validProc_clear_done hv.2 q hq
  refine ⟨sjf_init_counted input, rfl, validProc_clear_done hv.2, ?_, ?_⟩
  · show INT_MIN ≤ initial_time (clear_done input) ∧ initial_time (clear_done input) ≤ INT_MAX
    have hm : INT_MIN = -2147483648 := rfl
    have := hqv.1
    have := hqv.2.1
    omega
  · intro x hx hd
    obtain ⟨x0, _, rfl⟩ := mem_clear_done hx
    exact absurd rfl hd

theorem core_clear_done (l : List Process) : (clear_done l).map core = l.map core := by
  simp [clear_done, core, Function.comp_def]

/-- When no arrival time is `INT_MAX`, `simulate_sjf` dispatches every process of a valid
input: the `break` is not taken, the loop ends with `finished == n`, and every record has
waited a non-negative time, whatever the burst times are. -/
theorem sjf_run_waited {input : List Process} (hv : ValidInput input)
    (hlt : ∀ q ∈ input, q.arrival_time < INT_MAX) :
    ∃ r, sjf_run input = some r ∧ r.finished = input.length ∧
      r.p.map core = input.map core ∧ ∀ q ∈ r.p, q.done ≠ 0 ∧ Waited q := by
  obtain ⟨r, hr⟩ := sjf_run_terminates input
  obtain ⟨hb, hx⟩ := sjf_loop_inv (SjfBase ((clear_done input).map core))
    (fun s hs _ _ he => sjfBase_idle hs he) (fun s idx hs _ hp => sjfBase_dispatch hs hp)
    _ _ r (sjfBase_init hv) hr
  have hframe : r.p.map core = input.map core := by rw [hb.frame, core_clear_done]
  have hlen : r.p.length = input.length := by
    have := congrArg List.length hframe
    simpa using this
  have harr : ∀ q ∈ r.p, q.arrival_time < INT_MAX := by
    intro q hq
    have hc : core q ∈ input.map core := by
      rw [← hframe]; exact List.mem_map_of_mem core hq
    obtain ⟨q0, hq0, he⟩ := List.mem_map.mp hc
    have : q0.arrival_time = q.arrival_time := by
      have := congrArg (fun t : Int × Int × Int => t.2.1) he
      exact this
    rw [← this]; exact hlt q0 hq0
  have hcount : done_count r.p ≤ r.p.length := List.countP_le_length _
  have hc := hb.counted
  unfold Counted at hc
  have hfin : r.p.length ≤ r.finished := by
    rcases hx with hx | ⟨hlt', _, he⟩
    · exact hx
    · exfalso
      obtain ⟨q, hq, hd⟩ := counted_exists_not_done hb.counted hlt'
      have h1 := earliest_le_arrival hq hd
      have h2 := harr q hq
      omega
  have heq : done_count r.p = r.p.length := by omega
  refine ⟨r, hr, by omega, hframe, ?_⟩
  unfold done_count at heq
  rw [List.countP_eq_length] at heq
  intro q hq
  have hd : q.done ≠ 0 := by simpa using heq q hq
  exact ⟨hd, hb.waited q hq hd⟩

/-! ## FCFS reads only `pid`, `arrival_time`, `burst_time` -/

theorem fcfs_loop_of_core (l : List Process) (s : FcfsState) (hd : ∀ q ∈ l, q.done = 0) :
    fcfs_loop s (l.map (fun q => of_core (core q))) = fcfs_loop s l := by
  induction l generalizing s with
  | nil => rfl
  | cons q rest ih =>
    have hq := hd q (List.mem_cons_self _ _)
    have hstep : fcfs_step s (of_core (core q)) = fcfs_step s q := by
      rw [fcfs_step_eq, fcfs_step_eq]
      simp [fcfs_record, fcfs_segs, of_core, core, mkProc, hq]
    simp only [List.map_cons, fcfs_loop_cons]
    rw [hstep]
    exact ih _ (fun x hx => hd x (List.mem_cons_of_mem _ hx))

/-- The output of `simulate_fcfs` is a function of the `pid`, `arrival_time` and `burst_time`
of the input records: stale derived fields and `done` flags are never read. -/
theorem simulate_fcfs_of_core (l : List Process) :
    simulate_fcfs l = simulate_fcfs (l.map (fun q => of_core (core q))) := by
  have hcd : clear_done (l.map (fun q => of_core (core q))) =
      (clear_done l).map (fun q => of_core (core q)) := by
    simp [clear_done, of_core, core, mkProc, Function.comp_def]
  have hsort : qsort cmp_arrival_pid ((clear_done l).map (fun q => of_core (core q))) =
      (qsort cmp_arrival_pid (clear_done l)).map (fun q => of_core (core q)) := by
    unfold qsort
    exact (List.map_insertionSort (fun x y => cmp_arrival_pid x y ≤ 0)
      (fun x y => cmp_arrival_pid x y ≤ 0) (fun q => of_core (core q)) (clear_done l)
      (fun a _ b _ => Iff.rfl)).symm
  have hdone : ∀ q ∈ qsort cmp_arrival_pid (clear_done l), q.done = 0 := by
    intro q hq
    rw [mem_qsort] at hq
    obtain ⟨q0, _, rfl⟩ := mem_clear_done hq
    rfl
  unfold simulate_fcfs
  simp only []
  rw [hcd, hsort, fcfs_loop_of_core _ _ hdone]

/-- Isolation of FCFS from stale fields: two inputs that agree on `pid`, `arrival_time` and
`burst_time` of every record give the same segments and the same table. -/
theorem simulate_fcfs_isolated {l₁ l₂ : List Process} (h : l₁.map core = l₂.map core) :
    simulate_fcfs l₁ = simulate_fcfs l₂ := by
  rw [simulate_fcfs_of_core l₁, simulate_fcfs_of_core l₂]
  have : ∀ l : List Process,
      l.map (fun q => of_core (core q)) = (l.map core).map of_core := by
    intro l; simp [Function.comp_def]
  rw [this l₁, this l₂, h]

/-! ## The function `main` -/

theorem item_ok_nil (j : Nat) : ¬ item_ok [] j := by
  simp [item_ok]

theorem item_ok_zero (a b : Int) (rest : List (Int × Int)) :
    item_ok ((a, b) :: rest) 0 ↔ 0 ≤ a ∧ 0 < b := by
  simp [item_ok]

theorem item_ok_succ (x : Int × Int) (rest : List (Int × Int)) (j : Nat) :
    item_ok (x :: rest) (j + 1) ↔ item_ok rest j := by
  simp [item_ok]

/-- What the read loop returns: the records of the first `k` items if all are valid, and
otherwise the number of the first invalid item. -/
theorem read_procs_spec (heap : Nat → Process) (k : Nat) :
    ∀ (i : Nat) (pairs : List (Int × Int)),
      match read_procs heap k i pairs with
      | Except.ok ps =>
        (∀ j, j < k → item_ok pairs j) ∧ ps.length = k ∧
          ∀ j, j < k → ∃ q, ps[j]? = some q ∧ q.pid = wrapInt (((i + j : Nat) : Int) + 1) ∧
            pairs[j]? = some (q.arrival_time, q.burst_time)
      | Except.error e =>
        ∃ m, e = i + m + 1 ∧ m < k ∧ ¬ item_ok pairs m ∧ ∀ j, j < m → item_ok pairs j := by
  induction k with
  | zero =>
    intro i pairs
    simp [read_procs]
  | succ k ih =>
    intro i pairs
    cases pairs with
    | nil =>
      simp only [read_procs]
      exact ⟨0, rfl, Nat.succ_pos _, item_ok_nil 0, fun j hj => absurd hj (Nat.not_lt_zero j)⟩
    | cons x rest =>
      obtain ⟨a, b⟩ := x
      simp only [read_procs]
      by_cases hbad : a < 0 ∨ b ≤ 0
      · rw [if_pos hbad]
        refine ⟨0, rfl, Nat.succ_pos _, ?_, fun j hj => absurd hj (Nat.not_lt_zero j)⟩
        rw [item_ok_zero]; omega
      · rw [if_neg hbad]
        have hrec := ih (i + 1) rest
        cases hr : read_procs heap k (i + 1) rest with
        | error e =>
          rw [hr] at hrec
          obtain ⟨m, he, hm, hbadm, hok⟩ := hrec
          refine ⟨m + 1, by omega, by omega, ?_, ?_⟩
          · rw [item_ok_succ]; exact hbadm
          · intro j hj
            cases j with
            | zero => rw [item_ok_zero]; omega
            | succ j => rw [item_ok_succ]; exact hok j (by omega)
        | ok ps =>
          rw [hr] at hrec
          obtain ⟨hok, hlen, hrecs⟩ := hrec
          refine ⟨?_, by simp [hlen], ?_⟩
          · intro j hj
            cases j with
            | zero => rw [item_ok_zero]; omega
            | succ j => rw [item_ok_succ]; exact hok j (by omega)
          · intro j hj
            cases j with
            | zero =>
              refine ⟨{ heap i with pid := wrapInt (i + 1), arrival_time := a, burst_time := b },
                by simp, ?_, by simp⟩
              simp
            | succ j =>
              obtain ⟨q, h1, h2, h3⟩ := hrecs j (by omega)
              refine ⟨q, by simpa using h1, ?_, by simpa using h3⟩
              rw [h2]
              congr 2
              omega

/-! ## The claims -/

/-- The state in which `simulate_sjf` leaves its loop is one the run went through. -/
theorem sjf_run_visited {input : List Process} {r : SjfState} (h : sjf_run input = some r) :
    Visited input r :=
  (sjf_loop_inv (Visited input) (fun _ hs hlt hp he => Visited.idle hs hlt hp he)
    (fun _ _ hs hlt hp => Visited.dispatch hs hlt hp) _ _ r Visited.init h).1

/-- C1 fails on the code.  On the valid input `(0,1), (2147483647,1)` the function
`simulate_sjf` dispatches process 1, then `earliest_arrival_not_done` returns `INT_MAX` for
process 2 and the loop is left through `break`: process 2 reaches the table as it came in.
With `waiting_time = -1` and `response_time = 7` in the memory `main` left unwritten, the table
reports these; with that memory all zero, it reports `start_time = 0`, before the arrival. -/
theorem C1_sjf_table_keeps_stale_record :
    ValidInput input_far ∧
      simulate_sjf input_far =
        some ([⟨Label.proc 1, 0, 1⟩],
          [⟨1, 0, 1, 0, 1, 1, 0, 0, 1⟩, ⟨2, 2147483647, 1, 0, 0, 0, -1, 7, 0⟩]) ∧
    ValidInput input_far_zero ∧
      simulate_sjf input_far_zero =
        some ([⟨Label.proc 1, 0, 1⟩],
          [⟨1, 0, 1, 0, 1, 1, 0, 0, 1⟩, ⟨2, 2147483647, 1, 0, 0, 0, 0, 0, 0⟩]) := by
  decide

/-- C2 as stated fails: on the valid input `(0,2147483647), (0,1)` FCFS leaves process 2 with
`completion_time = INT_MIN`, which is not `start_time + burst_time`. -/
theorem C2_counterexample :
    ValidInput input_two_long ∧
      ∃ q ∈ (simulate_fcfs input_two_long).2,
        q.completion_time ≠ q.start_time + q.burst_time := by
  decide

/-- C2, amended: for every valid input whose latest arrival plus total burst time is at most
`INT_MAX`, both simulators leave every one of the `n` processes with
`completion_time = start_time + burst_time`, `turnaround_time = completion_time - arrival_time`
and `turnaround_time = waiting_time + burst_time`, in exact integer arithmetic. -/
theorem C2_derived_fields_exact (input : List Process) (hv : ValidInput input)
    (hf : Fits input) :
    ((simulate_fcfs input).2.length = input.length ∧
      ∀ q ∈ (simulate_fcfs input).2,
        q.completion_time = q.start_time + q.burst_time ∧
        q.turnaround_time = q.completion_time - q.arrival_time ∧
        q.turnaround_time = q.waiting_time + q.burst_time) ∧
    ∃ res, simulate_sjf input = some res ∧ res.2.length = input.length ∧
      ∀ q ∈ res.2,
        q.completion_time = q.start_time + q.burst_time ∧
        q.turnaround_time = q.completion_time - q.arrival_time ∧
        q.turnaround_time = q.waiting_time + q.burst_time := by
  constructor
  · refine ⟨simulate_fcfs_length input, ?_⟩
    intro q hq
    have h := ((simulate_fcfs_inv hv hf).fin q hq).1
    exact ⟨h.completion, h.turnaround, finalized_turnaround_eq h⟩
  · obtain ⟨r, hr, hinv, _, hdone⟩ := sjf_run_inv hv hf
    refine ⟨(r.seg, r.p), simulate_sjf_eq hr, sjf_run_length hinv, ?_⟩
    intro q hq
    have h := (hinv.fin q hq (hdone q hq)).1
    exact ⟨h.completion, h.turnaround, finalized_turnaround_eq h⟩

/-- C2, amended, at Example 1 of the specification. -/
theorem C2_derived_fields_exact_witness :
    ValidInput input_example1 ∧ Fits input_example1 ∧
    (((simulate_fcfs input_example1).2.length = input_example1.length ∧
      ∀ q ∈ (simulate_fcfs input_example1).2,
        q.completion_time = q.start_time + q.burst_time ∧
        q.turnaround_time = q.completion_time - q.arrival_time ∧
        q.turnaround_time = q.waiting_time + q.burst_time) ∧
    ∃ res, simulate_sjf input_example1 = some res ∧ res.2.length = input_example1.length ∧
      ∀ q ∈ res.2,
        q.completion_time = q.start_time + q.burst_time ∧
        q.turnaround_time = q.completion_time - q.arrival_time ∧
        q.turnaround_time = q.waiting_time + q.burst_time) :=
  ⟨by decide, by decide, C2_derived_fields_exact input_example1 (by decide) (by decide)⟩

/-- C3 as stated fails, in two ways.  On the valid input `(0,2147483647), (0,1), (0,1)` with
pids 1, 2, 3 the clock overflows and process 3 starts at 0, before process 1 completes.  On
`(0,1), (0,1)` with pids `1` and `INT_MIN` the subtraction in `cmp_arrival_pid` overflows and
the process with the larger pid is dispatched first. -/
theorem C3_counterexample :
    (ValidInput input_long ∧ (input_long.map Process.pid).Nodup ∧
      ∃ a ∈ (simulate_fcfs input_long).2, ∃ b ∈ (simulate_fcfs input_long).2,
        ArrivalPidLT a b ∧ ¬ a.completion_time ≤ b.start_time) ∧
    (ValidInput input_neg_pid ∧ (input_neg_pid.map Process.pid).Nodup ∧
      ∃ a ∈ (simulate_fcfs input_neg_pid).2, ∃ b ∈ (simulate_fcfs input_neg_pid).2,
        ArrivalPidLT a b ∧ ¬ a.completion_time ≤ b.start_time) := by
  decide

/-- C3, amended: for every valid input with non-negative pids whose latest arrival plus total
burst time is at most `INT_MAX`, FCFS dispatches in arrival order with ties broken by pid:
if `(arrival_time, pid)` of `a` is lexicographically smaller than that of `b`, then `a`
completes no later than `b` starts, and `a` starts strictly before `b`.  (Pids need not be
unique for this.) -/
theorem C3_fcfs_arrival_order (input : List Process) (hv : ValidInput input) (hf : Fits input)
    (hp : ∀ q ∈ input, PidOK q) :
    ∀ a ∈ (simulate_fcfs input).2, ∀ b ∈ (simulate_fcfs input).2,
      ArrivalPidLT a b → a.completion_time ≤ b.start_time ∧ a.start_time < b.start_time := by
  intro a ha b hb hlt
  have hinv := simulate_fcfs_inv hv hf
  have hboth := (simulate_fcfs_sorted hv hp).and hinv.order
  obtain ⟨hfa, _, hba⟩ := hinv.fin a ha
  have hca := hfa.completion
  unfold ArrivalPidLT at hlt
  rcases pairwise_trichotomy hboth ha hb with h | h | h
  · subst h; omega
  · have := h.2
    constructor <;> omega
  · have := h.1
    unfold ArrivalPidLE at this
    omega

/-- C3, amended, at Example 1 of the specification. -/
theorem C3_fcfs_arrival_order_witness :
    ValidInput input_example1 ∧ Fits input_example1 ∧ (∀ q ∈ input_example1, PidOK q) ∧
    ∀ a ∈ (simulate_fcfs input_example1).2, ∀ b ∈ (simulate_fcfs input_example1).2,
      ArrivalPidLT a b → a.completion_time ≤ b.start_time ∧ a.start_time < b.start_time :=
  ⟨by decide, by decide, by decide,
    C3_fcfs_arrival_order input_example1 (by decide) (by decide) (by decide)⟩

/-- C4 as stated fails in its final-schedule form: on the valid input `(0,10)`,
`(0,2147483646)`, `(0,2147483647)` the clock overflows while process 2 runs, SJF idles from
`-2147483640` to 0 and starts process 3 at 0, although process 1, which arrived at 0 with the
smaller burst 10, completes at 10. -/
theorem C4_counterexample :
    ValidInput input_sjf_long ∧
      ∃ res, simulate_sjf input_sjf_long = some res ∧
        ∃ q ∈ res.2, ∃ r ∈ res.2, r.arrival_time ≤ q.start_time ∧
          r.burst_time < q.burst_time ∧ ¬ r.completion_time ≤ q.start_time :=
  ⟨by decide,
    ([⟨Label.proc 1, 0, 10⟩, ⟨Label.proc 2, 10, -2147483640⟩, ⟨Label.idle, -2147483640, 0⟩,
        ⟨Label.proc 3, 0, 2147483647⟩],
      [⟨1, 0, 10, 0, 10, 10, 0, 0, 1⟩,
        ⟨2, 0, 2147483646, 10, -2147483640, -2147483640, 10, 10, 1⟩,
        ⟨3, 0, 2147483647, 0, 2147483647, 2147483647, 0, 0, 1⟩]),
    by decide, by decide⟩

/-- C4, amended: for every valid input, at every dispatch `simulate_sjf` makes at clock value
`t` of a process `q`, no process that is not yet done and has `arrival_time <= t` has a burst
time strictly smaller than that of `q`; and when the latest arrival plus the total burst time
is at most `INT_MAX`, in the final schedule any process `r` with
`arrival_time(r) <= start_time(q)` and `burst_time(r) < burst_time(q)` has
`completion_time(r) <= start_time(q)`. -/
theorem C4_sjf_no_shorter_eligible (input : List Process) (hv : ValidInput input) :
    (∀ s idx, Visited input s → s.finished < s.p.length → pick_sjf s.p s.time = some idx →
      ∀ r ∈ s.p, r.done = 0 → r.arrival_time ≤ s.time →
        ¬ r.burst_time < (s.p.getD idx default).burst_time) ∧
    (Fits input →
      ∃ res, simulate_sjf input = some res ∧ res.2.length = input.length ∧
        ∀ q ∈ res.2, ∀ r ∈ res.2, r.arrival_time ≤ q.start_time →
          r.burst_time < q.burst_time → r.completion_time ≤ q.start_time) := by
  constructor
  · intro s idx _ _ hp r hr hd ha
    have := (pick_sjf_some hp).2.2 r hr ⟨hd, ha⟩
    omega
  · intro hf
    obtain ⟨r, hr, hinv, _, hdone⟩ := sjf_run_inv hv hf
    refine ⟨(r.seg, r.p), simulate_sjf_eq hr, sjf_run_length hinv, ?_⟩
    intro q hq x hx ha hb
    exact (hinv.shortest q hq (hdone q hq) x hx ha hb).2

/-- C4, amended, at Example 1 of the specification. -/
theorem C4_sjf_no_shorter_eligible_witness :
    ValidInput input_example1 ∧ Fits input_example1 ∧
    (∀ s idx, Visited input_example1 s → s.finished < s.p.length →
      pick_sjf s.p s.time = some idx →
      ∀ r ∈ s.p, r.done = 0 → r.arrival_time ≤ s.time →
        ¬ r.burst_time < (s.p.getD idx default).burst_time) ∧
    (∃ res, simulate_sjf input_example1 = some res ∧ res.2.length = input_example1.length ∧
      ∀ q ∈ res.2, ∀ r ∈ res.2, r.arrival_time ≤ q.start_time →
        r.burst_time < q.burst_time → r.completion_time ≤ q.start_time) :=
  ⟨by decide, by decide, (C4_sjf_no_shorter_eligible input_example1 (by decide)).1,
    (C4_sjf_no_shorter_eligible input_example1 (by decide)).2 (by decide)⟩

/-- C5 as stated fails: on the valid input `(0,2147483647), (0,1)` the clock overflows and FCFS
writes the segment `P2 [2147483647, -2147483648)`, whose start is not before its end. -/
theorem C5_counterexample :
    ValidInput input_two_long ∧
      ∃ x ∈ (simulate_fcfs input_two_long).1, ¬ x.start < x.stop := by
  decide

/-- C5, amended: for every valid input whose latest arrival plus total burst time is at most
`INT_MAX`, the segment sequence of `simulate_fcfs` and that of `simulate_sjf` are non-empty,
every segment has `start < end`, each segment ends where the next one starts, and the last
segment ends at the maximum completion time over the `n` processes of the table. -/
theorem C5_segments_tile_timeline (input : List Process) (hv : ValidInput input)
    (hf : Fits input) :
    (Tiles (simulate_fcfs input).1 (simulate_fcfs input).2 ∧
      (simulate_fcfs input).2.length = input.length) ∧
    ∃ res, simulate_sjf input = some res ∧ Tiles res.1 res.2 ∧
      res.2.length = input.length := by
  refine ⟨⟨simulate_fcfs_tiles hv hf, simulate_fcfs_length input⟩, ?_⟩
  obtain ⟨r, hr, hinv, _, hdone⟩ := sjf_run_inv hv hf
  obtain ⟨r', hr', ht⟩ := sjf_run_tiles hv hf
  rw [hr] at hr'
  cases hr'
  exact ⟨(r.seg, r.p), simulate_sjf_eq hr, ht, sjf_run_length hinv⟩

/-- C5, amended, at Example 3 of the specification. -/
theorem C5_segments_tile_timeline_witness :
    ValidInput input_gap ∧ Fits input_gap ∧
    ((Tiles (simulate_fcfs input_gap).1 (simulate_fcfs input_gap).2 ∧
      (simulate_fcfs input_gap).2.length = input_gap.length) ∧
    ∃ res, simulate_sjf input_gap = some res ∧ Tiles res.1 res.2 ∧
      res.2.length = input_gap.length) :=
  ⟨by decide, by decide, C5_segments_tile_timeline input_gap (by decide) (by decide)⟩

/-- C6 as stated fails for FCFS: on Example 3, `(5,2), (10,2)`, the earliest arrival is 5 but
the first segment of `simulate_fcfs` starts at 0. -/
theorem C6_counterexample :
    ValidInput input_gap ∧ IsMinArrival input_gap 5 ∧
      (simulate_fcfs input_gap).1.head?.map Segment.start = some 0 ∧
      (simulate_fcfs input_gap).1.head?.map Segment.start ≠ some 5 := by
  decide

/-- C6, amended: for every valid input with earliest arrival time `a`, the first segment of
`simulate_sjf` starts at `a`, and the first segment of `simulate_fcfs` starts at 0 (which is
`a` exactly when `a = 0`). -/
theorem C6_first_segment_start (input : List Process) (a : Int) (hv : ValidInput input)
    (ha : IsMinArrival input a) :
    (∃ res, simulate_sjf input = some res ∧ res.1.head?.map Segment.start = some a) ∧
    (simulate_fcfs input).1.head?.map Segment.start = some 0 ∧
    ((simulate_fcfs input).1.head?.map Segment.start = some a ↔ a = 0) := by
  have hfcfs : (simulate_fcfs input).1.head?.map Segment.start = some 0 := by
    obtain ⟨q0, ext, hq0, hseg⟩ := simulate_fcfs_first hv ha
    have hq0v : 0 ≤ q0.arrival_time := by
      obtain ⟨⟨q, hq, hqa⟩, _⟩ := ha
      have := (hv.2 q hq).1
      omega
    rw [hseg]
    unfold fcfs_segs fcfs_record
    by_cases hc : 0 < q0.arrival_time
    · simp [hc]
    · simp [hc]
  refine ⟨?_, hfcfs, ?_⟩
  · obtain ⟨r, hr, pid, stop, ext, hseg⟩ := sjf_run_first hv ha
    exact ⟨(r.seg, r.p), simulate_sjf_eq hr, by
      show r.seg.head?.map Segment.start = some a
      rw [hseg]; rfl⟩
  · rw [hfcfs]
    constructor
    · intro h
      have := Option.some.inj h
      omega
    · intro h; rw [h]

/-- C6, amended, at Example 3 of the specification. -/
theorem C6_first_segment_start_witness :
    ValidInput input_gap ∧ IsMinArrival input_gap 5 ∧
    ((∃ res, simulate_sjf input_gap = some res ∧ res.1.head?.map Segment.start = some 5) ∧
    (simulate_fcfs input_gap).1.head?.map Segment.start = some 0 ∧
    ((simulate_fcfs input_gap).1.head?.map Segment.start = some 5 ↔ (5 : Int) = 0)) :=
  ⟨by decide, by decide, C6_first_segment_start input_gap 5 (by decide) (by decide)⟩

/-- C7: for every valid input with minimum arrival time `a`, the first segment of
`simulate_fcfs` starts at 0 and is the IDLE segment `[0, a)` exactly when `a > 0` (otherwise it
is a process segment), whereas the first segment of `simulate_sjf` is a process segment that
starts at `a`, never an IDLE segment. -/
theorem C7_leading_idle_asymmetry (input : List Process) (a : Int) (hv : ValidInput input)
    (ha : IsMinArrival input a) :
    (∃ x rest, (simulate_fcfs input).1 = x :: rest ∧ x.start = 0 ∧
      (x = ⟨Label.idle, 0, a⟩ ↔ 0 < a) ∧ (¬ 0 < a → ∃ pid, x.label = Label.proc pid)) ∧
    (∃ res, simulate_sjf input = some res ∧
      ∃ pid stop rest, res.1 = ⟨Label.proc pid, a, stop⟩ :: rest) := by
  constructor
  · obtain ⟨q0, ext, hq0, hseg⟩ := simulate_fcfs_first hv ha
    rw [hseg]
    by_cases hc : 0 < q0.arrival_time
    · have hs : fcfs_segs 0 q0 =
          [⟨Label.idle, 0, q0.arrival_time⟩,
            ⟨Label.proc q0.pid, q0.arrival_time, wrapInt (q0.arrival_time + q0.burst_time)⟩] := by
        simp [fcfs_segs, fcfs_record, hc]
      rw [hs, hq0]
      rw [hq0] at hc
      exact ⟨⟨Label.idle, 0, a⟩, _, rfl, rfl, ⟨fun _ => hc, fun _ => rfl⟩, fun h => absurd hc h⟩
    · have hs : fcfs_segs 0 q0 = [⟨Label.proc q0.pid, 0, wrapInt (0 + q0.burst_time)⟩] := by
        simp [fcfs_segs, fcfs_record, hc]
      rw [hs]
      rw [hq0] at hc
      refine ⟨⟨Label.proc q0.pid, 0, wrapInt (0 + q0.burst_time)⟩, _, rfl, rfl, ⟨?_, ?_⟩,
        fun _ => ⟨q0.pid, rfl⟩⟩
      · intro h
        have := congrArg Segment.label h
        cases this
      · intro h; exact absurd h hc
  · obtain ⟨r, hr, pid, stop, ext, hseg⟩ := sjf_run_first hv ha
    exact ⟨(r.seg, r.p), simulate_sjf_eq hr, pid, stop, ext, hseg⟩

/-- C7 at its own example `(5,2), (10,2)`, together with the two segment sequences the claim
lists: FCFS gives `IDLE[0,5), P1[5,7), IDLE[7,10), P2[10,12)` and SJF gives
`P1[5,7), IDLE[7,10), P2[10,12)`. -/
theorem C7_leading_idle_asymmetry_witness :
    ValidInput input_gap ∧ IsMinArrival input_gap 5 ∧
    ((∃ x rest, (simulate_fcfs input_gap).1 = x :: rest ∧ x.start = 0 ∧
      (x = ⟨Label.idle, 0, 5⟩ ↔ (0 : Int) < 5) ∧
      (¬ (0 : Int) < 5 → ∃ pid, x.label = Label.proc pid)) ∧
    (∃ res, simulate_sjf input_gap = some res ∧
      ∃ pid stop rest, res.1 = ⟨Label.proc pid, 5, stop⟩ :: rest)) ∧
    (simulate_fcfs input_gap).1 =
      [⟨Label.idle, 0, 5⟩, ⟨Label.proc 1, 5, 7⟩, ⟨Label.idle, 7, 10⟩, ⟨Label.proc 2, 10, 12⟩] ∧
    (simulate_sjf input_gap).map Prod.fst =
      some [⟨Label.proc 1, 5, 7⟩, ⟨Label.idle, 7, 10⟩, ⟨Label.proc 2, 10, 12⟩] :=
  ⟨by decide, by decide, C7_leading_idle_asymmetry input_gap 5 (by decide) (by decide),
    by decide, by decide⟩

/-- C8: as a function of the parsed input, `main` runs the two simulations if and only if
`n >= 1` and each of the `n` pairs is present with `arrival_time >= 0` and `burst_time > 0`;
on acceptance the simulators receive the `n` records built, record `i` (0-based) carrying pid
`i + 1` and the pair read for it; otherwise `main` returns 1 without a simulation, at the count
when `n <= 0` and else at the first invalid item. -/
theorem C8_main_validation (n : Int) (pairs : List (Int × Int)) (heap : Nat → Process)
    (hn : n ≤ INT_MAX) :
    ((∃ procs, main n pairs heap =
        MainResult.ran procs (simulate_fcfs procs) (simulate_sjf procs)) ↔
      (1 ≤ n ∧ ∀ j, j < n.toNat → item_ok pairs j)) ∧
    (∀ procs f s, main n pairs heap = MainResult.ran procs f s →
      f = simulate_fcfs procs ∧ s = simulate_sjf procs ∧ procs.length = n.toNat ∧
      ∀ j, j < n.toNat → ∃ q, procs[j]? = some q ∧ q.pid = (j : Int) + 1 ∧
        pairs[j]? = some (q.arrival_time, q.burst_time)) ∧
    (¬ (1 ≤ n ∧ ∀ j, j < n.toNat → item_ok pairs j) →
      (main n pairs heap).status = 1 ∧
      (n ≤ 0 → main n pairs heap = MainResult.invalid_count) ∧
      (1 ≤ n → ∃ k, main n pairs heap = MainResult.invalid_process (k + 1) ∧ k < n.toNat ∧
        ¬ item_ok pairs k ∧ ∀ j, j < k → item_ok pairs j)) := by
  have hM : INT_MAX = 2147483647 := rfl
  have hm : INT_MIN = -2147483648 := rfl
  have hspec := read_procs_spec heap n.toNat 0 pairs
  unfold main
  by_cases h0 : n ≤ 0
  · rw [if_pos h0]
    refine ⟨⟨fun ⟨_, h⟩ => (by cases h), fun h => (by omega)⟩, fun _ _ _ h => (by cases h), ?_⟩
    intro _
    exact ⟨rfl, fun _ => rfl, fun h => by omega⟩
  · rw [if_neg h0]
    cases hr : read_procs heap n.toNat 0 pairs with
    | error e =>
      rw [hr] at hspec
      obtain ⟨m, he, hm', hbad, hok⟩ := hspec
      dsimp only
      refine ⟨⟨fun ⟨_, h⟩ => (by cases h), fun h => absurd (h.2 m hm') hbad⟩,
        fun _ _ _ h => (by cases h), ?_⟩
      intro _
      refine ⟨rfl, fun h => absurd h h0, fun _ => ⟨m, ?_, hm', hbad, hok⟩⟩
      rw [he]
      simp
    | ok procs =>
      rw [hr] at hspec
      obtain ⟨hok, hlen, hrecs⟩ := hspec
      dsimp only
      refine ⟨⟨fun _ => ⟨by omega, hok⟩, fun _ => ⟨procs, rfl⟩⟩, ?_, ?_⟩
      · intro procs' f s h
        cases h
        refine ⟨rfl, rfl, hlen, ?_⟩
        intro j hj
        obtain ⟨q, h1, h2, h3⟩ := hrecs j hj
        refine ⟨q, h1, ?_, h3⟩
        rw [h2]
        have hj' : (j : Int) < n := by omega
        rw [wrapInt_eq] <;> simp <;> omega
      · intro hne
        exact absurd ⟨by omega, hok⟩ hne

/-- C8 at the count 2 followed by the pairs `(5,2), (10,2)`. -/
theorem C8_main_validation_witness :
    (2 : Int) ≤ INT_MAX ∧
    (((∃ procs, main 2 [(5, 2), (10, 2)] (fun _ => default) =
        MainResult.ran procs (simulate_fcfs procs) (simulate_sjf procs)) ↔
      ((1 : Int) ≤ 2 ∧ ∀ j, j < (2 : Int).toNat → item_ok [(5, 2), (10, 2)] j)) ∧
    (∀ procs f s, main 2 [(5, 2), (10, 2)] (fun _ => default) = MainResult.ran procs f s →
      f = simulate_fcfs procs ∧ s = simulate_sjf procs ∧ procs.length = (2 : Int).toNat ∧
      ∀ j, j < (2 : Int).toNat → ∃ q, procs[j]? = some q ∧ q.pid = (j : Int) + 1 ∧
        ([(5, 2), (10, 2)] : List (Int × Int))[j]? = some (q.arrival_time, q.burst_time)) ∧
    (¬ ((1 : Int) ≤ 2 ∧ ∀ j, j < (2 : Int).toNat → item_ok [(5, 2), (10, 2)] j) →
      (main 2 [(5, 2), (10, 2)] (fun _ => default)).status = 1 ∧
      ((2 : Int) ≤ 0 → main 2 [(5, 2), (10, 2)] (fun _ => default) =
        MainResult.invalid_count) ∧
      ((1 : Int) ≤ 2 → ∃ k, main 2 [(5, 2), (10, 2)] (fun _ => default) =
          MainResult.invalid_process (k + 1) ∧ k < (2 : Int).toNat ∧
        ¬ item_ok [(5, 2), (10, 2)] k ∧ ∀ j, j < k → item_ok [(5, 2), (10, 2)] j))) :=
  ⟨by decide, C8_main_validation 2 [(5, 2), (10, 2)] (fun _ => default) (by decide)⟩

/-- C9 fails on the code.  On the valid input `(0,1), (2147483647,1)` the loop of
`simulate_sjf` dispatches process 1 and then, with `finished = 1 < n = 2`, finds nothing
eligible, gets `INT_MAX` from `earliest_arrival_not_done` and takes the `break`: process 2 is
never dispatched and no segment is written for it. -/
theorem C9_sjf_break_taken :
    ValidInput input_far_zero ∧
      ∃ r, sjf_run input_far_zero = some r ∧ r.finished = 1 ∧ r.p.length = 2 ∧
        pick_sjf r.p r.time = none ∧ earliest_arrival_not_done r.p = INT_MAX ∧
        r.seg = [⟨Label.proc 1, 0, 1⟩] ∧ r.p.map Process.done = [1, 0] :=
  ⟨by decide,
    ⟨[⟨1, 0, 1, 0, 1, 1, 0, 0, 1⟩, ⟨2, 2147483647, 1, 0, 0, 0, 0, 0, 0⟩], 1, 1,
      [⟨Label.proc 1, 0, 1⟩]⟩,
    by decide, by decide, by decide, by decide, by decide, by decide, by decide⟩

/-- C10 fails on the code for SJF.  The two inputs `(0,1), (2147483647,1)` agree on `pid`,
`arrival_time` and `burst_time` and differ only in the stale `waiting_time` and
`response_time` of process 2, yet `simulate_sjf` hands over different tables: process 2 is
never dispatched, so its stale fields are reported as they came in. -/
theorem C10_sjf_reports_stale_fields :
    input_far.map core = input_far_zero.map core ∧
      input_far.length = input_far_zero.length ∧ ValidInput input_far ∧
      ValidInput input_far_zero ∧ simulate_sjf input_far ≠ simulate_sjf input_far_zero := by
  decide

/-! ## The selection of `pick_sjf`, in full -/

/-- What the scan of `pick_sjf` has established after the first `k` indices: the index held is
eligible, its pair `(burst_time, arrival_time)` is minimal among the eligible indices seen, and
every eligible index before it has a strictly larger pair. -/
theorem pick_sjf_scan_lex (p : List Process) (t : Int) (k : Nat) :
    ((List.range k).foldl (pick_sjf_step p t) none = none →
      ∀ i, i < k → ¬ Eligible t (p.getD i default)) ∧
    (∀ j, (List.range k).foldl (pick_sjf_step p t) none = some j →
      j < k ∧ Eligible t (p.getD j default) ∧
      (∀ i, i < k → Eligible t (p.getD i default) →
        BurstArrivalLE (p.getD j default) (p.getD i default)) ∧
      ∀ i, i < j → Eligible t (p.getD i default) →
        BurstArrivalLT (p.getD j default) (p.getD i default)) := by
  induction k with
  | zero => simp
  | succ k ih =>
    rw [List.range_succ, List.foldl_append]
    simp only [List.foldl_cons, List.foldl_nil]
    obtain ⟨ih1, ih2⟩ := ih
    generalize (List.range k).foldl (pick_sjf_step p t) none = r at ih1 ih2
    unfold pick_sjf_step
    simp only []
    by_cases he : (p.getD k default).done ≠ 0 ∨ (p.getD k default).arrival_time > t
    · have hne : ¬ Eligible t (p.getD k default) := by
        unfold Eligible; rcases he with he | he
        · exact fun h => he h.1
        · exact fun h => by omega
      rw [if_pos he]
      constructor
      · intro hr i hi
        rcases Nat.lt_succ_iff_lt_or_eq.mp hi with hi | hi
        · exact ih1 hr i hi
        · subst hi; exact hne
      · intro j hj
        obtain ⟨h1, h2, h3, h4⟩ := ih2 j hj
        refine ⟨Nat.lt_succ_of_lt h1, h2, ?_, h4⟩
        intro i hi hel
        rcases Nat.lt_succ_iff_lt_or_eq.mp hi with hi | hi
        · exact h3 i hi hel
        · subst hi; exact absurd hel hne
    · have hel : Eligible t (p.getD k default) := by
        unfold Eligible
        push_neg at he
        exact ⟨he.1, he.2⟩
      rw [if_neg he]
      cases r with
      | none =>
        simp only []
        constructor
        · intro h; cases h
        · intro j hj
          cases hj
          refine ⟨Nat.lt_succ_self _, hel, ?_, ?_⟩
          · intro i hi hei
            rcases Nat.lt_succ_iff_lt_or_eq.mp hi with hi | hi
            · exact absurd hei (ih1 rfl i hi)
            · subst hi; unfold BurstArrivalLE; omega
          · intro i hi hei
            exact absurd hei (ih1 rfl i hi)
      | some j0 =>
        obtain ⟨h1, h2, h3, h4⟩ := ih2 j0 rfl
        simp only []
        constructor
        · intro h
          split_ifs at h
        · intro j hj
          split_ifs at hj with hlt heq
          · cases hj
            refine ⟨Nat.lt_succ_self _, hel, ?_, ?_⟩
            · intro i hi hei
              rcases Nat.lt_succ_iff_lt_or_eq.mp hi with hi | hi
              · have := h3 i hi hei
                unfold BurstArrivalLE at *; omega
              · subst hi; unfold BurstArrivalLE; omega
            · intro i hi hei
              have := h3 i hi hei
              unfold BurstArrivalLE at this
              unfold BurstArrivalLT; omega
          · cases hj
            refine ⟨Nat.lt_succ_self _, hel, ?_, ?_⟩
            · intro i hi hei
              rcases Nat.lt_succ_iff_lt_or_eq.mp hi with hi | hi
              · have := h3 i hi hei
                unfold BurstArrivalLE at *; omega
              · subst hi; unfold BurstArrivalLE; omega
            · intro i hi hei
              have := h3 i hi hei
              unfold BurstArrivalLE at this
              unfold BurstArrivalLT; omega
          · cases hj
            refine ⟨Nat.lt_succ_of_lt h1, h2, ?_, h4⟩
            intro i hi hei
            rcases Nat.lt_succ_iff_lt_or_eq.mp hi with hi | hi
            · exact h3 i hi hei
            · subst hi; unfold BurstArrivalLE; omega

/-- The function `pick_sjf` selects the first index among the eligible records whose pair
`(burst_time, arrival_time)` is lexicographically minimal. -/
theorem pick_sjf_some_lex {p : List Process} {t : Int} {idx : Nat}
    (h : pick_sjf p t = some idx) :
    idx < p.length ∧ Eligible t (p.getD idx default) ∧
    (∀ i, i < p.length → Eligible t (p.getD i default) →
      BurstArrivalLE (p.getD idx default) (p.getD i default)) ∧
    ∀ i, i < idx → Eligible t (p.getD i default) →
      BurstArrivalLT (p.getD idx default) (p.getD i default) :=
  (pick_sjf_scan_lex p t p.length).2 idx h

/-- C14: `pick_sjf(p, n, t)` returns `-1` if and only if no record has `done == 0` and
`arrival_time <= t`; otherwise it returns an index `j < n` of an eligible record whose pair
`(burst_time, arrival_time)` is lexicographically minimal over all eligible records, and `j` is
the smallest such index (every eligible record before `j` has a strictly larger pair). -/
theorem C14_pick_sjf_selection (p : List Process) (t : Int) :
    (pick_sjf_ret p t = -1 ↔ ∀ q ∈ p, ¬ Eligible t q) ∧
    ((∃ q ∈ p, Eligible t q) →
      ∃ j : Nat, pick_sjf_ret p t = (j : Int) ∧ j < p.length ∧
        Eligible t (p.getD j default) ∧
        (∀ i, i < p.length → Eligible t (p.getD i default) →
          BurstArrivalLE (p.getD j default) (p.getD i default)) ∧
        ∀ i, i < j → Eligible t (p.getD i default) →
          BurstArrivalLT (p.getD j default) (p.getD i default)) := by
  unfold pick_sjf_ret
  cases hp : pick_sjf p t with
  | none =>
    refine ⟨⟨fun _ => pick_sjf_none hp, fun _ => rfl⟩, ?_⟩
    rintro ⟨q, hq, hel⟩
    exact absurd hel (pick_sjf_none hp q hq)
  | some j =>
    obtain ⟨h1, h2, h3, h4⟩ := pick_sjf_some_lex hp
    refine ⟨⟨?_, ?_⟩, fun _ => ⟨j, rfl, h1, h2, h3, h4⟩⟩
    · intro h
      simp only [] at h
      omega
    · intro h
      exact absurd h2 (h _ (getD_mem h1))

/-- C14 on the table of Example 1 at clock value 5, processes 2 and 3 being eligible: the index
returned is 1 (process 2, burst 3). -/
theorem C14_pick_sjf_selection_witness :
    (∃ q ∈ table_mid, Eligible 5 q) ∧
    pick_sjf_ret table_mid 5 = 1 ∧
    ∃ j : Nat, pick_sjf_ret table_mid 5
        = (j : Int) ∧
      j < table_mid.length ∧
      Eligible 5 (table_mid.getD j default) ∧
      (∀ i, i < table_mid.length →
        Eligible 5
          (table_mid.getD i default) →
        BurstArrivalLE
          (table_mid.getD j default)
          (table_mid.getD i default)) ∧
      ∀ i, i < j →
        Eligible 5
          (table_mid.getD i default) →
        BurstArrivalLT
          (table_mid.getD j default)
          (table_mid.getD i default) :=
  ⟨by decide, by decide,
    (C14_pick_sjf_selection table_mid 5).2
      (by decide)⟩

/-! ## The comparators -/

theorem cmp_arrival_pid_exact {x y : Process} (hx : KeyOK x) (hy : KeyOK y) :
    cmp_arrival_pid x y =
      if x.arrival_time ≠ y.arrival_time then x.arrival_time - y.arrival_time
      else x.pid - y.pid := by
  obtain ⟨hx0, hx1, hx2, hx3⟩ := hx
  obtain ⟨hy0, hy1, hy2, hy3⟩ := hy
  have hM : INT_MAX = 2147483647 := rfl
  have hm : INT_MIN = -2147483648 := rfl
  unfold cmp_arrival_pid
  by_cases h : x.arrival_time ≠ y.arrival_time
  · rw [if_pos h, if_pos h]; apply wrapInt_eq <;> omega
  · rw [if_neg h, if_neg h]; apply wrapInt_eq <;> omega

theorem cmp_pid_exact {x y : Process} (hx : KeyOK x) (hy : KeyOK y) :
    cmp_pid x y = x.pid - y.pid := by
  obtain ⟨_, _, hx2, hx3⟩ := hx
  obtain ⟨_, _, hy2, hy3⟩ := hy
  have hM : INT_MAX = 2147483647 := rfl
  have hm : INT_MIN = -2147483648 := rfl
  unfold cmp_pid
  apply wrapInt_eq <;> omega

/-- C16: for records with `arrival_time >= 0` and `pid >= 1` (32-bit ints) the subtractions of
`cmp_arrival_pid` do not overflow, and its result is negative, zero or positive exactly when
`(arrival_time, pid)` of `x` is lexicographically less than, equal to or greater than that of
`y`; so "negative" is irreflexive, transitive, and total on records with distinct pids.
Likewise `cmp_pid` orders by pid. -/
theorem C16_comparators_order (x y z : Process) (hx : KeyOK x) (hy : KeyOK y) (hz : KeyOK z) :
    (INT_MIN ≤ x.arrival_time - y.arrival_time ∧ x.arrival_time - y.arrival_time ≤ INT_MAX ∧
      INT_MIN ≤ x.pid - y.pid ∧ x.pid - y.pid ≤ INT_MAX) ∧
    (cmp_arrival_pid x y =
      if x.arrival_time ≠ y.arrival_time then x.arrival_time - y.arrival_time
      else x.pid - y.pid) ∧
    (cmp_arrival_pid x y < 0 ↔ ArrivalPidLT x y) ∧
    (cmp_arrival_pid x y = 0 ↔ x.arrival_time = y.arrival_time ∧ x.pid = y.pid) ∧
    (0 < cmp_arrival_pid x y ↔ ArrivalPidLT y x) ∧
    ¬ cmp_arrival_pid x x < 0 ∧
    (cmp_arrival_pid x y < 0 → cmp_arrival_pid y z < 0 → cmp_arrival_pid x z < 0) ∧
    (x.pid ≠ y.pid → cmp_arrival_pid x y < 0 ∨ cmp_arrival_pid y x < 0) ∧
    (cmp_pid x y = x.pid - y.pid) ∧
    (cmp_pid x y < 0 ↔ x.pid < y.pid) ∧
    (cmp_pid x y = 0 ↔ x.pid = y.pid) ∧
    (0 < cmp_pid x y ↔ y.pid < x.pid) := by
  have hxy := cmp_arrival_pid_exact hx hy
  have hyx := cmp_arrival_pid_exact hy hx
  have hyz := cmp_arrival_pid_exact hy hz
  have hxz := cmp_arrival_pid_exact hx hz
  have hxx := cmp_arrival_pid_exact hx hx
  have hp := cmp_pid_exact hx hy
  have hM : INT_MAX = 2147483647 := rfl
  have hm : INT_MIN = -2147483648 := rfl
  obtain ⟨hx0, hx1, hx2, hx3⟩ := hx
  obtain ⟨hy0, hy1, hy2, hy3⟩ := hy
  obtain ⟨hz0, hz1, hz2, hz3⟩ := hz
  unfold ArrivalPidLT
  rw [hp]
  refine ⟨by omega, hxy, ?_, ?_, ?_, ?_, ?_, ?_, rfl, by omega, by omega, by omega⟩
  · rw [hxy]; split <;> omega
  · rw [hxy]; split <;> omega
  · rw [hxy]; split <;> omega
  · rw [hxx]; split <;> omega
  · rw [hxy, hyz, hxz]; split <;> split <;> split <;> omega
  · rw [hxy, hyx]; split <;> split <;> omega

/-- C16 at the three records of Example 1. -/
theorem C16_comparators_order_witness :
    KeyOK (mkProc 1 0 5) ∧ KeyOK (mkProc 2 1 3) ∧ KeyOK (mkProc 3 2 8) ∧
    cmp_arrival_pid (mkProc 1 0 5) (mkProc 2 1 3) = -1 ∧
    (cmp_arrival_pid (mkProc 1 0 5) (mkProc 2 1 3) < 0 ↔
      ArrivalPidLT (mkProc 1 0 5) (mkProc 2 1 3)) :=
  ⟨by decide, by decide, by decide, by decide,
    (C16_comparators_order (mkProc 1 0 5) (mkProc 2 1 3) (mkProc 3 2 8)
      (by decide) (by decide) (by decide)).2.2.1⟩

/-! ## The table: rows by pid -/

theorem pidsInOrder_bounds {input : List Process} (hp : PidsInOrder input) {q : Process}
    (hq : q ∈ input) : 1 ≤ q.pid ∧ q.pid ≤ (input.length : Int) := by
  have : q.pid ∈ input.map (fun q => q.pid) := List.mem_map_of_mem _ hq
  rw [hp] at this
  obtain ⟨i, hi, he⟩ := List.mem_map.mp this
  rw [List.mem_range] at hi
  omega

theorem pidsInOrder_sorted {input : List Process} (hp : PidsInOrder input) :
    (input.map core).Pairwise (fun x y : Int × Int × Int => x.1 < y.1) := by
  have h1 : ((input.map core).map (fun x : Int × Int × Int => x.1)).Pairwise (· < ·) := by
    have : (input.map core).map (fun x : Int × Int × Int => x.1) =
        input.map (fun q => q.pid) := by
      simp [core, Function.comp_def]
    rw [this, hp, List.pairwise_map]
    exact (List.pairwise_lt_range _).imp (fun h => by omega)
  rw [List.pairwise_map] at h1
  exact h1

/-- Sorting by `cmp_pid` a table that holds the input records in some order, with pids `1..n`,
restores the input order of `pid`, `arrival_time` and `burst_time`. -/
theorem table_rows_core {input out : List Process} (hn : (input.length : Int) ≤ INT_MAX)
    (hp : PidsInOrder input) (hperm : (out.map core).Perm (input.map core)) :
    (table_rows out).map core = input.map core ∧
      (table_rows out).Pairwise (fun a b => a.pid < b.pid) := by
  have hM : INT_MAX = 2147483647 := rfl
  have hm : INT_MIN = -2147483648 := rfl
  have hpid : ∀ q ∈ out, 1 ≤ q.pid ∧ q.pid ≤ INT_MAX := by
    intro q hq
    have hc : core q ∈ input.map core := hperm.mem_iff.mp (List.mem_map_of_mem core hq)
    obtain ⟨q0, hq0, he⟩ := List.mem_map.mp hc
    have hpe : q0.pid = q.pid := congrArg (fun t : Int × Int × Int => t.1) he
    have := pidsInOrder_bounds hp hq0
    omega
  have hcmp : ∀ a ∈ out, ∀ b ∈ out, (cmp_pid a b ≤ 0 ↔ a.pid ≤ b.pid) := by
    intro a ha b hb
    have h1 := hpid a ha
    have h2 := hpid b hb
    have : cmp_pid a b = a.pid - b.pid := by
      unfold cmp_pid; apply wrapInt_eq <;> omega
    rw [this]; omega
  have hle : (table_rows out).Pairwise (fun a b => a.pid ≤ b.pid) := by
    unfold table_rows qsort
    apply insertionSort_pairwise (R := fun a b => a.pid ≤ b.pid)
      (fun a b c h1 h2 => le_trans h1 h2)
    · intro a ha b hb h; exact (hcmp a ha b hb).1 h
    · intro a ha b hb h
      have := (hcmp a ha b hb).not.1 h
      omega
  have hperm2 : ((table_rows out).map core).Perm (input.map core) :=
    ((qsort_perm cmp_pid out).map core).trans hperm
  have hsorted0 := pidsInOrder_sorted hp
  have hnodup : ((table_rows out).map (fun q => q.pid)).Nodup := by
    have h0 : ((input.map core).map (fun x : Int × Int × Int => x.1)).Nodup := by
      rw [List.Nodup, List.pairwise_map]
      exact hsorted0.imp (fun h => by omega)
    have h1 := (hperm2.map (fun x : Int × Int × Int => x.1)).nodup_iff.mpr h0
    simpa [core, Function.comp_def] using h1
  have hlt : (table_rows out).Pairwise (fun a b => a.pid < b.pid) := by
    have hne : (table_rows out).Pairwise (fun a b => a.pid ≠ b.pid) := by
      rw [List.Nodup, List.pairwise_map] at hnodup
      exact hnodup
    exact (hle.and hne).imp (fun h => lt_of_le_of_ne h.1 h.2)
  refine ⟨?_, hlt⟩
  haveI : IsAntisymm (Int × Int × Int) (fun x y => x.1 < y.1) :=
    ⟨fun a b h1 h2 => absurd h1 (not_lt.mpr (le_of_lt h2))⟩
  apply List.eq_of_perm_of_sorted hperm2 _ hsorted0
  show ((table_rows out).map core).Pairwise _
  rw [List.pairwise_map]
  exact hlt

/-- The table of `simulate_fcfs` holds the input records, in some order, with `pid`,
`arrival_time` and `burst_time` unchanged. -/
theorem simulate_fcfs_core_perm (input : List Process) :
    ((simulate_fcfs input).2.map core).Perm (input.map core) := by
  have h := fcfs_loop_core (qsort cmp_arrival_pid (clear_done input)) ⟨0, [], []⟩
  simp only [List.map_nil, List.nil_append] at h
  show ((fcfs_loop ⟨0, [], []⟩ (qsort cmp_arrival_pid (clear_done input))).p.map core).Perm _
  rw [h, ← core_clear_done input]
  exact (qsort_perm _ _).map core

/-- The table of `simulate_sjf` holds the input records in input order, with `pid`,
`arrival_time` and `burst_time` unchanged; this needs nothing of the input. -/
theorem sjf_run_core (input : List Process) :
    ∃ r, sjf_run input = some r ∧ r.p.map core = input.map core := by
  obtain ⟨r, hr⟩ := sjf_run_terminates input
  refine ⟨r, hr, ?_⟩
  have := (sjf_loop_inv (fun s => s.p.map core = input.map core)
    (fun s hs _ _ _ => hs)
    (fun s idx hs _ hp => by
      rw [sjf_dispatch_eq]
      show (s.p.set idx _).map core = _
      rw [core_dispatch (pick_sjf_some hp).1]; exact hs)
    _ _ r (core_clear_done input) hr).1
  exact this

/-- C11: for every input with pids `1..n` in input order (`n` being an `int`), valid or not,
the table each simulator hands to `print_table_and_avgs`, once sorted by `cmp_pid`, has exactly
`n` rows in strictly ascending pid order, and row `i` carries the `pid`, `arrival_time` and
`burst_time` of input process `i` unchanged. -/
theorem C11_table_rows_by_pid (input : List Process)
    (hn : (input.length : Int) ≤ INT_MAX) (hp : PidsInOrder input) :
    ((table_rows (simulate_fcfs input).2).length = input.length ∧
      (table_rows (simulate_fcfs input).2).map core = input.map core ∧
      (table_rows (simulate_fcfs input).2).Pairwise (fun a b => a.pid < b.pid)) ∧
    ∃ res, simulate_sjf input = some res ∧
      (table_rows res.2).length = input.length ∧
      (table_rows res.2).map core = input.map core ∧
      (table_rows res.2).Pairwise (fun a b => a.pid < b.pid) := by
  constructor
  · obtain ⟨h1, h2⟩ := table_rows_core hn hp (simulate_fcfs_core_perm input)
    refine ⟨?_, h1, h2⟩
    have := congrArg List.length h1
    simpa using this
  · obtain ⟨r, hr, hc⟩ := sjf_run_core input
    have hperm : (r.p.map core).Perm (input.map core) := by rw [hc]
    obtain ⟨h1, h2⟩ := table_rows_core hn hp hperm
    refine ⟨(r.seg, r.p), simulate_sjf_eq hr, ?_, h1, h2⟩
    have := congrArg List.length h1
    simpa using this

/-- C11 at Example 1 of the specification. -/
theorem C11_table_rows_by_pid_witness :
    (input_example1.length : Int) ≤ INT_MAX ∧ PidsInOrder input_example1 ∧
    (((table_rows (simulate_fcfs input_example1).2).length = input_example1.length ∧
      (table_rows (simulate_fcfs input_example1).2).map core = input_example1.map core ∧
      (table_rows (simulate_fcfs input_example1).2).Pairwise (fun a b => a.pid < b.pid)) ∧
    ∃ res, simulate_sjf input_example1 = some res ∧
      (table_rows res.2).length = input_example1.length ∧
      (table_rows res.2).map core = input_example1.map core ∧
      (table_rows res.2).Pairwise (fun a b => a.pid < b.pid)) :=
  ⟨by decide, by decide, C11_table_rows_by_pid input_example1 (by decide) (by decide)⟩

/-- C12: on Example 1, `(0,5), (1,3), (2,8)` with pids 1, 2, 3, both simulators produce exactly
the segments `P1[0,5), P2[5,8), P3[8,16)`, with no IDLE segment; the rows of the table have
waiting times 0, 4, 6, whose sum is 10, and the average waiting time is the rational `10/3`. -/
theorem C12_example1 :
    (simulate_fcfs input_example1).1 =
      [⟨Label.proc 1, 0, 5⟩, ⟨Label.proc 2, 5, 8⟩, ⟨Label.proc 3, 8, 16⟩] ∧
    (simulate_sjf input_example1).map Prod.fst =
      some [⟨Label.proc 1, 0, 5⟩, ⟨Label.proc 2, 5, 8⟩, ⟨Label.proc 3, 8, 16⟩] ∧
    (table_rows (simulate_fcfs input_example1).2).map (fun q => (q.pid, q.waiting_time)) =
      [(1, 0), (2, 4), (3, 6)] ∧
    (simulate_sjf input_example1).map
        (fun r => (table_rows r.2).map (fun q => (q.pid, q.waiting_time))) =
      some [(1, 0), (2, 4), (3, 6)] ∧
    ((table_rows (simulate_fcfs input_example1).2).map (fun q => q.waiting_time)).sum = 10 ∧
    (simulate_sjf input_example1).map
        (fun r => ((table_rows r.2).map (fun q => q.waiting_time)).sum) = some 10 ∧
    (print_table_and_avgs (simulate_fcfs input_example1).2).2.1 = 10 / 3 ∧
    (simulate_sjf input_example1).map (fun r => (print_table_and_avgs r.2).2.1) =
      some (10 / 3) := by
  refine ⟨by decide, by decide, by decide, by decide, by decide, by decide, ?_, ?_⟩
  · have h : (simulate_fcfs input_example1).2 =
        [⟨1, 0, 5, 0, 5, 5, 0, 0, 0⟩, ⟨2, 1, 3, 5, 8, 7, 4, 4, 0⟩,
          ⟨3, 2, 8, 8, 16, 14, 6, 6, 0⟩] := by decide
    have h2 : table_rows [⟨1, 0, 5, 0, 5, 5, 0, 0, 0⟩, ⟨2, 1, 3, 5, 8, 7, 4, 4, 0⟩,
          ⟨3, 2, 8, 8, 16, 14, 6, 6, 0⟩] =
        [⟨1, 0, 5, 0, 5, 5, 0, 0, 0⟩, ⟨2, 1, 3, 5, 8, 7, 4, 4, 0⟩,
          ⟨3, 2, 8, 8, 16, 14, 6, 6, 0⟩] := by decide
    rw [h]
    simp only [print_table_and_avgs, h2]
    norm_num
  · have h : simulate_sjf input_example1 =
        some ([⟨Label.proc 1, 0, 5⟩, ⟨Label.proc 2, 5, 8⟩, ⟨Label.proc 3, 8, 16⟩],
          [⟨1, 0, 5, 0, 5, 5, 0, 0, 1⟩, ⟨2, 1, 3, 5, 8, 7, 4, 4, 1⟩,
            ⟨3, 2, 8, 8, 16, 14, 6, 6, 1⟩]) := by decide
    have h2 : table_rows [⟨1, 0, 5, 0, 5, 5, 0, 0, 1⟩, ⟨2, 1, 3, 5, 8, 7, 4, 4, 1⟩,
          ⟨3, 2, 8, 8, 16, 14, 6, 6, 1⟩] =
        [⟨1, 0, 5, 0, 5, 5, 0, 0, 1⟩, ⟨2, 1, 3, 5, 8, 7, 4, 4, 1⟩,
          ⟨3, 2, 8, 8, 16, 14, 6, 6, 1⟩] := by decide
    rw [h]
    simp only [Option.map_some', print_table_and_avgs, h2]
    norm_num

/-- C13: for every input of one process with pid 1, `arrival_time` 0 and `burst_time`
`b > 0`, whatever its other fields hold, both simulators produce exactly one segment,
`P1 [0,b)`, and no IDLE segment, with `start_time = 0`, `completion_time = b`,
`waiting_time = 0`, `turnaround_time = b` and `response_time = 0`. -/
theorem C13_single_process (q : Process) (hpid : q.pid = 1) (ha : q.arrival_time = 0)
    (hb : 0 < q.burst_time) (hb' : q.burst_time ≤ INT_MAX) :
    simulate_fcfs [q] =
      ([⟨Label.proc 1, 0, q.burst_time⟩],
        [⟨1, 0, q.burst_time, 0, q.burst_time, q.burst_time, 0, 0, 0⟩]) ∧
    simulate_sjf [q] =
      some ([⟨Label.proc 1, 0, q.burst_time⟩],
        [⟨1, 0, q.burst_time, 0, q.burst_time, q.burst_time, 0, 0, 1⟩]) := by
  have hM : INT_MAX = 2147483647 := rfl
  have hm : INT_MIN = -2147483648 := rfl
  have w1 : wrapInt q.burst_time = q.burst_time := by
    rw [wrapInt_eq] <;> omega
  have w3 : wrapInt 0 = 0 := by decide
  constructor
  · simp [simulate_fcfs, qsort, clear_done, fcfs_loop, fcfs_step_eq, fcfs_record, fcfs_segs,
      hpid, ha, w1, w3]
  · have hpick : pick_sjf (sjf_init [q]).p (sjf_init [q]).time = some 0 := by
      simp [pick_sjf, pick_sjf_step, sjf_init, clear_done, initial_time, ha, List.range_succ]
    unfold simulate_sjf sjf_run
    rw [show 2 * [q].length + 1 = 2 + 1 from rfl, sjf_loop_succ, if_pos (by simp [sjf_init, clear_done]),
      hpick]
    simp only []
    rw [sjf_loop_succ, if_neg (by simp [sjf_dispatch, sjf_init, clear_done])]
    simp [sjf_dispatch_eq, sjf_record, sjf_init, clear_done, initial_time, hpid, ha, w1, w3]

/-- C13 at its own example: one process with `AT = 0`, `BT = 4`. -/
theorem C13_single_process_witness :
    (mkProc 1 0 4).pid = 1 ∧ (mkProc 1 0 4).arrival_time = 0 ∧
    0 < (mkProc 1 0 4).burst_time ∧ (mkProc 1 0 4).burst_time ≤ INT_MAX ∧
    (simulate_fcfs [mkProc 1 0 4] =
      ([⟨Label.proc 1, 0, (mkProc 1 0 4).burst_time⟩],
        [⟨1, 0, (mkProc 1 0 4).burst_time, 0, (mkProc 1 0 4).burst_time,
          (mkProc 1 0 4).burst_time, 0, 0, 0⟩]) ∧
    simulate_sjf [mkProc 1 0 4] =
      some ([⟨Label.proc 1, 0, (mkProc 1 0 4).burst_time⟩],
        [⟨1, 0, (mkProc 1 0 4).burst_time, 0, (mkProc 1 0 4).burst_time,
          (mkProc 1 0 4).burst_time, 0, 0, 1⟩])) ∧
    (simulate_fcfs [mkProc 1 0 4]).1 = [⟨Label.proc 1, 0, 4⟩] :=
  ⟨by decide, by decide, by decide, by decide,
    C13_single_process (mkProc 1 0 4) (by decide) (by decide) (by decide) (by decide),
    by decide⟩

/-! ## The number of segments -/

theorem noIdlePair_snoc {seg : List Segment} {x : Segment} (h : NoIdlePair seg)
    (hx : ∀ y ∈ seg.getLast?, ¬ (y.label = Label.idle ∧ x.label = Label.idle)) :
    NoIdlePair (seg ++ [x]) := by
  unfold NoIdlePair at *
  rw [List.chain'_append]
  refine ⟨h, List.chain'_singleton _, ?_⟩
  intro y hy z hz
  simp at hz
  subst hz
  exact hx y hy

/-- The FCFS loop writes one or two segments per record, never two IDLE segments in a row, and
the last segment written is a process segment. -/
theorem fcfs_loop_seg_count (l : List Process) (s : FcfsState) (hc : NoIdlePair s.seg)
    (hl : ∀ y ∈ s.seg.getLast?, y.label ≠ Label.idle) :
    s.seg.length + l.length ≤ (fcfs_loop s l).seg.length ∧
    (fcfs_loop s l).seg.length ≤ s.seg.length + 2 * l.length ∧
    NoIdlePair (fcfs_loop s l).seg ∧
    ∀ y ∈ (fcfs_loop s l).seg.getLast?, y.label ≠ Label.idle := by
  induction l generalizing s with
  | nil => exact ⟨le_rfl, le_rfl, hc, hl⟩
  | cons q rest ih =>
    rw [fcfs_loop_cons]
    have hseg : (fcfs_step s q).seg = s.seg ++ fcfs_segs s.time q := by rw [fcfs_step_eq]
    have hlast : ∀ y ∈ (fcfs_step s q).seg.getLast?, y.label ≠ Label.idle := by
      intro y hy
      rw [hseg] at hy
      unfold fcfs_segs at hy
      rw [← List.append_assoc, List.getLast?_append] at hy
      simp at hy
      subst hy
      simp
    have hchain : NoIdlePair (fcfs_step s q).seg := by
      rw [hseg]
      unfold fcfs_segs
      rw [← List.append_assoc]
      apply noIdlePair_snoc
      · by_cases hi : s.time < q.arrival_time
        · simp only [hi, if_true]
          apply noIdlePair_snoc hc
          intro y hy h
          exact hl y hy h.1
        · simp only [hi, if_false, List.append_nil]
          exact hc
      · intro y _ h
        simp at h
    have hlen : s.seg.length + 1 ≤ (fcfs_step s q).seg.length ∧
        (fcfs_step s q).seg.length ≤ s.seg.length + 2 := by
      rw [hseg]
      unfold fcfs_segs
      by_cases hi : s.time < q.arrival_time <;> simp [hi]
    obtain ⟨h1, h2, h3, h4⟩ := ih (fcfs_step s q) hchain hlast
    simp only [List.length_cons]
    exact ⟨by omega, by omega, h3, h4⟩

theorem simulate_fcfs_seg_count (input : List Process) :
    input.length ≤ (simulate_fcfs input).1.length ∧
    (simulate_fcfs input).1.length ≤ 2 * input.length ∧
    NoIdlePair (simulate_fcfs input).1 := by
  have h := fcfs_loop_seg_count (qsort cmp_arrival_pid (clear_done input)) ⟨0, [], []⟩
    List.chain'_nil (by simp)
  have hlen : (qsort cmp_arrival_pid (clear_done input)).length = input.length := by
    rw [(qsort_perm _ _).length_eq]; simp [clear_done]
  rw [hlen] at h
  simp only [List.length_nil, zero_add] at h
  exact ⟨h.1, h.2.1, h.2.2.1⟩

/-- At the start of `simulate_sjf` a record is eligible: the one that arrives first. -/
theorem sjf_init_ready {input : List Process} (hne : clear_done input ≠ []) :
    pick_sjf (sjf_init input).p (sjf_init input).time ≠ none := by
  obtain ⟨⟨q, hq, hqa⟩, _⟩ := initial_time_isMin hne
  have hqd : q.done = 0 := by
    obtain ⟨q0, _, rfl⟩ := mem_clear_done hq
    rfl
  exact pick_sjf_ne_none (q := q) hq ⟨hqd, le_of_eq hqa⟩

theorem sjfSegInv_init {input : List Process} (hne : clear_done input ≠ []) :
    SjfSegInv (sjf_init input) :=
  ⟨sjf_init_counted input, List.chain'_nil, by simp [sjf_init],
    Or.inr ⟨Nat.zero_le _, sjf_init_ready hne⟩⟩

theorem sjfSegInv_idle {s : SjfState} (h : SjfSegInv s) (hp : pick_sjf s.p s.time = none)
    (he : earliest_arrival_not_done s.p ≠ INT_MAX) :
    SjfSegInv (sjf_idle s (earliest_arrival_not_done s.p)) := by
  have hready := pick_after_idle (s := s) he
  refine ⟨counted_idle h.counted, ?_, fun _ _ _ => hready, ?_⟩
  · show NoIdlePair (s.seg ++ _)
    apply noIdlePair_snoc h.chain
    intro y hy hyi
    exact h.last_idle y hy hyi.1 hp
  · rcases h.count with hc | ⟨_, hc⟩
    · right
      refine ⟨?_, hready⟩
      show (s.seg ++ _).length ≤ 2 * s.finished
      simp only [List.length_append, List.length_singleton]
      exact hc
    · exact absurd hp hc

theorem sjfSegInv_dispatch {s : SjfState} {idx : Nat} (h : SjfSegInv s)
    (hp : pick_sjf s.p s.time = some idx) : SjfSegInv (sjf_dispatch s idx) := by
  refine ⟨counted_dispatch h.counted hp, ?_, ?_, ?_⟩
  · rw [sjf_dispatch_eq]
    show NoIdlePair (s.seg ++ _)
    apply noIdlePair_snoc h.chain
    intro y _ hyi
    simp at hyi
  · rw [sjf_dispatch_eq]
    intro x hx hxi
    simp at hx
    subst hx
    simp at hxi
  · left
    rw [sjf_dispatch_eq]
    show (s.seg ++ _).length + 1 ≤ 2 * (s.finished + 1)
    simp only [List.length_append, List.length_singleton]
    rcases h.count with hc | ⟨hc, _⟩ <;> omega

/-- The loop of `simulate_sjf` writes at most `2n - 1` segments on any non-empty input, and
never two IDLE segments in a row. -/
theorem sjf_run_seg_count {input : List Process} (hne : clear_done input ≠ []) :
    ∃ r, sjf_run input = some r ∧ r.seg.length + 1 ≤ 2 * input.length ∧ NoIdlePair r.seg := by
  obtain ⟨r, hr⟩ := sjf_run_terminates input
  obtain ⟨hinv, hx⟩ := sjf_loop_inv SjfSegInv
    (fun s hs _ hp he => sjfSegInv_idle hs hp he) (fun s idx hs _ hp => sjfSegInv_dispatch hs hp)
    _ _ r (sjfSegInv_init hne) hr
  obtain ⟨r', hr', hc⟩ := sjf_run_core input
  rw [hr] at hr'
  cases hr'
  have hlen : r.p.length = input.length := by
    have := congrArg List.length hc
    simpa using this
  have hcount : done_count r.p ≤ r.p.length := List.countP_le_length _
  have hcd := hinv.counted
  unfold Counted at hcd
  have hnone : pick_sjf r.p r.time = none := by
    rcases hx with hx | ⟨_, hx, _⟩
    · cases hp : pick_sjf r.p r.time with
      | none => rfl
      | some idx =>
        exfalso
        obtain ⟨hi, hel, _⟩ := pick_sjf_some hp
        have heq : done_count r.p = r.p.length := by omega
        unfold done_count at heq
        rw [List.countP_eq_length] at heq
        have hd := heq _ (getD_mem hi)
        rw [hel.1] at hd
        exact absurd hd (by decide)
    · exact hx
  refine ⟨r, hr, ?_, hinv.chain⟩
  rcases hinv.count with h | ⟨_, h⟩
  · omega
  · exact absurd hnone h

theorem input_many_length (n : Nat) : (input_many n).length = n := by
  simp [input_many]

theorem input_many_valid (n : Nat) (hn : 1 ≤ n) : ValidInput (input_many n) := by
  refine ⟨by rw [input_many_length]; exact hn, ?_⟩
  intro q hq
  simp only [input_many, List.mem_map] at hq
  obtain ⟨i, _, rfl⟩ := hq
  have hM : INT_MAX = 2147483647 := rfl
  refine ⟨?_, ?_, ?_, ?_⟩ <;> simp [mkProc] <;> omega

/-- C17 as stated fails in its last part: for `n = 1431655766` processes (a valid input) the
product `3 * n` overflows to 2, so the buffer holds 2 segments while `simulate_fcfs` writes at
least `n`. -/
theorem C17_counterexample :
    ValidInput (input_many 1431655766) ∧
    seg_capacity ((input_many 1431655766).length : Int) = 2 ∧
    (2 : Int) < ((simulate_fcfs (input_many 1431655766)).1.length : Int) := by
  refine ⟨input_many_valid _ (by omega), ?_, ?_⟩
  · rw [input_many_length]
    unfold seg_capacity wrapInt
    norm_num
  · have h := (simulate_fcfs_seg_count (input_many 1431655766)).1
    rw [input_many_length] at h
    omega

/-- C17, amended: for every valid input of `n` processes, `simulate_fcfs` writes at most `2n`
segments and `simulate_sjf` at most `2n - 1`, neither writes two IDLE segments in a row, and
when `3n` does not overflow an `int` the buffer holds `3n` segments, so every write stays
inside it. -/
theorem C17_segment_buffer_bound (input : List Process) (hv : ValidInput input) :
    ((simulate_fcfs input).1.length ≤ 2 * input.length ∧ NoIdlePair (simulate_fcfs input).1) ∧
    (∃ res, simulate_sjf input = some res ∧ res.1.length + 1 ≤ 2 * input.length ∧
      NoIdlePair res.1) ∧
    (3 * (input.length : Int) ≤ INT_MAX →
      seg_capacity (input.length : Int) = 3 * (input.length : Int) ∧
      ((simulate_fcfs input).1.length : Int) < seg_capacity (input.length : Int) ∧
      ∀ res, simulate_sjf input = some res →
        (res.1.length : Int) < seg_capacity (input.length : Int)) := by
  have hM : INT_MAX = 2147483647 := rfl
  have hm : INT_MIN = -2147483648 := rfl
  have hf := simulate_fcfs_seg_count input
  obtain ⟨r, hr, hlen, hch⟩ := sjf_run_seg_count (clear_done_ne_nil hv)
  have hn := hv.1
  refine ⟨⟨hf.2.1, hf.2.2⟩, ⟨(r.seg, r.p), simulate_sjf_eq hr, hlen, hch⟩, ?_⟩
  intro h3
  have hcap : seg_capacity (input.length : Int) = 3 * (input.length : Int) := by
    unfold seg_capacity
    apply wrapInt_eq <;> omega
  refine ⟨hcap, by rw [hcap]; omega, ?_⟩
  intro res hres
  rw [simulate_sjf_eq hr] at hres
  cases hres
  rw [hcap]
  show ((r.seg.length : Nat) : Int) < _
  omega

/-- C17, amended, at Example 3 of the specification. -/
theorem C17_segment_buffer_bound_witness :
    ValidInput input_gap ∧ 3 * (input_gap.length : Int) ≤ INT_MAX ∧
    ((simulate_fcfs input_gap).1.length ≤ 2 * input_gap.length ∧
      NoIdlePair (simulate_fcfs input_gap).1) ∧
    (∃ res, simulate_sjf input_gap = some res ∧ res.1.length + 1 ≤ 2 * input_gap.length ∧
      NoIdlePair res.1) ∧
    (seg_capacity (input_gap.length : Int) = 3 * (input_gap.length : Int) ∧
      ((simulate_fcfs input_gap).1.length : Int) < seg_capacity (input_gap.length : Int) ∧
      ∀ res, simulate_sjf input_gap = some res →
        (res.1.length : Int) < seg_capacity (input_gap.length : Int)) :=
  ⟨by decide, by decide, (C17_segment_buffer_bound input_gap (by decide)).1,
    (C17_segment_buffer_bound input_gap (by decide)).2.1,
    (C17_segment_buffer_bound input_gap (by decide)).2.2 (by decide)⟩

/-! ## IDLE segments are justified -/

theorem fcfsIdleInv_step {A : Int} {s : FcfsState} {q : Process} {rest : List Process}
    (hinv : FcfsInv A s (q :: rest)) (h : FcfsIdleInv s (q :: rest)) :
    FcfsIdleInv (fcfs_step s q) rest := by
  have hq := hinv.valid q (List.mem_cons_self _ _)
  have hrest : ∀ x ∈ rest, ValidProc x :=
    fun x hx => (hinv.valid x (List.mem_cons_of_mem _ hx)).1
  obtain ⟨hst, _, _, _⟩ :=
    fcfs_record_fits hinv.time_nonneg hinv.fits hq.1 hq.2 (sum_burst_nonneg hrest)
  have hsorted := List.pairwise_cons.mp h.sorted
  refine ⟨hsorted.2, ?_⟩
  rw [fcfs_step_eq]
  intro x hx hxi
  have hra : (fcfs_record s.time q).arrival_time = q.arrival_time := rfl
  rcases List.mem_append.mp hx with hx | hx
  · obtain ⟨h1, h2, a, ha, h3⟩ := h.idle x hx hxi
    refine ⟨?_, fun b hb => h2 b (List.mem_cons_of_mem _ hb),
      a, List.mem_append_left _ ha, h3⟩
    intro a' ha'
    rcases List.mem_append.mp ha' with ha' | ha'
    · exact h1 a' ha'
    · simp only [List.mem_singleton] at ha'
      subst ha'
      right
      rw [hra]
      exact h2 q (List.mem_cons_self _ _)
  · unfold fcfs_segs at hx
    by_cases hc : s.time < q.arrival_time
    · simp only [hc, if_true, List.singleton_append, List.mem_cons, List.mem_singleton,
        List.not_mem_nil, or_false] at hx
      rcases hx with hx | hx
      · subst hx
        refine ⟨?_, fun b hb => hsorted.1 b hb,
          fcfs_record s.time q, List.mem_append_right _ (List.mem_singleton_self _), rfl, ?_⟩
        · intro a' ha'
          rcases List.mem_append.mp ha' with ha' | ha'
          · left; exact (hinv.fin a' ha').2.1
          · simp only [List.mem_singleton] at ha'
            subst ha'
            right; exact le_rfl
        · rw [hst]
          show max s.time q.arrival_time = q.arrival_time
          omega
      · subst hx
        cases hxi
    · simp only [hc, if_false, List.nil_append, List.mem_singleton] at hx
      subst hx
      cases hxi

theorem simulate_fcfs_idle {input : List Process} (hv : ValidInput input) (hf : Fits input) :
    ∀ x ∈ (simulate_fcfs input).1, x.label = Label.idle →
      IdleJustified x (simulate_fcfs input).2 := by
  have hinit : FcfsInv (max_arrival input) ⟨0, [], []⟩
      (qsort cmp_arrival_pid (clear_done input)) :=
    fcfsInv_init (max_arrival_nonneg _)
      (fun q hq => by
        rw [mem_qsort] at hq
        exact ⟨validProc_clear_done hv.2 q hq, arrival_le_clear_done hq⟩)
      (by rw [sum_burst_perm (qsort_perm _ _), sum_burst_clear_done]; exact hf)
  have hboth := fcfs_loop_induct
    (fun s rest => FcfsInv (max_arrival input) s rest ∧ FcfsIdleInv s rest)
    (fun s q rest h => ⟨fcfsInv_step h.1, fcfsIdleInv_step h.1 h.2⟩)
    (qsort cmp_arrival_pid (clear_done input)) ⟨0, [], []⟩
    ⟨hinit, ⟨qsort_arrival_sorted (validProc_clear_done hv.2), by simp⟩⟩
  obtain ⟨hinv, hidle⟩ := hboth
  intro x hx hxi
  obtain ⟨h1, _, a, ha, h3, h4⟩ := hidle.idle x hx hxi
  have hne := hinv.segs.nonempty x hx
  refine ⟨hne, h1, ⟨a, ha, by rw [h4], h3⟩, ?_⟩
  intro q hq hle
  rcases h1 q hq with h | h
  · have hfin := (hinv.fin q hq)
    have := hfin.1.completion
    have := hfin.2.2
    omega
  · exact h

theorem mem_set_of_ne {l : List Process} {idx : Nat} {q r : Process} (hq : q ∈ l)
    (hne : q ≠ l.getD idx default) : q ∈ l.set idx r := by
  induction l generalizing idx with
  | nil => cases hq
  | cons a rest ih =>
    cases idx with
    | zero =>
      simp only [List.getD_cons_zero] at hne
      rcases List.mem_cons.mp hq with hq | hq
      · exact absurd hq hne
      · simp [List.set, hq]
    | succ i =>
      simp only [List.getD_cons_succ] at hne
      rcases List.mem_cons.mp hq with hq | hq
      · simp [List.set, hq]
      · simp only [List.set, List.mem_cons]
        exact Or.inr (ih hq hne)

theorem sjfIdleInv_idle {A : Int} {c : List (Int × Int × Int)} {s : SjfState}
    (hinv : SjfInv A c s) (h : SjfIdleInv s) (hp : pick_sjf s.p s.time = none)
    (he : earliest_arrival_not_done s.p ≠ INT_MAX) :
    SjfIdleInv (sjf_idle s (earliest_arrival_not_done s.p)) := by
  refine ⟨?_⟩
  intro x hx hxi
  have hx' : x ∈ s.seg ++ [⟨Label.idle, s.time, earliest_arrival_not_done s.p⟩] := hx
  rcases List.mem_append.mp hx' with hx' | hx'
  · obtain ⟨h1, h2⟩ := h.idle x hx' hxi
    refine ⟨h1, ?_⟩
    rcases h2 with h2 | ⟨ht, q, hq, hd, ha⟩
    · exact Or.inl h2
    · exact absurd ⟨hd, by rw [ha, ht]⟩ (pick_sjf_none hp q hq)
  · simp only [List.mem_singleton] at hx'
    subst hx'
    refine ⟨?_, Or.inr ⟨rfl, ?_⟩⟩
    · intro q hq
      by_cases hd : q.done = 0
      · right; exact earliest_le_arrival hq hd
      · left; exact ⟨hd, (hinv.fin q hq hd).2⟩
    · obtain ⟨q, hq, hd, ha⟩ := earliest_attained he
      exact ⟨q, hq, hd, ha⟩

theorem sjfIdleInv_dispatch {s : SjfState} {idx : Nat} (h : SjfIdleInv s)
    (hp : pick_sjf s.p s.time = some idx) : SjfIdleInv (sjf_dispatch s idx) := by
  obtain ⟨hi, hel, _⟩ := pick_sjf_some hp
  have hq0 : s.p.getD idx default ∈ s.p := getD_mem hi
  refine ⟨?_⟩
  intro x hx hxi
  rw [sjf_dispatch_eq] at hx
  have hx' : x ∈ s.seg ++ [⟨Label.proc (s.p.getD idx default).pid, s.time,
      (sjf_record s.time (s.p.getD idx default)).completion_time⟩] := hx
  rcases List.mem_append.mp hx' with hx' | hx'
  · obtain ⟨h1, h2⟩ := h.idle x hx' hxi
    have hq0x : x.stop ≤ (s.p.getD idx default).arrival_time := by
      rcases h1 _ hq0 with hl | hr
      · exact absurd hel.1 hl.1
      · exact hr
    refine ⟨?_, Or.inl ?_⟩
    · intro q hq
      rcases mem_dispatch hq with hq | hq
      · exact h1 q hq
      · subst hq
        right; exact hq0x
    · rcases h2 with ⟨q, hq, hd, ha, hs⟩ | ⟨ht, _⟩
      · refine ⟨q, ?_, hd, ha, hs⟩
        rw [sjf_dispatch_eq]
        apply mem_set_of_ne hq
        intro heq
        rw [heq] at hd
        exact hd hel.1
      · refine ⟨_, record_mem_dispatch hi, (by show (1 : Int) ≠ 0; decide), ?_, ?_⟩
        · show (s.p.getD idx default).arrival_time = x.stop
          have := hel.2
          omega
        · show s.time = x.stop
          exact ht.symm
  · simp only [List.mem_singleton] at hx'
    subst hx'
    cases hxi

theorem sjf_run_idle {input : List Process} (hv : ValidInput input) (hf : Fits input) :
    ∃ r, sjf_run input = some r ∧
      ∀ x ∈ r.seg, x.label = Label.idle → IdleJustified x r.p := by
  obtain ⟨r, hr⟩ := sjf_run_terminates input
  refine ⟨r, hr, ?_⟩
  obtain ⟨⟨hinv, hidle⟩, hx⟩ := sjf_loop_inv
    (fun s => SjfInv (max_arrival input) ((clear_done input).map core) s ∧ SjfIdleInv s)
    (fun s hs hlt hp he => ⟨sjfInv_idle hs.1 hlt hp he, sjfIdleInv_idle hs.1 hs.2 hp he⟩)
    (fun s idx hs _ hp => ⟨sjfInv_dispatch hs.1 hp, sjfIdleInv_dispatch hs.2 hp⟩)
    _ _ r ⟨sjfInv_init hv hf, ⟨by simp [sjf_init]⟩⟩ hr
  obtain ⟨_, hdone⟩ := sjfInv_all_done hinv hx
  intro x hxs hxi
  obtain ⟨h1, h2⟩ := hidle.idle x hxs hxi
  have hserved : ∃ q ∈ r.p, q.done ≠ 0 ∧ q.arrival_time = x.stop ∧ q.start_time = x.stop := by
    rcases h2 with h2 | ⟨_, q, hq, hd, _⟩
    · exact h2
    · exact absurd hd (hdone q hq)
  have h1' : ∀ q ∈ r.p, q.completion_time ≤ x.start ∨ x.stop ≤ q.arrival_time := by
    intro q hq
    rcases h1 q hq with h | h
    · exact Or.inl h.2
    · exact Or.inr h
  obtain ⟨q, hq, _, ha, hs⟩ := hserved
  refine ⟨hinv.segs.nonempty x hxs, h1', ⟨q, hq, by rw [hs], ha⟩, ?_⟩
  intro q' hq' hle
  rcases h1' q' hq' with h | h
  · have hfin := (hinv.fin q' hq' (hdone q' hq')).1
    have := hfin.completion
    have := (hinv.valid q' hq').1.2.2.1
    have := hinv.segs.nonempty x hxs
    omega
  · exact h

/-- C15 as stated fails: on the valid input `(0,2147483647), (0,1), (5,1)` the clock of FCFS
overflows and the IDLE segment `[-2147483648, 5)` is written although process 1 arrived at 0
and completes at 2147483647. -/
theorem C15_counterexample :
    ValidInput input_long_gap ∧
      ∃ x ∈ (simulate_fcfs input_long_gap).1, x.label = Label.idle ∧
        ∃ q ∈ (simulate_fcfs input_long_gap).2,
          ¬ (q.completion_time ≤ x.start ∨ x.stop ≤ q.arrival_time) := by
  decide

/-- Every IDLE segment the FCFS loop writes over the records `l`, the records `pre` being
dispatched, is written at an iteration at which the clock is before the arrival of the record
reached, the smallest of those still to come. -/
theorem fcfs_loop_idle_at {input : List Process} (hv : ∀ q ∈ input, ValidProc q) :
    ∀ (l pre : List Process), qsort cmp_arrival_pid (clear_done input) = pre ++ l →
      ∀ x ∈ (fcfs_loop (fcfs_loop ⟨0, [], []⟩ pre) l).seg, x.label = Label.idle →
        x ∈ (fcfs_loop ⟨0, [], []⟩ pre).seg ∨ FcfsIdleAt input x := by
  have hsorted := qsort_arrival_sorted (validProc_clear_done hv)
  intro l
  induction l with
  | nil => intro pre _ x hx _; exact Or.inl hx
  | cons q rest ih =>
    intro pre hpre x hx hxi
    rw [fcfs_loop_cons, ← fcfs_loop_append] at hx
    rcases ih (pre ++ [q]) (by rw [hpre]; simp) x hx hxi with h | h
    · rw [fcfs_loop_append, fcfs_step_eq] at h
      rcases List.mem_append.mp h with h1 | h1
      · exact Or.inl h1
      · right
        unfold fcfs_segs at h1
        by_cases hc : (fcfs_loop ⟨0, [], []⟩ pre).time < q.arrival_time
        · simp only [hc, if_true, List.singleton_append, List.mem_cons, List.mem_singleton,
            List.not_mem_nil, or_false] at h1
          rcases h1 with h1 | h1
          · refine ⟨pre, q, rest, hpre, by rw [h1], by rw [h1], by rw [h1]; exact hc, ?_⟩
            rw [hpre] at hsorted
            have hs2 := (List.pairwise_append.mp hsorted).2.1
            intro r hr
            rw [h1]
            rcases List.mem_cons.mp hr with h2 | h2
            · rw [h2]
            · exact (List.pairwise_cons.mp hs2).1 r h2
          · rw [h1] at hxi; cases hxi
        · simp only [hc, if_false, List.nil_append, List.mem_singleton] at h1
          rw [h1] at hxi; cases hxi
    · exact Or.inr h

theorem simulate_fcfs_idle_at {input : List Process} (hv : ∀ q ∈ input, ValidProc q) :
    ∀ x ∈ (simulate_fcfs input).1, x.label = Label.idle → FcfsIdleAt input x := by
  intro x hx hxi
  rcases fcfs_loop_idle_at hv (qsort cmp_arrival_pid (clear_done input)) [] rfl x hx hxi
    with h | h
  · cases h
  · exact h

theorem sjf_run_idle_at (input : List Process) :
    ∃ r, sjf_run input = some r ∧
      ∀ x ∈ r.seg, x.label = Label.idle → SjfIdleAt input x := by
  obtain ⟨r, hr⟩ := sjf_run_terminates input
  refine ⟨r, hr, ?_⟩
  have key := sjf_loop_inv
    (fun s => Visited input s ∧ ∀ x ∈ s.seg, x.label = Label.idle → SjfIdleAt input x)
    (fun s hs hlt hp he => by
      refine ⟨Visited.idle hs.1 hlt hp he, ?_⟩
      intro x hx hxi
      rcases List.mem_append.mp hx with h | h
      · exact hs.2 x h hxi
      · simp only [List.mem_singleton] at h
        obtain ⟨q, hq, hqd, hqa⟩ := earliest_attained he
        have hnel := pick_sjf_none hp q hq
        have hlt' : s.time < q.arrival_time := by
          by_contra hcon
          exact hnel ⟨hqd, by omega⟩
        refine ⟨s, hs.1, hp, by rw [h], by rw [h], by rw [h]; show s.time < earliest_arrival_not_done s.p; omega,
          ⟨q, hq, hqd, by rw [h]; exact hqa⟩, ?_⟩
        intro q' hq' hqd'
        rw [h]
        exact earliest_le_arrival hq' hqd')
    (fun s idx hs hlt hp => by
      refine ⟨Visited.dispatch hs.1 hlt hp, ?_⟩
      intro x hx hxi
      rw [sjf_dispatch_eq] at hx
      rcases List.mem_append.mp hx with h | h
      · exact hs.2 x h hxi
      · simp only [List.mem_singleton] at h
        rw [h] at hxi; cases hxi)
    _ _ r ⟨Visited.init, by intro x hx; cases hx⟩ hr
  exact key.1.2

/-- C15, amended: for every valid input and every IDLE segment `[s, e)` written by
`simulate_fcfs` or `simulate_sjf`: `s < e`, every process not yet dispatched when the segment
is written has `arrival_time >= e`, and `e` is the smallest of these arrival times.  When the
latest arrival plus the total burst time is at most `INT_MAX`, every process has
`completion_time <= s` or `arrival_time >= e` in the final table, where the processes not yet
dispatched are those that start at `e` or later. -/
theorem C15_idle_only_when_nothing_runnable (input : List Process) (hv : ValidInput input) :
    (∀ x ∈ (simulate_fcfs input).1, x.label = Label.idle → FcfsIdleAt input x) ∧
    (∃ res, simulate_sjf input = some res ∧
      ∀ x ∈ res.1, x.label = Label.idle → SjfIdleAt input x) ∧
    (Fits input →
      (∀ x ∈ (simulate_fcfs input).1, x.label = Label.idle →
        IdleJustified x (simulate_fcfs input).2) ∧
      ∃ res, simulate_sjf input = some res ∧
        ∀ x ∈ res.1, x.label = Label.idle → IdleJustified x res.2) := by
  refine ⟨simulate_fcfs_idle_at hv.2, ?_, ?_⟩
  · obtain ⟨r, hr, h⟩ := sjf_run_idle_at input
    exact ⟨(r.seg, r.p), simulate_sjf_eq hr, h⟩
  · intro hf
    refine ⟨simulate_fcfs_idle hv hf, ?_⟩
    obtain ⟨r, hr, h⟩ := sjf_run_idle hv hf
    exact ⟨(r.seg, r.p), simulate_sjf_eq hr, h⟩

/-- C15, amended, at Example 3 of the specification, where FCFS idles on `[0,5)` and both
simulators on `[7,10)`. -/
theorem C15_idle_only_when_nothing_runnable_witness :
    ValidInput input_gap ∧ Fits input_gap ∧
    (simulate_fcfs input_gap).1 =
      [⟨Label.idle, 0, 5⟩, ⟨Label.proc 1, 5, 7⟩, ⟨Label.idle, 7, 10⟩, ⟨Label.proc 2, 10, 12⟩] ∧
    (∀ x ∈ (simulate_fcfs input_gap).1, x.label = Label.idle → FcfsIdleAt input_gap x) ∧
    (∃ res, simulate_sjf input_gap = some res ∧
      ∀ x ∈ res.1, x.label = Label.idle → SjfIdleAt input_gap x) ∧
    (∀ x ∈ (simulate_fcfs input_gap).1, x.label = Label.idle →
      IdleJustified x (simulate_fcfs input_gap).2) ∧
    ∃ res, simulate_sjf input_gap = some res ∧
      ∀ x ∈ res.1, x.label = Label.idle → IdleJustified x res.2 :=
  ⟨by decide, by decide, by decide,
    (C15_idle_only_when_nothing_runnable input_gap (by decide)).1,
    (C15_idle_only_when_nothing_runnable input_gap (by decide)).2.1,
    ((C15_idle_only_when_nothing_runnable input_gap (by decide)).2.2 (by decide)).1,
    ((C15_idle_only_when_nothing_runnable input_gap (by decide)).2.2 (by decide)).2⟩

/-! ## The makespan -/

theorem foldr_max_le_iff (l : List Int) (b m : Int) :
    l.foldr max b ≤ m ↔ b ≤ m ∧ ∀ x ∈ l, x ≤ m := by
  induction l with
  | nil => simp
  | cons a rest ih =>
    simp only [List.foldr_cons, max_le_iff, ih, List.mem_cons, forall_eq_or_imp]
    tauto

theorem horizon_le_iff (t : Int) (p : List Process) (m : Int) :
    horizon t p ≤ m ↔
      t + remaining p ≤ m ∧
      ∀ q ∈ p, q.done = 0 → q.arrival_time + rem_from p q.arrival_time ≤ m := by
  unfold horizon
  rw [foldr_max_le_iff]
  constructor
  · rintro ⟨h1, h2⟩
    refine ⟨h1, fun q hq hd => ?_⟩
    have := h2 _ (List.mem_map_of_mem _ hq)
    simp only [hd, if_true] at this
    exact this
  · rintro ⟨h1, h2⟩
    refine ⟨h1, fun x hx => ?_⟩
    obtain ⟨q, hq, rfl⟩ := List.mem_map.mp hx
    by_cases hd : q.done = 0
    · simp only [hd, if_true]; exact h2 q hq hd
    · simp only [hd, if_false]; exact h1

theorem rem_from_le_remaining {p : List Process} (hb : ∀ q ∈ p, 0 ≤ q.burst_time) (a : Int) :
    rem_from p a ≤ remaining p := by
  unfold rem_from remaining
  apply List.sum_le_sum
  intro q hq
  have := hb q hq
  by_cases h1 : q.done = 0 <;> by_cases h2 : a ≤ q.arrival_time <;> simp [h1, h2, this]

theorem rem_from_eq_remaining {p : List Process} {a : Int}
    (h : ∀ q ∈ p, q.done = 0 → a ≤ q.arrival_time) : rem_from p a = remaining p := by
  unfold rem_from remaining
  congr 1
  apply List.map_congr_left
  intro q hq
  by_cases h1 : q.done = 0
  · simp [h1, h q hq h1]
  · simp [h1]

theorem rem_from_dispatch {p : List Process} {idx : Nat} {time : Int} (hi : idx < p.length)
    (hd : (p.getD idx default).done = 0) (a : Int) :
    rem_from (p.set idx (sjf_record time (p.getD idx default))) a =
      rem_from p a -
        (if a ≤ (p.getD idx default).arrival_time then (p.getD idx default).burst_time
          else 0) := by
  unfold rem_from
  rw [sum_map_set _ _ _ _ default hi]
  have h1 : (sjf_record time (p.getD idx default)).done = 1 := rfl
  have hf0 : (if (p.getD idx default).done = 0 ∧ a ≤ (p.getD idx default).arrival_time
      then (p.getD idx default).burst_time else 0) =
      (if a ≤ (p.getD idx default).arrival_time then (p.getD idx default).burst_time
        else 0) := by
    simp only [hd, true_and]
  have hf1 : (if (sjf_record time (p.getD idx default)).done = 0 ∧
      a ≤ (sjf_record time (p.getD idx default)).arrival_time
      then (sjf_record time (p.getD idx default)).burst_time else 0) = 0 := by
    rw [if_neg]
    rw [h1]
    rintro ⟨h, _⟩
    exact absurd h (by decide)
  rw [hf0, hf1]
  ring

/-- When every record is done, the horizon is the clock. -/
theorem horizon_all_done {p : List Process} (t : Int) (h : ∀ q ∈ p, q.done ≠ 0) :
    horizon t p = t := by
  have hr : remaining p = 0 := by
    unfold remaining
    apply List.sum_eq_zero
    intro x hx
    obtain ⟨q, hq, rfl⟩ := List.mem_map.mp hx
    simp [h q hq]
  apply eq_of_forall_ge_iff
  intro m
  rw [horizon_le_iff, hr]
  constructor
  · intro h'; omega
  · intro h'; exact ⟨by omega, fun q hq hd => absurd hd (h q hq)⟩

/-- Idling until the earliest pending arrival does not move the horizon. -/
theorem horizon_idle {p : List Process} {t e : Int} (hte : t ≤ e)
    (hmin : ∀ q ∈ p, q.done = 0 → e ≤ q.arrival_time)
    (hex : ∃ q ∈ p, q.done = 0 ∧ q.arrival_time = e) : horizon e p = horizon t p := by
  apply eq_of_forall_ge_iff
  intro m
  rw [horizon_le_iff, horizon_le_iff]
  constructor
  · rintro ⟨h1, h2⟩; exact ⟨by omega, h2⟩
  · rintro ⟨_, h2⟩
    refine ⟨?_, h2⟩
    obtain ⟨q, hq, hd, ha⟩ := hex
    have := h2 q hq hd
    rw [ha, rem_from_eq_remaining hmin] at this
    exact this

/-- Dispatching a record that has arrived does not move the horizon. -/
theorem horizon_dispatch {p : List Process} {idx : Nat} {t : Int} (hi : idx < p.length)
    (hb : ∀ q ∈ p, 0 ≤ q.burst_time) (hel : Eligible t (p.getD idx default)) :
    horizon (t + (p.getD idx default).burst_time)
        (p.set idx (sjf_record t (p.getD idx default))) = horizon t p := by
  apply eq_of_forall_ge_iff
  intro m
  rw [horizon_le_iff, horizon_le_iff, remaining_dispatch hi hel.1]
  have hq0 := getD_mem hi
  constructor
  · rintro ⟨h1, h2⟩
    refine ⟨by omega, ?_⟩
    intro q hq hd
    by_cases hqa : q.arrival_time ≤ t
    · have := rem_from_le_remaining hb q.arrival_time
      omega
    · have hne : q ≠ p.getD idx default := by
        intro heq
        rw [heq] at hqa
        exact hqa hel.2
      have := h2 q (mem_set_of_ne hq hne) hd
      rw [rem_from_dispatch hi hel.1, if_neg (by have := hel.2; omega)] at this
      omega
  · rintro ⟨h1, h2⟩
    refine ⟨by omega, ?_⟩
    intro q hq hd
    rcases List.mem_or_eq_of_mem_set hq with hq | hq
    · have := h2 q hq hd
      rw [rem_from_dispatch hi hel.1]
      have hb0 := hb _ hq0
      split <;> omega
    · subst hq
      have h1 : (sjf_record t (p.getD idx default)).done = 1 := rfl
      rw [h1] at hd
      exact absurd hd (by decide)

/-- The horizon depends on the records only, not on their order. -/
theorem horizon_perm {p₁ p₂ : List Process} (h : p₁.Perm p₂) (t : Int) :
    horizon t p₁ = horizon t p₂ := by
  have hrem : remaining p₁ = remaining p₂ := by
    unfold remaining; exact (h.map _).sum_eq
  have hfrom : ∀ a, rem_from p₁ a = rem_from p₂ a := by
    intro a; unfold rem_from; exact (h.map _).sum_eq
  apply eq_of_forall_ge_iff
  intro m
  rw [horizon_le_iff, horizon_le_iff, hrem]
  constructor
  · rintro ⟨h1, h2⟩
    exact ⟨h1, fun q hq hd => by rw [← hfrom]; exact h2 q (h.mem_iff.mpr hq) hd⟩
  · rintro ⟨h1, h2⟩
    exact ⟨h1, fun q hq hd => by rw [hfrom]; exact h2 q (h.mem_iff.mp hq) hd⟩

/-- One iteration of FCFS on the record that arrives first does not move the horizon. -/
theorem horizon_cons {q : Process} {rest : List Process} {t : Int}
    (hd : ∀ r ∈ q :: rest, r.done = 0) (hb : ∀ r ∈ q :: rest, 0 ≤ r.burst_time)
    (hfirst : ∀ r ∈ rest, q.arrival_time ≤ r.arrival_time) :
    horizon (max t q.arrival_time + q.burst_time) rest = horizon t (q :: rest) := by
  have hqd := hd q (List.mem_cons_self _ _)
  have hrem : remaining (q :: rest) = q.burst_time + remaining rest := by
    simp [remaining, hqd]
  have hfrom : ∀ a, rem_from (q :: rest) a =
      (if a ≤ q.arrival_time then q.burst_time else 0) + rem_from rest a := by
    intro a
    simp [rem_from, hqd]
  have hbrest : ∀ r ∈ rest, 0 ≤ r.burst_time := fun r hr => hb r (List.mem_cons_of_mem _ hr)
  have hall : rem_from rest q.arrival_time = remaining rest :=
    rem_from_eq_remaining (fun r hr _ => hfirst r hr)
  apply eq_of_forall_ge_iff
  intro m
  rw [horizon_le_iff, horizon_le_iff, hrem]
  constructor
  · rintro ⟨h1, h2⟩
    refine ⟨by omega, ?_⟩
    intro r hr hrd
    rw [hfrom]
    rcases List.mem_cons.mp hr with hr | hr
    · subst hr
      rw [if_pos le_rfl, hall]; omega
    · have h3 := h2 r hr hrd
      have h4 := hfirst r hr
      have h5 := rem_from_le_remaining hbrest r.arrival_time
      split <;> omega
  · rintro ⟨h1, h2⟩
    have hq := h2 q (List.mem_cons_self _ _) hqd
    rw [hfrom, if_pos le_rfl, hall] at hq
    refine ⟨by omega, ?_⟩
    intro r hr hrd
    have h3 := h2 r (List.mem_cons_of_mem _ hr) hrd
    rw [hfrom] at h3
    have hb0 := hb q (List.mem_cons_self _ _)
    split at h3 <;> omega

theorem horizon_nil (t : Int) : horizon t [] = t := by
  simp [horizon, remaining]

theorem done_clear_done {l : List Process} {q : Process} (hq : q ∈ clear_done l) :
    q.done = 0 := by
  obtain ⟨q0, _, rfl⟩ := mem_clear_done hq
  rfl

/-- The clock of FCFS ends at the horizon of the input, when the timeline fits. -/
theorem fcfs_final_time {input : List Process} (hv : ValidInput input) (hf : Fits input) :
    (fcfs_loop ⟨0, [], []⟩ (qsort cmp_arrival_pid (clear_done input))).time =
      horizon 0 (clear_done input) := by
  have hinit : FcfsInv (max_arrival input) ⟨0, [], []⟩
      (qsort cmp_arrival_pid (clear_done input)) :=
    fcfsInv_init (max_arrival_nonneg _)
      (fun q hq => by
        rw [mem_qsort] at hq
        exact ⟨validProc_clear_done hv.2 q hq, arrival_le_clear_done hq⟩)
      (by rw [sum_burst_perm (qsort_perm _ _), sum_burst_clear_done]; exact hf)
  have hboth := fcfs_loop_induct
    (fun s rest => FcfsInv (max_arrival input) s rest ∧
      rest.Pairwise (fun a b => a.arrival_time ≤ b.arrival_time) ∧
      (∀ r ∈ rest, r.done = 0) ∧
      horizon s.time rest = horizon 0 (qsort cmp_arrival_pid (clear_done input)))
    (fun s q rest h => by
      obtain ⟨hinv, hsorted, hdone, hh⟩ := h
      have hq := hinv.valid q (List.mem_cons_self _ _)
      have hrest : ∀ x ∈ rest, ValidProc x :=
        fun x hx => (hinv.valid x (List.mem_cons_of_mem _ hx)).1
      obtain ⟨_, hct, _, _⟩ :=
        fcfs_record_fits hinv.time_nonneg hinv.fits hq.1 hq.2 (sum_burst_nonneg hrest)
      have hs := List.pairwise_cons.mp hsorted
      refine ⟨fcfsInv_step hinv, hs.2, fun r hr => hdone r (List.mem_cons_of_mem _ hr), ?_⟩
      rw [← hh, fcfs_step_eq]
      show horizon (fcfs_record s.time q).completion_time rest = _
      rw [hct]
      exact horizon_cons hdone
        (fun r hr => le_of_lt (hinv.valid r hr).1.2.2.1) hs.1)
    (qsort cmp_arrival_pid (clear_done input)) ⟨0, [], []⟩
    ⟨hinit, qsort_arrival_sorted (validProc_clear_done hv.2),
      fun r hr => done_clear_done (mem_qsort.mp hr), rfl⟩
  have h := hboth.2.2.2
  rw [horizon_nil] at h
  rw [h]
  exact horizon_perm (qsort_perm _ _) 0

theorem sjf_dispatch_time {A : Int} {c : List (Int × Int × Int)} {s : SjfState} {idx : Nat}
    (h : SjfInv A c s) (hp : pick_sjf s.p s.time = some idx) :
    (sjf_dispatch s idx).time = s.time + (s.p.getD idx default).burst_time := by
  obtain ⟨hi, hel, _⟩ := pick_sjf_some hp
  have hq0 : s.p.getD idx default ∈ s.p := getD_mem hi
  have hv0 := h.valid _ hq0
  have hbr := burst_le_remaining (fun q hq => (h.valid q hq).1) hq0 hel.1
  have hfits := h.fits
  have hbound : s.time + (s.p.getD idx default).burst_time ≤ INT_MAX := by omega
  rw [sjf_dispatch_eq]
  exact (sjf_record_fits hv0.1 hel.2 hbound).1

/-- The clock of SJF ends at the horizon of the input, when the timeline fits. -/
theorem sjf_final_time {input : List Process} (hv : ValidInput input) (hf : Fits input) :
    ∃ r, sjf_run input = some r ∧
      SjfInv (max_arrival input) ((clear_done input).map core) r ∧
      (∀ q ∈ r.p, q.done ≠ 0) ∧ r.time = horizon 0 (clear_done input) := by
  obtain ⟨r, hr⟩ := sjf_run_terminates input
  refine ⟨r, hr, ?_⟩
  obtain ⟨⟨hinv, hh⟩, hx⟩ := sjf_loop_inv
    (fun s => SjfInv (max_arrival input) ((clear_done input).map core) s ∧
      horizon s.time s.p = horizon (initial_time (clear_done input)) (clear_done input))
    (fun s hs hlt hp he => ⟨sjfInv_idle hs.1 hlt hp he, by
      rw [← hs.2]
      exact horizon_idle (le_of_lt (idle_advances hp he))
        (fun q hq hd => earliest_le_arrival hq hd) (earliest_attained he)⟩)
    (fun s idx hs _ hp => ⟨sjfInv_dispatch hs.1 hp, by
      rw [← hs.2, sjf_dispatch_time hs.1 hp]
      have hpk := pick_sjf_some hp
      rw [sjf_dispatch_eq]
      exact horizon_dispatch hpk.1
        (fun q hq => le_of_lt (hs.1.valid q hq).1.2.2.1) hpk.2.1⟩)
    _ _ r ⟨sjfInv_init hv hf, rfl⟩ hr
  obtain ⟨_, hdone⟩ := sjfInv_all_done hinv hx
  refine ⟨hinv, hdone, ?_⟩
  rw [horizon_all_done _ hdone] at hh
  rw [hh]
  obtain ⟨⟨q, hq, hqa⟩, hmin⟩ := initial_time_isMin (clear_done_ne_nil hv)
  have hq0 := (validProc_clear_done hv.2 q hq).1
  exact horizon_idle (by omega) (fun x hx _ => hmin x hx) ⟨q, hq, done_clear_done hq, hqa⟩

/-- C18 as stated fails: on the valid input `(0,2147483647), (0,1), (0,1)` the clock overflows
in both simulators, at different points: the largest completion time is 2147483647 under FCFS
and 2 under SJF. -/
theorem C18_counterexample :
    ValidInput input_long ∧ IsMaxCompletion (simulate_fcfs input_long).2 2147483647 ∧
      ∃ res, simulate_sjf input_long = some res ∧ IsMaxCompletion res.2 2 :=
  ⟨by decide, by decide,
    ([⟨Label.proc 2, 0, 1⟩, ⟨Label.proc 3, 1, 2⟩, ⟨Label.proc 1, 2, -2147483647⟩],
      [⟨1, 0, 2147483647, 2, -2147483647, -2147483647, 2, 2, 1⟩,
        ⟨2, 0, 1, 0, 1, 1, 0, 0, 1⟩, ⟨3, 0, 1, 1, 2, 2, 1, 1, 1⟩]),
    by decide, by decide⟩

/-- C18, amended: for every valid input whose latest arrival plus total burst time is at most
`INT_MAX`, the largest completion time over all processes is the same under `simulate_sjf` and
under `simulate_fcfs`, and it is the time at which the last segment of either ends. -/
theorem C18_same_makespan (input : List Process) (hv : ValidInput input) (hf : Fits input) :
    ∃ m, IsMaxCompletion (simulate_fcfs input).2 m ∧
      (simulate_fcfs input).1.getLast?.map Segment.stop = some m ∧
      ∃ res, simulate_sjf input = some res ∧ IsMaxCompletion res.2 m ∧
        res.1.getLast?.map Segment.stop = some m := by
  refine ⟨horizon 0 (clear_done input), ?_, ?_, ?_⟩
  · have hinv := simulate_fcfs_inv hv hf
    have ht := fcfs_final_time hv hf
    obtain ⟨_, a, ha, hac⟩ := hinv.reached (simulate_fcfs_ne_nil hv)
    rw [← ht]
    exact ⟨fun q hq => (hinv.fin q hq).2.1, a, ha, hac⟩
  · have hinv := simulate_fcfs_inv hv hf
    have ht := fcfs_final_time hv hf
    obtain ⟨hne, _⟩ := hinv.reached (simulate_fcfs_ne_nil hv)
    cases hl : (simulate_fcfs input).1.getLast? with
    | none => exact absurd (List.getLast?_eq_none_iff.mp hl) hne
    | some last =>
      have := hinv.segs.last last (by rw [hl]; rfl)
      simp only [Option.map_some']
      rw [this, ht]
  · obtain ⟨r, hr, hinv, hdone, ht⟩ := sjf_final_time hv hf
    have hlen := sjf_run_length hinv
    have hall := sjfInv_all_done hinv (Or.inl (by
      have hc := hinv.counted
      unfold Counted at hc
      have heq : done_count r.p = r.p.length := by
        unfold done_count
        rw [List.countP_eq_length]
        intro q hq
        simpa using hdone q hq
      omega))
    have hpos : 0 < r.finished := by have := hv.1; omega
    obtain ⟨hne, hex⟩ := hinv.reached hpos
    refine ⟨(r.seg, r.p), simulate_sjf_eq hr, ?_, ?_⟩
    · rw [← ht]
      refine ⟨fun q hq => (hinv.fin q hq (hdone q hq)).2, ?_⟩
      rcases hex with hex | ⟨q, hq, _, hqc⟩
      · omega
      · exact ⟨q, hq, hqc⟩
    · cases hl : r.seg.getLast? with
      | none => exact absurd (List.getLast?_eq_none_iff.mp hl) hne
      | some last =>
        have := hinv.segs.last last (by rw [hl]; rfl)
        simp only [Option.map_some']
        rw [this, ht]

/-- C18, amended, at Example 3 of the specification: both schedules end at 12. -/
theorem C18_same_makespan_witness :
    ValidInput input_gap ∧ Fits input_gap ∧
    ∃ m, IsMaxCompletion (simulate_fcfs input_gap).2 m ∧
      (simulate_fcfs input_gap).1.getLast?.map Segment.stop = some m ∧
      ∃ res, simulate_sjf input_gap = some res ∧ IsMaxCompletion res.2 m ∧
        res.1.getLast?.map Segment.stop = some m :=
  ⟨by decide, by decide, C18_same_makespan input_gap (by decide) (by decide)⟩

/-! ## Total waiting time: shortest job first is best from a common arrival -/

theorem pair_min_perm {l₁ l₂ : List Int} (h : l₁.Perm l₂) : pair_min l₁ = pair_min l₂ := by
  induction h with
  | nil => rfl
  | cons a h ih =>
    simp only [pair_min]
    rw [ih, (h.map _).sum_eq]
  | swap a b l =>
    simp only [pair_min, List.map_cons, List.sum_cons]
    rw [min_comm a b]
    ring
  | trans _ _ ih1 ih2 => rw [ih1, ih2]

theorem sum_map_min_le (b : Int) (l : List Int) : (l.map (fun x => min b x)).sum ≤ l.sum := by
  induction l with
  | nil => simp
  | cons a rest ih =>
    simp only [List.map_cons, List.sum_cons]
    have := min_le_right b a
    omega

theorem sum_map_min_eq (b : Int) (l : List Int) (h : ∀ x ∈ l, x ≤ b) :
    (l.map (fun x => min b x)).sum = l.sum := by
  induction l with
  | nil => simp
  | cons a rest ih =>
    simp only [List.map_cons, List.sum_cons]
    rw [ih (fun x hx => h x (List.mem_cons_of_mem _ hx)),
      min_eq_right (h a (List.mem_cons_self _ _))]

theorem pair_min_snoc (l : List Int) (b : Int) :
    pair_min (l ++ [b]) = (l.map (fun x => min b x)).sum + pair_min l := by
  have hp : (l ++ [b]).Perm (b :: l) := List.perm_append_singleton b l
  rw [pair_min_perm hp]
  rfl

theorem filter_set_perm (f : Process → Bool) (l : List Process) (idx : Nat) (r : Process)
    (hi : idx < l.length) (hold : f (l.getD idx default) = false) (hnew : f r = true) :
    ((l.set idx r).filter f).Perm (r :: l.filter f) := by
  induction l generalizing idx with
  | nil => simp at hi
  | cons a rest ih =>
    cases idx with
    | zero =>
      simp only [List.getD_cons_zero] at hold
      simp [List.set, List.filter_cons, hold, hnew]
    | succ i =>
      simp only [List.getD_cons_succ] at hold
      simp only [List.length_cons, Nat.succ_lt_succ_iff] at hi
      have := ih i hi hold
      simp only [List.set, List.filter_cons]
      by_cases ha : f a = true
      · simp only [ha, if_true]
        exact (List.Perm.cons a this).trans (List.Perm.swap r a _)
      · simp only [ha]
        exact this

theorem done_list_dispatch {s : SjfState} {idx : Nat} (hp : pick_sjf s.p s.time = some idx) :
    (done_list (sjf_dispatch s idx).p).Perm
      (sjf_record s.time (s.p.getD idx default) :: done_list s.p) := by
  obtain ⟨hi, hel, _⟩ := pick_sjf_some hp
  rw [sjf_dispatch_eq]
  unfold done_list
  apply filter_set_perm _ _ _ _ hi
  · rw [hel.1]; rfl
  · rfl

theorem mem_done_list {p : List Process} {q : Process} :
    q ∈ done_list p ↔ q ∈ p ∧ q.done ≠ 0 := by
  simp [done_list]

theorem done_list_clear_done (l : List Process) : done_list (clear_done l) = [] := by
  unfold done_list
  rw [List.filter_eq_nil_iff]
  intro q hq
  simp [done_clear_done hq]

theorem done_list_all {p : List Process} (h : ∀ q ∈ p, q.done ≠ 0) : done_list p = p := by
  unfold done_list
  rw [List.filter_eq_self]
  intro q hq
  simpa using h q hq

theorem sjfSptInv_init {input : List Process} {a : Int} (hv : ValidInput input)
    (ha : ∀ q ∈ input, q.arrival_time = a) : SjfSptInv a (sjf_init input) := by
  have harr : ∀ q ∈ clear_done input, q.arrival_time = a := by
    intro q hq
    obtain ⟨q0, hq0, rfl⟩ := mem_clear_done hq
    exact ha q0 hq0
  obtain ⟨⟨q, hq, hqa⟩, _⟩ := initial_time_isMin (clear_done_ne_nil hv)
  refine ⟨harr, ?_, ?_, ?_⟩
  · show initial_time (clear_done input) = a + ((done_list (clear_done input)).map _).sum
    rw [done_list_clear_done, ← hqa, harr q hq]
    simp
  · intro x hx hd
    exact absurd (done_clear_done hx) hd
  · show sum_waiting (done_list (clear_done input)) =
      pair_min ((done_list (clear_done input)).map _)
    rw [done_list_clear_done]
    rfl

theorem sjfSpt_time_ge {A : Int} {c : List (Int × Int × Int)} {a : Int} {s : SjfState}
    (hinv : SjfInv A c s) (h : SjfSptInv a s) : a ≤ s.time := by
  have : 0 ≤ ((done_list s.p).map (fun q => q.burst_time)).sum := by
    apply List.sum_nonneg
    intro x hx
    obtain ⟨q, hq, rfl⟩ := List.mem_map.mp hx
    exact le_of_lt (hinv.valid q (mem_done_list.mp hq).1).1.2.2.1
  have := h.time
  omega

/-- With a common arrival time the IDLE branch of SJF is never taken. -/
theorem sjfSpt_no_idle {A : Int} {c : List (Int × Int × Int)} {a : Int} {s : SjfState}
    (hinv : SjfInv A c s) (h : SjfSptInv a s) (hlt : s.finished < s.p.length)
    (hp : pick_sjf s.p s.time = none) : False := by
  obtain ⟨q, hq, hd⟩ := counted_exists_not_done hinv.counted hlt
  have := sjfSpt_time_ge hinv h
  exact pick_sjf_none hp q hq ⟨hd, by rw [h.arr q hq]; exact this⟩

theorem sjfSptInv_dispatch {A : Int} {c : List (Int × Int × Int)} {a : Int} {s : SjfState}
    {idx : Nat} (hinv : SjfInv A c s) (h : SjfSptInv a s)
    (hp : pick_sjf s.p s.time = some idx) : SjfSptInv a (sjf_dispatch s idx) := by
  obtain ⟨hi, hel, hmin⟩ := pick_sjf_some hp
  have hq0 : s.p.getD idx default ∈ s.p := getD_mem hi
  have hv0 := hinv.valid _ hq0
  have hbr := burst_le_remaining (fun q hq => (hinv.valid q hq).1) hq0 hel.1
  have hfits := hinv.fits
  have hbound : s.time + (s.p.getD idx default).burst_time ≤ INT_MAX := by omega
  obtain ⟨_, hfin⟩ := sjf_record_fits hv0.1 hel.2 hbound
  have hperm := done_list_dispatch hp
  have hage := sjfSpt_time_ge hinv h
  have hbt : (sjf_record s.time (s.p.getD idx default)).burst_time =
      (s.p.getD idx default).burst_time := rfl
  have hwt : (sjf_record s.time (s.p.getD idx default)).waiting_time = s.time - a := by
    rw [hfin.waiting]
    show s.time - (s.p.getD idx default).arrival_time = _
    rw [h.arr _ hq0]
  have hle : ∀ x ∈ (done_list s.p).map (fun q => q.burst_time),
      x ≤ (s.p.getD idx default).burst_time := by
    intro x hx
    obtain ⟨q, hq, rfl⟩ := List.mem_map.mp hx
    obtain ⟨hq1, hq2⟩ := mem_done_list.mp hq
    exact h.order q hq1 hq2 _ hq0 hel.1
  refine ⟨?_, ?_, ?_, ?_⟩
  · intro x hx
    rcases mem_dispatch hx with hx | hx
    · exact h.arr x hx
    · subst hx; exact h.arr (s.p.getD idx default) hq0
  · rw [sjf_dispatch_time hinv hp, (hperm.map (fun q => q.burst_time)).sum_eq]
    simp only [List.map_cons, List.sum_cons, hbt]
    have := h.time
    omega
  · intro x hx hxd r hr hrd
    have hr' : r ∈ s.p := by
      rcases mem_dispatch hr with hr | hr
      · exact hr
      · subst hr; exact absurd hrd (by show (1 : Int) ≠ 0; decide)
    rcases mem_dispatch hx with hx | hx
    · exact h.order x hx hxd r hr' hrd
    · subst hx
      rw [hbt]
      exact hmin r hr' ⟨hrd, by rw [h.arr r hr']; exact hage⟩
  · unfold sum_waiting
    rw [(hperm.map (fun q => q.waiting_time)).sum_eq,
      pair_min_perm (hperm.map (fun q => q.burst_time))]
    simp only [List.map_cons, List.sum_cons, pair_min, hbt]
    rw [sum_map_min_eq _ _ hle, hwt]
    have h1 := h.wait
    unfold sum_waiting at h1
    have h2 := h.time
    omega

/-- With a common arrival time and a timeline that fits, SJF ends with the least total waiting
time the bursts allow, and its table has every record done. -/
theorem sjf_run_spt {input : List Process} {a : Int} (hv : ValidInput input) (hf : Fits input)
    (ha : ∀ q ∈ input, q.arrival_time = a) :
    ∃ r, sjf_run input = some r ∧
      SjfInv (max_arrival input) ((clear_done input).map core) r ∧
      (∀ q ∈ r.p, q.done ≠ 0) ∧ (∀ q ∈ r.p, q.arrival_time = a) ∧
      sum_waiting r.p = pair_min (input.map (fun q => q.burst_time)) := by
  obtain ⟨r, hr⟩ := sjf_run_terminates input
  refine ⟨r, hr, ?_⟩
  obtain ⟨⟨hinv, hspt⟩, hx⟩ := sjf_loop_inv
    (fun s => SjfInv (max_arrival input) ((clear_done input).map core) s ∧ SjfSptInv a s)
    (fun s hs hlt hp _ => (sjfSpt_no_idle hs.1 hs.2 hlt hp).elim)
    (fun s idx hs _ hp => ⟨sjfInv_dispatch hs.1 hp, sjfSptInv_dispatch hs.1 hs.2 hp⟩)
    _ _ r ⟨sjfInv_init hv hf, sjfSptInv_init hv ha⟩ hr
  obtain ⟨_, hdone⟩ := sjfInv_all_done hinv hx
  refine ⟨hinv, hdone, hspt.arr, ?_⟩
  have hw := hspt.wait
  rw [done_list_all hdone] at hw
  rw [hw]
  have hb : r.p.map (fun q => q.burst_time) = input.map (fun q => q.burst_time) := by
    have h1 := congrArg (List.map (fun c : Int × Int × Int => c.2.2)) hinv.frame
    rw [core_clear_done] at h1
    simpa [core, Function.comp_def] using h1
  rw [hb]

theorem fcfsSptInv_step {A a : Int} {s : FcfsState} {q : Process} {rest : List Process}
    (hinv : FcfsInv A s (q :: rest)) (h : FcfsSptInv a s (q :: rest)) :
    FcfsSptInv a (fcfs_step s q) rest := by
  have hq := hinv.valid q (List.mem_cons_self _ _)
  have hrest : ∀ x ∈ rest, ValidProc x :=
    fun x hx => (hinv.valid x (List.mem_cons_of_mem _ hx)).1
  obtain ⟨hst, hct, hfin, _⟩ :=
    fcfs_record_fits hinv.time_nonneg hinv.fits hq.1 hq.2 (sum_burst_nonneg hrest)
  have hqa := h.arr q (List.mem_cons_self _ _)
  have hb := hq.1.2.2.1
  have hbt : (fcfs_record s.time q).burst_time = q.burst_time := rfl
  have hwt : (fcfs_record s.time q).waiting_time =
      (s.p.map (fun q => q.burst_time)).sum := by
    rw [hfin.waiting, hst]
    show max s.time q.arrival_time - q.arrival_time = _
    rw [hqa]
    have := h.time
    omega
  have hsum : 0 ≤ (s.p.map (fun q => q.burst_time)).sum := by
    have := h.time
    have := le_max_right s.time a
    omega
  rw [fcfs_step_eq]
  refine ⟨fun x hx => h.arr x (List.mem_cons_of_mem _ hx), ?_, ?_⟩
  · show max (fcfs_record s.time q).completion_time a = a + ((s.p ++ [_]).map _).sum
    rw [hct, hqa]
    simp only [List.map_append, List.map_cons, List.map_nil, List.sum_append, List.sum_cons,
      List.sum_nil, hbt]
    have := h.time
    omega
  · show pair_min ((s.p ++ [_]).map _) ≤ sum_waiting (s.p ++ [_])
    unfold sum_waiting
    simp only [List.map_append, List.map_cons, List.map_nil, List.sum_append, List.sum_cons,
      List.sum_nil, hbt]
    rw [pair_min_snoc, hwt]
    have h1 := sum_map_min_le q.burst_time (s.p.map (fun q => q.burst_time))
    have h2 := h.wait
    unfold sum_waiting at h2
    omega

/-- With a common arrival time and a timeline that fits, the total waiting time under FCFS is at
least the least the bursts allow. -/
theorem simulate_fcfs_spt {input : List Process} {a : Int} (hv : ValidInput input)
    (hf : Fits input) (ha : ∀ q ∈ input, q.arrival_time = a) :
    pair_min (input.map (fun q => q.burst_time)) ≤ sum_waiting (simulate_fcfs input).2 := by
  have ha0 : 0 ≤ a := by
    obtain ⟨q, hq⟩ := List.exists_mem_of_length_pos (Nat.lt_of_lt_of_le Nat.zero_lt_one hv.1)
    have := (hv.2 q hq).1
    rw [ha q hq] at this
    exact this
  have hinit : FcfsInv (max_arrival input) ⟨0, [], []⟩
      (qsort cmp_arrival_pid (clear_done input)) :=
    fcfsInv_init (max_arrival_nonneg _)
      (fun q hq => by
        rw [mem_qsort] at hq
        exact ⟨validProc_clear_done hv.2 q hq, arrival_le_clear_done hq⟩)
      (by rw [sum_burst_perm (qsort_perm _ _), sum_burst_clear_done]; exact hf)
  have hboth := fcfs_loop_induct
    (fun s rest => FcfsInv (max_arrival input) s rest ∧ FcfsSptInv a s rest)
    (fun s q rest h => ⟨fcfsInv_step h.1, fcfsSptInv_step h.1 h.2⟩)
    (qsort cmp_arrival_pid (clear_done input)) ⟨0, [], []⟩
    ⟨hinit, ⟨fun q hq => by
        rw [mem_qsort] at hq
        obtain ⟨q0, hq0, rfl⟩ := mem_clear_done hq
        exact ha q0 hq0,
      by show max (0 : Int) a = a + 0; omega,
      le_rfl⟩⟩
  have hw := hboth.2.wait
  have hperm : ((simulate_fcfs input).2.map (fun q => q.burst_time)).Perm
      (input.map (fun q => q.burst_time)) := by
    have h1 := (simulate_fcfs_core_perm input).map (fun c : Int × Int × Int => c.2.2)
    simpa [core, Function.comp_def] using h1
  rw [← pair_min_perm hperm]
  exact hw

/-- C20 as stated fails in its second part: on the valid input `(0,2^30), (0,2^30), (0,1)` the
clock of FCFS overflows before process 3, which then starts at 0; the waiting times add up to
`2^30` under FCFS and to `2^30 + 2` under SJF. -/
theorem C20_counterexample :
    ValidInput input_half ∧ (∀ q ∈ input_half, q.arrival_time = 0) ∧
      sum_waiting (simulate_fcfs input_half).2 = 1073741824 ∧
      ∃ res, simulate_sjf input_half = some res ∧ sum_waiting res.2 = 1073741826 ∧
        ¬ sum_waiting res.2 ≤ sum_waiting (simulate_fcfs input_half).2 :=
  ⟨by decide, by decide, by decide,
    ([⟨Label.proc 3, 0, 1⟩, ⟨Label.proc 1, 1, 1073741825⟩,
        ⟨Label.proc 2, 1073741825, -2147483647⟩],
      [⟨1, 0, 1073741824, 1, 1073741825, 1073741825, 1, 1, 1⟩,
        ⟨2, 0, 1073741824, 1073741825, -2147483647, -2147483647, 1073741825, 1073741825, 1⟩,
        ⟨3, 0, 1, 0, 1, 1, 0, 0, 1⟩]),
    by decide, by decide, by decide⟩

/-- When every process arrives at `a`, every state the SJF loop goes through has dispatched the
shortest bursts; this needs no bound on the timeline. -/
theorem visited_burst_order {input : List Process} {a : Int}
    (ha : ∀ q ∈ input, q.arrival_time = a) :
    ∀ s, Visited input s → SjfBurstInv a s := by
  intro s hs
  induction hs with
  | init =>
    constructor
    · intro q hq
      obtain ⟨q0, h0, rfl⟩ := mem_clear_done hq
      exact ha q0 h0
    · intro q hq hd
      exact absurd (done_clear_done hq) hd
  | idle _ _ _ _ ih => exact ih
  | @dispatch s idx _ _ hp ih =>
    obtain ⟨hi, hel, hmin⟩ := pick_sjf_some hp
    have hpa := ih.1 _ (getD_mem hi)
    constructor
    · intro q hq
      rcases mem_dispatch hq with h1 | h1
      · exact ih.1 q h1
      · rw [h1]; exact hpa
    · intro q hq hqd r hr hrd
      have hr' : r ∈ s.p := by
        rcases mem_dispatch hr with h1 | h1
        · exact h1
        · rw [h1] at hrd
          have h2 : (sjf_record s.time (s.p.getD idx default)).done = 1 := rfl
          rw [h2] at hrd
          exact absurd hrd (by decide)
      rcases mem_dispatch hq with h1 | h1
      · exact ih.2 q h1 hqd r hr' hrd
      · rw [h1]
        have hra := ih.1 r hr'
        have hel2 := hel.2
        exact hmin r hr' ⟨hrd, by omega⟩

/-- C20, amended: for every valid input in which all processes have the same arrival time,
`simulate_sjf` dispatches in non-decreasing burst order: each dispatch takes a process whose
burst is at least that of every process dispatched before and at most that of every process
not yet dispatched.  When that arrival time plus the total burst time is at most `INT_MAX`, a
process that starts earlier in the final table has a burst no longer, and the sum of the
waiting times `simulate_sjf` produces is at most the sum produced by `simulate_fcfs`. -/
theorem C20_sjf_least_total_waiting (input : List Process) (a : Int) (hv : ValidInput input)
    (ha : ∀ q ∈ input, q.arrival_time = a) :
    (∀ s idx, Visited input s → s.finished < s.p.length → pick_sjf s.p s.time = some idx →
      (∀ q ∈ s.p, q.done ≠ 0 → q.burst_time ≤ (s.p.getD idx default).burst_time) ∧
      ∀ r ∈ s.p, r.done = 0 → (s.p.getD idx default).burst_time ≤ r.burst_time) ∧
    (Fits input →
      ∃ res, simulate_sjf input = some res ∧ res.2.length = input.length ∧
        (∀ q ∈ res.2, ∀ r ∈ res.2, q.start_time < r.start_time →
          q.burst_time ≤ r.burst_time) ∧
        sum_waiting res.2 ≤ sum_waiting (simulate_fcfs input).2) := by
  constructor
  · intro s idx hs _ hp
    obtain ⟨harr, hord⟩ := visited_burst_order ha s hs
    obtain ⟨hi, hel, hmin⟩ := pick_sjf_some hp
    constructor
    · intro q hq hqd
      exact hord q hq hqd _ (getD_mem hi) hel.1
    · intro r hr hrd
      have hra := harr r hr
      have hpa := harr _ (getD_mem hi)
      have hel2 := hel.2
      exact hmin r hr ⟨hrd, by omega⟩
  · intro hf
    obtain ⟨r, hr, hinv, hdone, harr, hw⟩ := sjf_run_spt hv hf ha
    refine ⟨(r.seg, r.p), simulate_sjf_eq hr, sjf_run_length hinv, ?_, ?_⟩
    · intro q hq x hx hlt
      by_contra hcon
      have hxq : x.burst_time < q.burst_time := by omega
      have hqs := (hinv.fin q hq (hdone q hq)).1.started
      have hxa : x.arrival_time ≤ q.start_time := by
        rw [harr x hx, ← harr q hq]; exact hqs
      have h1 := (hinv.shortest q hq (hdone q hq) x hx hxa hxq).2
      have hxf := (hinv.fin x hx (hdone x hx)).1
      have := hxf.completion
      have := (hinv.valid x hx).1.2.2.1
      omega
    · show sum_waiting r.p ≤ _
      rw [hw]
      exact simulate_fcfs_spt hv hf ha

/-- C20, amended, on three processes arriving at 0 with bursts 8, 3, 5: SJF runs them in the
order 3, 5, 8. -/
theorem C20_sjf_least_total_waiting_witness :
    ValidInput [mkProc 1 0 8, mkProc 2 0 3, mkProc 3 0 5] ∧
    Fits [mkProc 1 0 8, mkProc 2 0 3, mkProc 3 0 5] ∧
    (∀ q ∈ [mkProc 1 0 8, mkProc 2 0 3, mkProc 3 0 5], q.arrival_time = 0) ∧
    (∀ s idx, Visited [mkProc 1 0 8, mkProc 2 0 3, mkProc 3 0 5] s →
      s.finished < s.p.length → pick_sjf s.p s.time = some idx →
      (∀ q ∈ s.p, q.done ≠ 0 → q.burst_time ≤ (s.p.getD idx default).burst_time) ∧
      ∀ r ∈ s.p, r.done = 0 → (s.p.getD idx default).burst_time ≤ r.burst_time) ∧
    ∃ res, simulate_sjf [mkProc 1 0 8, mkProc 2 0 3, mkProc 3 0 5] = some res ∧
      res.1 = [⟨Label.proc 2, 0, 3⟩, ⟨Label.proc 3, 3, 8⟩, ⟨Label.proc 1, 8, 16⟩] ∧
      res.2.length = [mkProc 1 0 8, mkProc 2 0 3, mkProc 3 0 5].length ∧
      (∀ q ∈ res.2, ∀ r ∈ res.2, q.start_time < r.start_time →
        q.burst_time ≤ r.burst_time) ∧
      sum_waiting res.2 ≤
        sum_waiting (simulate_fcfs [mkProc 1 0 8, mkProc 2 0 3, mkProc 3 0 5]).2 := by
  obtain ⟨h1, h2⟩ := C20_sjf_least_total_waiting [mkProc 1 0 8, mkProc 2 0 3, mkProc 3 0 5] 0
    (by decide) (by decide)
  obtain ⟨res, hres, h3, h4, h5⟩ := h2 (by decide)
  refine ⟨by decide, by decide, by decide, h1, res, hres, ?_, h3, h4, h5⟩
  have hval : simulate_sjf [mkProc 1 0 8, mkProc 2 0 3, mkProc 3 0 5] =
      some ([⟨Label.proc 2, 0, 3⟩, ⟨Label.proc 3, 3, 8⟩, ⟨Label.proc 1, 8, 16⟩],
        [⟨1, 0, 8, 8, 16, 16, 8, 8, 1⟩, ⟨2, 0, 3, 0, 3, 3, 0, 0, 1⟩,
          ⟨3, 0, 5, 3, 8, 8, 3, 3, 1⟩]) := by decide
  rw [hval] at hres
  cases hres
  rfl

/-! ## SJF against FCFS on equal bursts -/

theorem pid_getD {l : List Process} (h : PidsInOrder l) {i : Nat} (hi : i < l.length) :
    (l.getD i default).pid = (i : Int) + 1 := by
  unfold PidsInOrder at h
  have h1 := congrArg (fun m : List Int => m[i]?) h
  simp only [List.getElem?_map, List.getElem?_eq_getElem hi, List.getElem?_range hi,
    Option.map_some', Option.some.injEq] at h1
  rw [List.getD_eq_getElem _ _ hi]
  exact h1

theorem map_pid_eq_of_core {l₁ l₂ : List Process} (h : l₁.map core = l₂.map core) :
    l₁.map (fun q => q.pid) = l₂.map (fun q => q.pid) := by
  have e : ∀ l : List Process, l.map (fun q => q.pid) = (l.map core).map Prod.fst := by
    intro l; rw [List.map_map]; rfl
  rw [e, e, h]

theorem pidsInOrder_of_core {l₁ l₂ : List Process} (h : l₁.map core = l₂.map core)
    (hp : PidsInOrder l₂) : PidsInOrder l₁ := by
  have hl : l₁.length = l₂.length := by
    have := congrArg List.length h
    simpa using this
  unfold PidsInOrder at hp ⊢
  rw [map_pid_eq_of_core h, hl]; exact hp

/-- A member of an array one of whose entries has been overwritten is the new entry or an old
entry at another index. -/
theorem mem_set_cases {l : List Process} {idx : Nat} {r q : Process} (hq : q ∈ l.set idx r) :
    q = r ∨ ∃ j, j < l.length ∧ j ≠ idx ∧ l.getD j default = q := by
  obtain ⟨j, hj, hg⟩ := List.mem_iff_getElem.mp hq
  have hj' : j < l.length := by rw [List.length_set] at hj; exact hj
  by_cases hji : j = idx
  · left
    subst hji
    rw [List.getElem_set_self] at hg
    exact hg.symm
  · right
    refine ⟨j, hj', hji, ?_⟩
    rw [List.getElem_set_ne (Ne.symm hji)] at hg
    rw [List.getD_eq_getElem _ _ hj']
    exact hg

/-- A dispatch of SJF at the clock value at which FCFS starts the record writes the record FCFS
writes, the flag `done` apart. -/
theorem sjf_record_eq_fcfs {t t' : Int} {q x : Process} (hc : core q = core x)
    (ht : t = if t' < x.arrival_time then x.arrival_time else t') :
    sjf_record t q = set_done (fcfs_record t' x) := by
  simp only [core, Prod.mk.injEq] at hc
  obtain ⟨h1, h2, h3⟩ := hc
  unfold sjf_record fcfs_record set_done
  simp only [h1, h2, h3, ht]

/-- On equal bursts `pick_sjf` selects the record FCFS dispatches next, and that record has
arrived. -/
theorem sjfFcfs_pick {b : Int} {pre tl : List Process} {x : Process} {f : FcfsState}
    {s : SjfState} {idx : Nat} (h : SjfFcfsInv b pre (x :: tl) f s)
    (hp : pick_sjf s.p s.time = some idx) :
    idx < s.p.length ∧ core (s.p.getD idx default) = core x ∧ x.arrival_time ≤ s.time := by
  obtain ⟨hi, hel, hle, hlt⟩ := pick_sjf_some_lex hp
  have hpk : s.p.getD idx default ∈ s.p := getD_mem hi
  obtain ⟨y, hy, hcy⟩ := h.pending _ hpk hel.1
  obtain ⟨qx, hqx, hqd, hcx⟩ := h.waiting x (List.mem_cons_self _ _)
  obtain ⟨ix, hix, hgx⟩ := mem_iff_getD.mp hqx
  have hxy : y = x ∨ ArrivalPidLT x y := by
    rcases List.mem_cons.mp hy with h1 | h1
    · exact Or.inl h1
    · exact Or.inr ((List.pairwise_cons.mp h.sorted).1 y h1)
  have hcy' := hcy
  have hcx' := hcx
  simp only [core, Prod.mk.injEq] at hcy' hcx'
  obtain ⟨hy1, hy2, _⟩ := hcy'
  obtain ⟨hx1, hx2, _⟩ := hcx'
  have hxa : x.arrival_time ≤ y.arrival_time := by
    rcases hxy with h1 | h1
    · rw [h1]
    · unfold ArrivalPidLT at h1; omega
  have hel2 := hel.2
  have helx : Eligible s.time (s.p.getD ix default) := by
    rw [hgx]; exact ⟨hqd, by omega⟩
  have h1 := hle ix hix helx
  rw [hgx] at h1
  have hbp := h.bursts _ hpk
  have hbq := h.bursts qx hqx
  have harr : (s.p.getD idx default).arrival_time = x.arrival_time := by
    unfold BurstArrivalLE at h1; omega
  refine ⟨hi, ?_, by omega⟩
  rcases hxy with h2 | h2
  · rw [← h2]; exact hcy.symm
  · exfalso
    have hpx := pid_getD h.pids hix
    rw [hgx] at hpx
    have hpp := pid_getD h.pids hi
    have hlt' : ix < idx := by unfold ArrivalPidLT at h2; omega
    have h3 := hlt ix hlt' helx
    rw [hgx] at h3
    unfold BurstArrivalLT at h3; omega

/-- The invariant is kept by a dispatch of SJF, FCFS running one iteration. -/
theorem sjfFcfs_dispatch {b : Int} {pre tl : List Process} {x : Process} {f : FcfsState}
    {s : SjfState} {idx : Nat} (h : SjfFcfsInv b pre (x :: tl) f s)
    (hp : pick_sjf s.p s.time = some idx) :
    SjfFcfsInv b (pre ++ [x]) tl (fcfs_step f x) (sjf_dispatch s idx) := by
  obtain ⟨hi, hc, hxs⟩ := sjfFcfs_pick h hp
  have hd0 : (s.p.getD idx default).done = 0 := (pick_sjf_some hp).2.1.1
  have hrec1 : (sjf_record s.time (s.p.getD idx default)).done = 1 := rfl
  have hcore : (s.p.set idx (sjf_record s.time (s.p.getD idx default))).map core =
      s.p.map core := core_dispatch hi
  have hst : s.time = if f.time < x.arrival_time then x.arrival_time else f.time := by
    rcases h.clock with ⟨h1, _⟩ | ⟨x', tl', h1, h2, h3, _⟩
    · rw [if_neg (by omega)]; exact h1
    · obtain ⟨rfl, rfl⟩ := List.cons.inj h1
      rw [if_pos h2]; exact h3
  have hrec := sjf_record_eq_fcfs hc hst
  have hc' := hc
  simp only [core, Prod.mk.injEq] at hc'
  obtain ⟨hc1, hc2, hc3⟩ := hc'
  rw [sjf_dispatch_eq, fcfs_step_eq]
  refine ⟨?_, ?_, ?_, ?_, ?_, ?_, ?_, ?_, ?_, ?_⟩
  · show s.finished + 1 = (pre ++ [x]).length
    rw [h.finished]; simp
  · show (s.p.set idx _).length = (pre ++ [x]).length + tl.length
    rw [List.length_set, h.len]; simp; omega
  · show PidsInOrder (s.p.set idx _)
    exact pidsInOrder_of_core hcore h.pids
  · intro q hq
    rcases List.mem_or_eq_of_mem_set hq with h1 | h1
    · exact h.bursts q h1
    · rw [h1]; exact h.bursts (s.p.getD idx default) (getD_mem hi)
  · intro q hq
    rcases List.mem_or_eq_of_mem_set hq with h1 | h1
    · exact h.late q h1
    · rw [h1]; exact h.late (s.p.getD idx default) (getD_mem hi)
  · exact (List.pairwise_cons.mp h.sorted).2
  · intro q hq hqd
    rcases mem_set_cases hq with h1 | ⟨j, hj, hji, hg⟩
    · rw [h1, hrec1] at hqd; exact absurd hqd (by decide)
    · have hqm : q ∈ s.p := hg ▸ getD_mem hj
      obtain ⟨y, hy, hcy⟩ := h.pending q hqm hqd
      refine ⟨y, ?_, hcy⟩
      rcases List.mem_cons.mp hy with h2 | h2
      · exfalso
        have hpj := pid_getD h.pids hj
        rw [hg] at hpj
        have hpi := pid_getD h.pids hi
        rw [h2] at hcy
        simp only [core, Prod.mk.injEq] at hcy
        omega
      · exact h2
  · intro y hy
    obtain ⟨q, hq, hqd, hcq⟩ := h.waiting y (List.mem_cons_of_mem _ hy)
    refine ⟨q, mem_set_of_ne hq ?_, hqd, hcq⟩
    intro heq
    have hlt := (List.pairwise_cons.mp h.sorted).1 y hy
    rw [heq] at hcq
    simp only [core, Prod.mk.injEq] at hcq
    unfold ArrivalPidLT at hlt
    omega
  · show (done_list (s.p.set idx _)).Perm ((f.p ++ [fcfs_record f.time x]).map set_done)
    have h1 := done_list_dispatch hp
    rw [sjf_dispatch_eq] at h1
    refine h1.trans ?_
    rw [List.map_append, List.map_singleton, ← hrec]
    exact ((List.Perm.cons _ h.table).trans (List.perm_append_singleton _ _).symm)
  · left
    constructor
    · show (sjf_record s.time (s.p.getD idx default)).completion_time =
        (fcfs_record f.time x).completion_time
      rw [hrec]; rfl
    · show s.seg ++ [⟨Label.proc (s.p.getD idx default).pid, s.time,
          (sjf_record s.time (s.p.getD idx default)).completion_time⟩] =
        f.seg ++ fcfs_segs f.time x
      have hct : (sjf_record s.time (s.p.getD idx default)).completion_time =
          (fcfs_record f.time x).completion_time := by rw [hrec]; rfl
      have hstart : (fcfs_record f.time x).start_time = s.time := by
        rw [hst]; rfl
      rw [hct, hc1]
      unfold fcfs_segs
      rw [hstart]
      rcases h.clock with ⟨h1, h2⟩ | ⟨x', tl', h1, h2, h3, h4⟩
      · rw [if_neg (by omega), h2]; rfl
      · obtain ⟨rfl, rfl⟩ := List.cons.inj h1
        rw [if_pos h2, h4, List.append_assoc]

/-- The invariant is kept by the IDLE branch of SJF: FCFS writes the same IDLE segment at the
start of its next iteration. -/
theorem sjfFcfs_idle {b : Int} {pre rest : List Process} {f : FcfsState} {s : SjfState}
    (h : SjfFcfsInv b pre rest f s) (hlt : s.finished < s.p.length)
    (hp : pick_sjf s.p s.time = none) (he : earliest_arrival_not_done s.p ≠ INT_MAX) :
    SjfFcfsInv b pre rest f (sjf_idle s (earliest_arrival_not_done s.p)) := by
  have hne : rest ≠ [] := by
    intro h0
    have h1 := h.len
    have h2 := h.finished
    rw [h0] at h1
    simp only [List.length_nil] at h1
    omega
  obtain ⟨x, tl, hrest⟩ := List.exists_cons_of_ne_nil hne
  obtain ⟨qx, hqx, hqd, hcx⟩ := h.waiting x (by rw [hrest]; exact List.mem_cons_self _ _)
  have hcx' := hcx
  simp only [core, Prod.mk.injEq] at hcx'
  obtain ⟨_, hx2, _⟩ := hcx'
  have hnel : ¬ Eligible s.time qx := pick_sjf_none hp qx hqx
  have hgt : s.time < x.arrival_time := by
    unfold Eligible at hnel
    by_contra hcon
    exact hnel ⟨hqd, by omega⟩
  have hA : s.time = f.time ∧ s.seg = f.seg := by
    rcases h.clock with h1 | ⟨x', tl', h1, _, h3, _⟩
    · exact h1
    · exfalso
      rw [hrest] at h1
      obtain ⟨rfl, rfl⟩ := List.cons.inj h1
      omega
  have h1 := earliest_le_arrival hqx hqd
  obtain ⟨q', hq', hqd', hqa'⟩ := earliest_attained he
  obtain ⟨y, hy, hcy⟩ := h.pending q' hq' hqd'
  simp only [core, Prod.mk.injEq] at hcy
  have hxy : x.arrival_time ≤ y.arrival_time := by
    rw [hrest] at hy
    rcases List.mem_cons.mp hy with h2 | h2
    · rw [h2]
    · have hs := h.sorted
      rw [hrest] at hs
      have := (List.pairwise_cons.mp hs).1 y h2
      unfold ArrivalPidLT at this; omega
  have hea : earliest_arrival_not_done s.p = x.arrival_time := by omega
  exact {
    finished := h.finished
    len := h.len
    pids := h.pids
    bursts := h.bursts
    late := h.late
    sorted := h.sorted
    pending := h.pending
    waiting := h.waiting
    table := h.table
    clock := Or.inr ⟨x, tl, hrest, by omega, hea, by
      show s.seg ++ [⟨Label.idle, s.time, earliest_arrival_not_done s.p⟩] = _
      rw [hea, hA.1, hA.2]⟩ }
/-- The invariant holds when the SJF loop is entered, FCFS having dispatched nothing. -/
theorem sjfFcfs_init {input : List Process} {b : Int} (hv : ValidInput input)
    (hn : (input.length : Int) ≤ INT_MAX) (hp : PidsInOrder input)
    (hb : ∀ q ∈ input, q.burst_time = b) (hA : ∀ q ∈ input, q.arrival_time < INT_MAX) :
    SjfFcfsInv b [] (qsort cmp_arrival_pid (clear_done input))
      ⟨initial_time (clear_done input), [], []⟩ (sjf_init input) := by
  have hM : INT_MAX = 2147483647 := rfl
  have hp' : PidsInOrder (clear_done input) := pidsInOrder_of_core (core_clear_done input) hp
  have hlen : (clear_done input).length = input.length := by
    unfold clear_done; rw [List.length_map]
  have hpid : ∀ q ∈ clear_done input, PidOK q := by
    intro q hq
    have := pidsInOrder_bounds hp' hq
    rw [hlen] at this
    unfold PidOK; omega
  have hle := qsort_arrival_pid_sorted (validProc_clear_done hv.2) hpid
  have hne0 : (clear_done input).Pairwise (fun a b => a.pid ≠ b.pid) := by
    have := pidsInOrder_sorted hp'
    rw [List.pairwise_map] at this
    exact this.imp (fun {a b} h => by
      have h' : a.pid < b.pid := h
      omega)
  have hne : (qsort cmp_arrival_pid (clear_done input)).Pairwise
      (fun a b => a.pid ≠ b.pid) :=
    hne0.perm (qsort_perm _ _).symm (fun h => Ne.symm h)
  refine ⟨rfl, ?_, hp', ?_, ?_, ?_, ?_, ?_, ?_, Or.inl ⟨rfl, rfl⟩⟩
  · show (clear_done input).length = ([] : List Process).length + (qsort _ _).length
    rw [(qsort_perm _ _).length_eq]; simp
  · intro q hq
    obtain ⟨q0, h0, rfl⟩ := mem_clear_done hq
    exact hb q0 h0
  · intro q hq
    obtain ⟨q0, h0, rfl⟩ := mem_clear_done hq
    exact hA q0 h0
  · exact (hle.and hne).imp (fun {a b} h => by
      have h1 := h.1
      have h2 := h.2
      unfold ArrivalPidLE at h1
      unfold ArrivalPidLT
      omega)
  · intro q hq _
    exact ⟨q, mem_qsort.mpr hq, rfl⟩
  · intro y hy
    exact ⟨y, mem_qsort.mp hy, done_clear_done (mem_qsort.mp hy), rfl⟩
  · show (done_list (clear_done input)).Perm (([] : List Process).map set_done)
    rw [done_list_clear_done]
    exact List.Perm.nil

/-- On equal bursts, no process arriving at `INT_MAX`, the SJF loop ends with the segments and
the records of the FCFS loop started at the first arrival, the flag `done` apart. -/
theorem sjf_run_follows {input : List Process} {b : Int} (hv : ValidInput input)
    (hn : (input.length : Int) ≤ INT_MAX) (hp : PidsInOrder input)
    (hb : ∀ q ∈ input, q.burst_time = b) (hA : ∀ q ∈ input, q.arrival_time < INT_MAX) :
    ∃ r, sjf_run input = some r ∧
      r.seg = (fcfs_loop ⟨initial_time (clear_done input), [], []⟩
        (qsort cmp_arrival_pid (clear_done input))).seg ∧
      r.p.Perm ((fcfs_loop ⟨initial_time (clear_done input), [], []⟩
        (qsort cmp_arrival_pid (clear_done input))).p.map set_done) := by
  obtain ⟨r, hr⟩ := sjf_run_terminates input
  refine ⟨r, hr, ?_⟩
  have hrest : ∀ {pre rest : List Process} {f : FcfsState} {s : SjfState},
      SjfFcfsInv b pre rest f s → s.finished < s.p.length → rest ≠ [] := by
    intro pre rest f s h hlt h0
    have h1 := h.len
    have h2 := h.finished
    rw [h0] at h1
    simp only [List.length_nil] at h1
    omega
  have key := sjf_loop_inv
    (SjfFollows b (initial_time (clear_done input)) (qsort cmp_arrival_pid (clear_done input)))
    (fun s hs hlt hpn he => by
      obtain ⟨pre, rest, hsp, h⟩ := hs
      exact ⟨pre, rest, hsp, sjfFcfs_idle h hlt hpn he⟩)
    (fun s idx hs hlt hps => by
      obtain ⟨pre, rest, hsp, h⟩ := hs
      obtain ⟨x, tl, hxt⟩ := List.exists_cons_of_ne_nil (hrest h hlt)
      subst hxt
      refine ⟨pre ++ [x], tl, by rw [hsp]; simp, ?_⟩
      rw [fcfs_loop_append]
      exact sjfFcfs_dispatch h hps)
    _ _ r ⟨[], _, rfl, sjfFcfs_init hv hn hp hb hA⟩ hr
  obtain ⟨⟨pre, rest, hsp, h⟩, hex⟩ := key
  have hnil : rest = [] := by
    rcases hex with hfin | ⟨hlt, _, hemax⟩
    · have h1 := h.len
      have h2 := h.finished
      have : rest.length = 0 := by omega
      exact List.length_eq_zero.mp this
    · exfalso
      obtain ⟨x, tl, hxt⟩ := List.exists_cons_of_ne_nil (hrest h hlt)
      obtain ⟨qx, hqx, hqd, _⟩ := h.waiting x (by rw [hxt]; exact List.mem_cons_self _ _)
      have h1 := earliest_le_arrival hqx hqd
      have h2 := h.late qx hqx
      omega
  subst hnil
  rw [List.append_nil] at hsp
  subst hsp
  constructor
  · rcases h.clock with ⟨_, h2⟩ | ⟨x, tl, h1, _⟩
    · exact h2
    · cases h1
  · have hall : ∀ q ∈ r.p, q.done ≠ 0 := by
      intro q hq hd
      obtain ⟨y, hy, _⟩ := h.pending q hq hd
      cases hy
    have := h.table
    rw [done_list_all hall] at this
    exact this

/-- Segments already in the buffer play no part in the FCFS loop. -/
theorem fcfs_loop_seg_shift (lead : List Segment) (l : List Process) :
    ∀ s : FcfsState, fcfs_loop ⟨s.time, lead ++ s.seg, s.p⟩ l =
      ⟨(fcfs_loop s l).time, lead ++ (fcfs_loop s l).seg, (fcfs_loop s l).p⟩ := by
  induction l with
  | nil => intro s; rfl
  | cons q rest ih =>
    intro s
    rw [fcfs_loop_cons, fcfs_loop_cons, ← ih (fcfs_step s q)]
    congr 1
    rw [fcfs_step_eq, fcfs_step_eq]
    simp only [List.append_assoc]

/-- The FCFS loop started at clock value 0 differs from the one started at the first arrival by
the leading IDLE segment only. -/
theorem fcfs_loop_from_zero {x : Process} {tl : List Process} (h0 : 0 ≤ x.arrival_time) :
    fcfs_loop ⟨0, [], []⟩ (x :: tl) =
      ⟨(fcfs_loop ⟨x.arrival_time, [], []⟩ (x :: tl)).time,
        (if 0 < x.arrival_time then [⟨Label.idle, 0, x.arrival_time⟩] else []) ++
          (fcfs_loop ⟨x.arrival_time, [], []⟩ (x :: tl)).seg,
        (fcfs_loop ⟨x.arrival_time, [], []⟩ (x :: tl)).p⟩ := by
  have hr : fcfs_record 0 x = fcfs_record x.arrival_time x := by
    unfold fcfs_record
    by_cases h : 0 < x.arrival_time
    · simp only [h, if_true, lt_self_iff_false, if_false]
    · have h1 : x.arrival_time = 0 := by omega
      simp only [h1, lt_self_iff_false, if_false]
  have hs : fcfs_segs 0 x =
      (if 0 < x.arrival_time then [⟨Label.idle, 0, x.arrival_time⟩] else []) ++
        fcfs_segs x.arrival_time x := by
    unfold fcfs_segs
    rw [hr]
    simp only [lt_self_iff_false, if_false, List.nil_append]
  rw [fcfs_loop_cons, fcfs_loop_cons, fcfs_step_eq, fcfs_step_eq]
  simp only [List.nil_append]
  rw [hs, hr]
  exact fcfs_loop_seg_shift _ tl
    ⟨(fcfs_record x.arrival_time x).completion_time, fcfs_segs x.arrival_time x,
      [fcfs_record x.arrival_time x]⟩

/-- SJF degenerates to FCFS on equal bursts when no process arrives at `INT_MAX`: for every
valid input in pid order whose processes have the same `burst_time` and arrive before
`INT_MAX`, `simulate_sjf` returns, its table sorted by pid is the table of `simulate_fcfs`
sorted by pid, row by row and field by field, the flag `done` apart, and the segments of
`simulate_fcfs` are those of `simulate_sjf` preceded by the IDLE segment `[0, a)` when the
smallest arrival time `a` is positive.  Overflow of the clock is not excluded. -/
theorem sjf_eq_fcfs_of_equal_bursts (input : List Process) (b a : Int) (hv : ValidInput input)
    (hn : (input.length : Int) ≤ INT_MAX) (hp : PidsInOrder input)
    (hb : ∀ q ∈ input, q.burst_time = b) (hA : ∀ q ∈ input, q.arrival_time < INT_MAX)
    (ha : IsMinArrival input a) :
    ∃ res, simulate_sjf input = some res ∧
      table_rows res.2 = (table_rows (simulate_fcfs input).2).map set_done ∧
      (simulate_fcfs input).1 =
        (if 0 < a then [⟨Label.idle, 0, a⟩] else []) ++ res.1 := by
  obtain ⟨r, hr, hseg, hperm⟩ := sjf_run_follows hv hn hp hb hA
  obtain ⟨q0, rest, hq, hqa⟩ := qsort_head_min hv ha
  have hta : initial_time (clear_done input) = a :=
    isMinArrival_unique (initial_time_isMin (clear_done_ne_nil hv)) (isMinArrival_clear_done ha)
  have ha0 : 0 ≤ a := by
    obtain ⟨⟨q, hq', hqa'⟩, _⟩ := ha
    have := (hv.2 q hq').1
    omega
  have hf : simulate_fcfs input =
      ((fcfs_loop ⟨0, [], []⟩ (qsort cmp_arrival_pid (clear_done input))).seg,
        (fcfs_loop ⟨0, [], []⟩ (qsort cmp_arrival_pid (clear_done input))).p) := rfl
  rw [hta, hq] at hseg hperm
  rw [hq, fcfs_loop_from_zero (by rw [hqa]; exact ha0), hqa] at hf
  refine ⟨(r.seg, r.p), simulate_sjf_eq hr, ?_, ?_⟩
  · have hcp := simulate_fcfs_core_perm input
    have hs2 := (table_rows_core hn hp hcp).2
    have hpermt : (table_rows r.p).Perm ((table_rows (simulate_fcfs input).2).map set_done) := by
      refine (qsort_perm _ _).trans (hperm.trans ?_)
      rw [hf]
      exact ((qsort_perm cmp_pid _).map set_done).symm
    have hcore2 : ((table_rows (simulate_fcfs input).2).map set_done).map core =
        (table_rows (simulate_fcfs input).2).map core := by
      rw [List.map_map]; rfl
    have hcr : (r.p.map core).Perm (input.map core) := by
      have h1 := (((qsort_perm cmp_pid r.p).symm.trans hpermt).map core)
      rw [hcore2, (table_rows_core hn hp hcp).1] at h1
      exact h1
    have hs1 := (table_rows_core hn hp hcr).2
    haveI : IsAntisymm Process (fun x y => x.pid < y.pid) :=
      ⟨fun a b h1 h2 => absurd h1 (not_lt.mpr (le_of_lt h2))⟩
    apply List.eq_of_perm_of_sorted hpermt hs1
    show ((table_rows (simulate_fcfs input).2).map set_done).Pairwise _
    rw [List.pairwise_map]
    exact hs2
  · rw [hf, hseg]

/-- The equivalence at Example 3 of the specification with equal bursts, `(5,2), (10,2)`. -/
theorem sjf_eq_fcfs_of_equal_bursts_example :
    ∃ res, simulate_sjf input_gap = some res ∧
      table_rows res.2 = (table_rows (simulate_fcfs input_gap).2).map set_done ∧
      (simulate_fcfs input_gap).1 =
        (if (0 : Int) < 5 then [⟨Label.idle, 0, 5⟩] else []) ++ res.1 :=
  sjf_eq_fcfs_of_equal_bursts input_gap 2 5 (by decide) (by decide) (by decide) (by decide)
    (by decide) (by decide)

/-- C19 fails on the code.  On the valid input `(0,1), (2147483647,1)`, pids 1 and 2 in input
order and equal bursts, `simulate_fcfs` idles from 1 to 2147483647 and starts process 2 there,
while `simulate_sjf` leaves its loop through the `break` and never dispatches process 2: the
two tables differ on process 2 and FCFS has two segments that SJF lacks, neither of them a
leading IDLE segment.  An arrival at `INT_MAX` is the only way for the two to part on equal
bursts, see `sjf_eq_fcfs_of_equal_bursts`. -/
theorem C19_sjf_stops_where_fcfs_goes_on :
    ValidInput input_far_zero ∧ PidsInOrder input_far_zero ∧
    (∀ q ∈ input_far_zero, q.burst_time = 1) ∧
    simulate_fcfs input_far_zero =
      ([⟨Label.proc 1, 0, 1⟩, ⟨Label.idle, 1, 2147483647⟩,
          ⟨Label.proc 2, 2147483647, -2147483648⟩],
        [⟨1, 0, 1, 0, 1, 1, 0, 0, 0⟩,
          ⟨2, 2147483647, 1, 2147483647, -2147483648, 1, 0, 0, 0⟩]) ∧
    simulate_sjf input_far_zero =
      some ([⟨Label.proc 1, 0, 1⟩],
        [⟨1, 0, 1, 0, 1, 1, 0, 0, 1⟩, ⟨2, 2147483647, 1, 0, 0, 0, 0, 0, 0⟩]) := by
  decide

end Sched
